import Mathlib

/-!
# SmallThink interpreter: a shallow embedding of `src/main.cpp`

The interpreter is a three stage pipeline (`lex`, `parse`, `run`).  This file embeds the
data model, the lexer, the parser and the execution engine as pure Lean functions and
proves properties of them.

Modelling conventions
* `std::string` is a Lean `String`; every `Char` stands for one byte.
* `std::map<std::string, T>` is an association list.  The program never iterates over a map,
  so the position of a key in the list is not observable; `map_at` is `std::map::at`
  (with `none` for the `std::out_of_range` exception) and `map_put` is an assignment
  through `operator[]`.
* `std::cout`, `std::cerr` are the texts written so far, `std::cin` is the text still to be
  read together with the `good()` flag of the stream, and `rand()` pops a value from a
  stream of future results.
* Dereferencing a null argument pointer, reading an uninitialised variable, dividing by
  zero and an exception that nothing catches give `Outcome.undefined`.
* `double` arithmetic and its stream formatting are not modelled: they are the fields of
  `Stdlib`, over which every definition is parametrised.  So is `max_size`, the length
  beyond which the doubling loop of `MUL` cannot extend a `std::string`: the exception it
  then throws is no `std::out_of_range`, so nothing catches it.
* Instruction vectors are assumed shorter than `2^32`, so `unsigned int cip` never wraps.
* Inside `lex` the line and the current word are the lists of their characters; a token
  gets the word as a `String`.  `exit` in `parse` is a result of its own, `parse_result`.
  The anonymous enumeration of `parse` is a `Nat`, so that the `default` branch of its
  `switch` is part of the model.
-/

set_option autoImplicit false

namespace SmallThink

/-! ## `string_utils` and the character classification of `<cctype>` -/

/-- The `isspace` of the "C" locale: space, `\t`, `\n`, `\v`, `\f`, `\r`. -/
def isspace (c : Char) : Bool :=
  c.toNat = 32 || (9 ≤ c.toNat && c.toNat ≤ 13)

/-- The `isdigit` of `<cctype>`. -/
def isdigit (c : Char) : Bool :=
  48 ≤ c.toNat && c.toNat ≤ 57

/-- Value of a run of decimal digits, most significant first. -/
def digits_value (ds : List Char) : Nat :=
  ds.foldl (fun acc c => 10 * acc + (c.toNat - 48)) 0

def INT_MAX : Int := 2147483647
def INT_MIN : Int := -2147483648
def UINT_MAX : Nat := 4294967295

/-- Splits an optional sign off the front of the characters still to be read. -/
def read_sign : List Char → Bool × List Char
  | '-' :: rest => (true, rest)
  | '+' :: rest => (false, rest)
  | cs => (false, cs)

/-- `string_utils::to<int>`: `stream >> obj` on a fresh `std::stringstream`.  Leading
whitespace is skipped, then an optional sign and the longest run of decimal digits are
read.  Without any digit the extraction fails and stores `0`; a value out of range is
replaced by the nearest bound. -/
def to_int (str : String) : Int :=
  let cs := str.data.dropWhile isspace
  let sc := read_sign cs
  let ds := sc.2.takeWhile isdigit
  if ds = [] then 0
  else
    let n : Int := digits_value ds
    let v : Int := if sc.1 then -n else n
    if v > INT_MAX then INT_MAX else if v < INT_MIN then INT_MIN else v

/-- `string_utils::to<unsigned int>`: as `to_int`, but the magnitude is checked against
`UINT_MAX` and a leading minus negates the result modulo `2^32`. -/
def to_unsigned (str : String) : Nat :=
  let cs := str.data.dropWhile isspace
  let sc := read_sign cs
  let ds := sc.2.takeWhile isdigit
  if ds = [] then 0
  else
    let n := digits_value ds
    if n > UINT_MAX then UINT_MAX
    else if sc.1 then (UINT_MAX + 1 - n) % (UINT_MAX + 1) else n

/-- `string_utils::from<int>`: decimal text of an integer. -/
def from_int (element : Int) : String :=
  toString element

/-- The `::tolower` of the "C" locale. -/
def tolower (c : Char) : Char :=
  if 65 ≤ c.toNat ∧ c.toNat ≤ 90 then Char.ofNat (c.toNat + 32) else c

/-- `string_utils::lowercase`: convert a `std::string` to lowercase. -/
def lowercase (data : String) : String :=
  String.mk (data.data.map tolower)

/-- `string_utils::trim`: erases the whitespace at the left, then at the right, of the
characters of a `std::string`. -/
def trim (str : List Char) : List Char :=
  ((str.dropWhile isspace).reverse.dropWhile isspace).reverse

/-- The parts of the C++ runtime that are taken as given: `double` with its stream
extraction (`string_utils::to<double>`), stream insertion (`string_utils::from<double>`),
arithmetic and conversion from `int`; the bytes found at the address `"" + n`, which
is what the expression `"" + input` of the `get` opcode denotes; and `max_size`, the
greatest length a `std::string` can reach in the process: an append that would go beyond
it throws `std::length_error` (or `std::bad_alloc` when memory runs out first).  It is at
least 15, the characters a `std::string` holds without allocating. -/
structure Stdlib where
  Double : Type
  to_double : String → Double
  from_double : Double → String
  add : Double → Double → Double
  mul : Double → Double → Double
  of_int : Int → Double
  c_str_at : Int → String
  max_size : Nat
  max_size_ge : 15 ≤ max_size

/-! ## namespace `data` -/

namespace data

/-- Opcodes list. -/
def opcodes : List String :=
  ["mov", "add", "mul", "cmp_eq", "cmp_gt", "cmp_lt", "neg", "out", "in", "get", "flush",
   "stop", "label", "jmp", "jnz", "jz", "num", "str", "num_int", "seed_random"]

/-- Returns true if given string is in opcodes list. -/
def is_opcode (x : String) : Bool :=
  decide (x ∈ opcodes)

/-- Tokens types. -/
inductive token_type
  | TT_COMA
  | TT_STRING
  | TT_IDENTIFIER
  | TT_NUMERIC
  deriving DecidableEq, Repr

/-- Represents a token. -/
structure token where
  type : token_type
  value : String
  deriving DecidableEq, Repr

/-- Returns true if given string is a decimal number: a non-empty string of which every
character from the first (from the second when the first is `-`) is a digit or a dot. -/
def is_number (x : String) : Bool :=
  if x.data.length > 0 then
    let offset := if x.data.head? = some '-' then 1 else 0
    (x.data.drop offset).all (fun c => isdigit c || c = '.')
  else false

/-- Used by parser to know which token is expected depending of the actual instruction. -/
inductive expected_token
  | ET_OPCODE
  | ET_COMA
  | ET_IDENTIFIER
  | ET_IDENTIFIER_OR_NUMERIC
  | ET_IDENTIFIER_OR_NUMERIC_OR_STRING
  deriving DecidableEq, Repr

open token_type expected_token in
/-- Used by parser to know if a token type match an expectation. -/
def match_expectation (e_type : expected_token) (g_token : token) : Bool :=
  match e_type with
  | ET_OPCODE => g_token.type = TT_IDENTIFIER && is_opcode g_token.value
  | ET_COMA => g_token.type = TT_COMA
  | ET_IDENTIFIER => g_token.type = TT_IDENTIFIER
  | ET_IDENTIFIER_OR_NUMERIC => g_token.type = TT_IDENTIFIER || g_token.type = TT_NUMERIC
  | ET_IDENTIFIER_OR_NUMERIC_OR_STRING =>
    g_token.type = TT_IDENTIFIER || g_token.type = TT_NUMERIC || g_token.type = TT_STRING

open token_type in
/-- Return the string representation of the type of the token. -/
def print_type (g_token : token) : String :=
  match g_token.type with
  | TT_IDENTIFIER => "identifier"
  | TT_COMA => "coma"
  | TT_STRING => "string"
  | TT_NUMERIC => "numeric"

open expected_token in
/-- Return the string representation of the expected type (the overload of `print_type`
for `expected_token`). -/
def expected_token.print_type (t_type : expected_token) : String :=
  match t_type with
  | ET_OPCODE => "opcode"
  | ET_COMA => "coma"
  | ET_IDENTIFIER => "identifier"
  | ET_IDENTIFIER_OR_NUMERIC => "identifier_or_numeric"
  | ET_IDENTIFIER_OR_NUMERIC_OR_STRING => "identifier_or_numeric_or_string"

end data

/-! ## namespace `runtime` -/

namespace runtime

/-- Used to indicate the opcode of an instruction. -/
inductive opcode
  | MOV | ADD | MUL | CMP_EQ | CMP_GT | CMP_LT | NEG | OUT | IN | GET | STOP | FLUSH
  | LABEL | JMP | JNZ | JZ | NUM | STR | NUM_INT | SEED_RANDOM | NONE
  deriving DecidableEq, Repr

/-- Represents an instruction; a null argument pointer is `none`. -/
structure instruction where
  op : opcode
  f_arg : Option data.token
  s_arg : Option data.token
  deriving DecidableEq, Repr

open opcode in
/-- Returns the string representation of the opcode. -/
def print_opcode (op : opcode) : String :=
  match op with
  | MOV => "mov"
  | ADD => "add"
  | MUL => "mul"
  | CMP_EQ => "cmp_eq"
  | CMP_GT => "cmp_gt"
  | CMP_LT => "cmp_lt"
  | NEG => "neg"
  | OUT => "out"
  | IN => "in"
  | GET => "get"
  | FLUSH => "flush"
  | JMP => "jmp"
  | JNZ => "jnz"
  | JZ => "jz"
  | NUM => "num"
  | STR => "str"
  | NUM_INT => "num_int"
  | LABEL => "label"
  | STOP => "stop"
  | SEED_RANDOM => "seed_random"
  | NONE => ""

open opcode in
/-- Return the opcode CODE depending of the opcode STRING representation. -/
def get_opcode (x : String) : opcode :=
  let x := lowercase x
  if x = "mov" then MOV
  else if x = "add" then ADD
  else if x = "mul" then MUL
  else if x = "cmp_eq" then CMP_EQ
  else if x = "cmp_gt" then CMP_GT
  else if x = "cmp_lt" then CMP_LT
  else if x = "neg" then NEG
  else if x = "out" then OUT
  else if x = "in" then IN
  else if x = "get" then GET
  else if x = "flush" then FLUSH
  else if x = "stop" then STOP
  else if x = "label" then LABEL
  else if x = "jmp" then JMP
  else if x = "jz" then JZ
  else if x = "jnz" then JNZ
  else if x = "num" then NUM
  else if x = "str" then STR
  else if x = "num_int" then NUM_INT
  else if x = "seed_random" then SEED_RANDOM
  else NONE

open opcode in
/-- Return the number of arguments needed to complete an instruction (depending of the
opcode). -/
def get_number_of_args_needed (g_opcode : opcode) : Int :=
  match g_opcode with
  | MOV | ADD | MUL | CMP_EQ | CMP_GT | CMP_LT => 2
  | NEG | OUT | IN | GET | JMP | JNZ | JZ | NUM | STR | NUM_INT | LABEL => 1
  | _ => 0

open opcode data.expected_token in
/-- Returns the token type of the argument needed (depending of the opcode and the
argument number). -/
def get_expected_argument_type (op : opcode) (argument_number : Int) : data.expected_token :=
  match op with
  | MOV | ADD | MUL | CMP_EQ | CMP_GT | CMP_LT =>
    if argument_number = 1 then ET_IDENTIFIER else ET_IDENTIFIER_OR_NUMERIC_OR_STRING
  | OUT => ET_IDENTIFIER_OR_NUMERIC_OR_STRING
  | NEG | IN | GET | JMP | JNZ | JZ | NUM | STR | NUM_INT | LABEL => ET_IDENTIFIER
  | _ => ET_OPCODE

/-- Represents a dynamic variable type. -/
inductive dynamic_variable_type
  | DVT_NUMERIC
  | DVT_STRING
  deriving DecidableEq, Repr

/-- Used by the runtime to represent a dynamically typed variable. -/
structure dynamic_variable where
  type : dynamic_variable_type
  value : String
  deriving DecidableEq, Repr

end runtime

open data runtime
open data.token_type data.expected_token runtime.opcode runtime.dynamic_variable_type

/-! ## `lex` -/

/-- The lines that `std::getline` returns one after the other: the text is cut at every
`\n`, which is dropped, and nothing is returned for an end of file that follows a `\n`
directly.  `line` holds the characters read since the last cut. -/
def getlines : List Char → List Char → List (List Char)
  | line, [] => if line = [] then [] else [line]
  | line, c :: rest => if c = '\n' then line :: getlines [] rest else getlines (line ++ [c]) rest

/-- The variables of `lex` while it reads one line: the vector of tokens, the current
word (as its characters) and the two flags. -/
structure lex_state where
  tokens : List data.token
  word : List Char
  is_string : Bool
  is_escaped : Bool
  deriving DecidableEq, Repr

/-- The token made of the current word when a comma or a space ends it: numeric if
`is_number`, an identifier if not. -/
def word_token (word : List Char) : data.token :=
  { type := if is_number (String.mk word) then TT_NUMERIC else TT_IDENTIFIER,
    value := String.mk word }

/-- The block `if(word != "")` of the comma and space branches: the token of the word is
pushed and the word is cleared. -/
def push_word (st : lex_state) : lex_state :=
  if st.word ≠ [] then { st with tokens := st.tokens ++ [word_token st.word], word := [] }
  else st

/-- The body of the loop over the characters of a line. -/
def lex_char (st : lex_state) (cchar : Char) : lex_state :=
  if cchar = ',' ∧ st.is_string = false then
    let st1 := push_word st
    { st1 with tokens := st1.tokens ++ [⟨TT_COMA, ","⟩] }
  else if cchar = '\\' ∧ st.is_string = true ∧ st.is_escaped = false then
    { st with is_escaped := true }
  else if cchar = '"' ∧ st.is_string = false then
    { st with is_string := true }
  else if cchar = '"' ∧ st.is_string = true ∧ st.is_escaped = false then
    { st with is_string := false, tokens := st.tokens ++ [⟨TT_STRING, String.mk st.word⟩],
              word := [] }
  else if isspace cchar = true ∧ st.is_string = false then
    push_word st
  else
    { st with word := st.word ++ [cchar], is_escaped := false }

/-- The block `if(word != "")` after the loop: the last token of the line. -/
def lex_flush (st : lex_state) : List data.token :=
  if st.word ≠ [] then
    st.tokens ++ [{ type := if st.word = [','] then TT_COMA
                            else if is_number (String.mk st.word) then TT_NUMERIC
                            else TT_IDENTIFIER,
                    value := String.mk st.word }]
  else st.tokens

/-- The body of the loop over the lines: the vector of tokens after the line is read. -/
def lex_line (tokens : List data.token) (line : List Char) : List data.token :=
  let line := trim line
  if line.length < 1 ∨ line.head? = some ';' then tokens
  else lex_flush (line.foldl lex_char
    { tokens := tokens, word := [], is_string := false, is_escaped := false })

/-- The function `lex`, applied to the content of the input file. -/
def lex (inputfile : String) : List data.token :=
  (getlines [] inputfile.data).foldl lex_line []

/-! ## `parse` -/

/-- How `parse` ends: with its result; with the `exit(1)` that follows the message about
the unexpected token at index `i` and the expectation it did not meet; or with the
`exit(2)` of the `default` branch. -/
inductive parse_result (α : Type)
  | ok (value : α)
  | unexpected_token (i : Nat) (g_token : data.token) (expected : data.expected_token)
  | unknown_parser_error
  deriving DecidableEq, Repr

/-- The exit status of the process when `parse` does not return. -/
def parse_result.exit_status {α : Type} : parse_result α → Option Nat
  | .ok _ => none
  | .unexpected_token _ _ _ => some 1
  | .unknown_parser_error => some 2

/-- The text `parse` writes to `std::cout` before `exit`. -/
def parse_result.message {α : Type} : parse_result α → String
  | .ok _ => ""
  | .unexpected_token i g_token expected =>
    "[" ++ toString i ++ "] Unexpected token: (" ++ print_type g_token ++ ") \"" ++
      g_token.value ++ "\".\n[" ++ toString i ++ "] Expecting: (" ++ expected.print_type ++
      ").\n"
  | .unknown_parser_error => "Unknown parser error. Sorry.\n"

/-- The values of the anonymous enumeration of `parse`. -/
def IE_OPCODE : Nat := 0
def IE_FARG : Nat := 1
def IE_COMA : Nat := 2
def IE_SARG : Nat := 3

/-- The local variables of `parse` at the start of a turn of its loop
(`instruction_complete` is false there). -/
structure parser_state where
  instructions : List instruction
  current_instruction : instruction
  expected_token_type : data.expected_token
  instruction_element : Nat
  deriving DecidableEq, Repr

/-- The state in which the loop of `parse` is entered. -/
def parser_start : parser_state :=
  { instructions := [], current_instruction := ⟨NONE, none, none⟩,
    expected_token_type := ET_OPCODE, instruction_element := IE_OPCODE }

/-- The block `if(instruction_complete)`: the instruction is pushed and reset. -/
def push_instruction (st : parser_state) : parser_state :=
  { st with instructions := st.instructions ++ [st.current_instruction],
            instruction_element := IE_OPCODE,
            current_instruction := ⟨NONE, none, none⟩ }

/-- One turn of the loop of `parse`, for the token at index `i`. -/
def parse_token (st : parser_state) (i : Nat) (g_token : data.token) :
    parse_result parser_state :=
  if match_expectation st.expected_token_type g_token = false then
    .unexpected_token i g_token st.expected_token_type
  else
    match st.instruction_element with
    | 0 =>
      let current : instruction := { st.current_instruction with op := get_opcode g_token.value }
      if get_number_of_args_needed current.op > 0 then
        .ok { st with current_instruction := current, instruction_element := IE_FARG,
                      expected_token_type := get_expected_argument_type current.op 1 }
      else
        .ok (push_instruction
          { st with current_instruction := current, expected_token_type := ET_OPCODE })
    | 1 =>
      let current : instruction := { st.current_instruction with f_arg := some g_token }
      if get_number_of_args_needed current.op > 1 then
        .ok { st with current_instruction := current, instruction_element := IE_COMA,
                      expected_token_type := ET_COMA }
      else
        .ok (push_instruction
          { st with current_instruction := current, expected_token_type := ET_OPCODE })
    | 2 =>
      .ok { st with instruction_element := IE_SARG,
                    expected_token_type :=
                      (get_expected_argument_type st.current_instruction.op 2) }
    | 3 =>
      .ok (push_instruction
        { st with current_instruction := { st.current_instruction with s_arg := some g_token },
                  expected_token_type := ET_OPCODE })
    | _ => .unknown_parser_error

/-- The loop of `parse` over the tokens from index `i` on. -/
def parse_loop : List data.token → Nat → parser_state → parse_result parser_state
  | [], _, st => .ok st
  | g_token :: rest, i, st =>
    match parse_token st i g_token with
    | .ok st1 => parse_loop rest (i + 1) st1
    | .unexpected_token j t e => .unexpected_token j t e
    | .unknown_parser_error => .unknown_parser_error

/-- The function `parse`. -/
def parse (tokens : List data.token) : parse_result (List instruction) :=
  match parse_loop tokens 0 parser_start with
  | .ok st => .ok st.instructions
  | .unexpected_token j t e => .unexpected_token j t e
  | .unknown_parser_error => .unknown_parser_error

/-! ## `std::map` -/

/-- The lookup `m.at(x)`; `none` stands for `std::out_of_range`. -/
def map_at {α : Type} : List (String × α) → String → Option α
  | [], _ => none
  | (k, v) :: rest, x => if k = x then some v else map_at rest x

/-- The assignment `m[x] = a`: overwrites the entry of `x`, or creates it. -/
def map_put {α : Type} : List (String × α) → String → α → List (String × α)
  | [], x, a => [(x, a)]
  | (k, v) :: rest, x, a => if k = x then (k, a) :: rest else (k, v) :: map_put rest x a

abbrev Memory := List (String × dynamic_variable)
abbrev Labels := List (String × Nat)

/-! ## The state of `run` -/

/-- The local variables of `run` and the streams it talks to. -/
structure State where
  cip : Nat
  memory : Memory
  labels : Labels
  cout : String
  cerr : String
  cin : List Char
  cin_good : Bool
  rand : List Nat
  deriving DecidableEq, Repr

/-- What executing the body of the `switch` leads to: falling out of the `switch` (the
loop then increments `cip`), a `return` from `run`, or no defined result (undefined
behaviour, or an exception that no handler catches). -/
inductive Outcome
  | next (s : State)
  | returned (code : Nat) (s : State)
  | undefined
  deriving DecidableEq, Repr

/-- One call of `rand()`: the value drawn and the stream that remains. -/
def draw : List Nat → Nat × List Nat
  | [] => (0, [])
  | r :: rest => (r, rest)

/-- The diagnostic of an unknown variable written to `std::cerr`, followed by `return 3`. -/
def unknown_variable (s : State) (tag name : String) : Outcome :=
  .returned 3 { s with cerr := s.cerr ++ "\n" ++ tag ++ "[ERROR] Unknown variable : " ++ name ++ "\n" }

/-- The diagnostic of an unknown label written to `std::cerr`, followed by `return 3`. -/
def unknown_label (s : State) (tag name : String) : Outcome :=
  .returned 3 { s with cerr := s.cerr ++ "\n" ++ tag ++ "[ERROR] Unknown label : " ++ name ++ "\n" }

/-- The loop `for(i = 0; i < times; ++i) value += value;` of the `str * num` case.  `none`
when an append would make the text longer than `max_size`: `+=` then throws
`std::length_error` or `std::bad_alloc`. -/
def self_concat (max_size : Nat) : Nat → String → Option String
  | 0, value => some value
  | times + 1, value =>
    if value.length + value.length > max_size then none
    else self_concat max_size times (value ++ value)

/-- The `num + num`, `str + str`, `str + num`, `num + str` cases of `ADD`. -/
def add_variables (env : Stdlib) (first_variable second_variable : dynamic_variable) :
    dynamic_variable :=
  if first_variable.type = DVT_STRING then
    { first_variable with value := first_variable.value ++ second_variable.value }
  else if second_variable.type = DVT_NUMERIC then
    { first_variable with
      value := env.from_double
        (env.add (env.to_double first_variable.value) (env.to_double second_variable.value)) }
  else
    { type := DVT_STRING, value := first_variable.value ++ second_variable.value }

/-- The `num * num` and `str * num` cases of `MUL`: the value of the local variable
`first_variable` after them, `none` when the loop of the `str * num` case throws. -/
def mul_variables (env : Stdlib) (first_variable second_variable : dynamic_variable) :
    Option dynamic_variable :=
  if first_variable.type = DVT_NUMERIC then
    some { first_variable with
      value := env.from_double
        (env.mul (env.to_double first_variable.value) (env.to_double second_variable.value)) }
  else
    match self_concat env.max_size (to_unsigned second_variable.value)
        first_variable.value with
    | some value => some { first_variable with value := value }
    | none => none

/-- The order of `std::string::compare`: bytes are compared as unsigned values from the
left, and a proper prefix is smaller. -/
def chars_lt : List Char → List Char → Bool
  | _, [] => false
  | [], _ :: _ => true
  | a :: as, b :: bs =>
    if a.toNat < b.toNat then true
    else if b.toNat < a.toNat then false
    else chars_lt as bs

/-- The operator `<` of `std::string`. -/
def string_lt (a b : String) : Bool :=
  chars_lt a.data b.data

/-- The statement `memory.at("cmp_register").value = b ? "1" : "0"`. -/
def set_cmp_register (s : State) (tag name : String) (b : Bool) : Outcome :=
  match map_at s.memory "cmp_register" with
  | none => unknown_variable s tag name
  | some r =>
    .next { s with memory := map_put s.memory "cmp_register" { r with value := if b then "1" else "0" } }

/-- The three comparison opcodes; `rel` is `==`, `>` or `<` on `std::string`. -/
def compare (s : State) (name : String) (rel : String → String → Bool)
    (f_arg s_arg : data.token) : Outcome :=
  if s_arg.type = TT_IDENTIFIER then
    match map_at s.memory f_arg.value, map_at s.memory s_arg.value with
    | some a, some b => set_cmp_register s ("[" ++ name ++ "-VAR-VAR]") f_arg.value (rel a.value b.value)
    | _, _ => unknown_variable s ("[" ++ name ++ "-VAR-VAR]") f_arg.value
  else
    match map_at s.memory f_arg.value with
    | some a => set_cmp_register s ("[" ++ name ++ "-VAR-VAL]") f_arg.value (rel a.value s_arg.value)
    | none => unknown_variable s ("[" ++ name ++ "-VAR-VAL]") f_arg.value

/-- The extraction `std::cin >> str` into a `std::string`: nothing is stored when the
stream is not good or holds only whitespace; otherwise the next word is stored in `str`. -/
def cin_word (s : State) : Option String × State :=
  if s.cin_good then
    let cs := s.cin.dropWhile isspace
    if cs = [] then (none, { s with cin := [], cin_good := false })
    else
      let w := cs.takeWhile (fun c => !isspace c)
      let rest := cs.dropWhile (fun c => !isspace c)
      (some (String.mk w), { s with cin := rest, cin_good := !(rest = []) })
  else (none, s)

/-- The call `std::cin.get()` converted to `char`: `EOF` is `-1`. -/
def cin_get (s : State) : Int × State :=
  if s.cin_good then
    match s.cin with
    | [] => (-1, { s with cin_good := false })
    | c :: rest => (if c.toNat < 128 then (c.toNat : Int) else (c.toNat : Int) - 256, { s with cin := rest })
  else (-1, s)

/-- The calls `std::cin.clear(); std::cin.ignore(INT_MAX, '\n');`. -/
def cin_flush (s : State) : State :=
  let seen := (s.cin.takeWhile (fun c => c ≠ '\n')).length
  if seen < s.cin.length ∧ seen < INT_MAX.toNat then
    { s with cin := s.cin.drop (seen + 1), cin_good := true }
  else if INT_MAX.toNat ≤ seen then
    { s with cin := s.cin.drop INT_MAX.toNat, cin_good := true }
  else
    { s with cin := [], cin_good := false }

/-! ## `run` -/

/-- The body of the `switch` of `run` for the instruction `i`, in the state `s`.  The
`catch` handlers are the `none` branches of the lookups made inside the `try` blocks.  In
the `JMP`, `JNZ` and `JZ` cases the label is read with `labels[...]`, which creates the
entry with index 0 when the name is missing.  In the literal branch of `MUL` the result is
computed in a local variable and not stored.  In both branches of `MUL` the exception
thrown by the loop of the `str * num` case is not a `std::out_of_range`: no handler
catches it and the process is aborted. -/
def exec (env : Stdlib) (i : instruction) (s : State) : Outcome :=
  match i.op with
  | MOV =>
    match i.s_arg with
    | none => .undefined
    | some s_arg =>
      let store (new_variable : dynamic_variable) : Outcome :=
        match i.f_arg with
        | none => .undefined
        | some f_arg => .next { s with memory := map_put s.memory f_arg.value new_variable }
      if s_arg.type = TT_NUMERIC then store { type := DVT_NUMERIC, value := s_arg.value }
      else if s_arg.type = TT_STRING then store { type := DVT_STRING, value := s_arg.value }
      else if s_arg.type = TT_IDENTIFIER then
        match map_at s.memory s_arg.value with
        | some v => store v
        | none => unknown_variable s "[MOV-VAR-VAR]" s_arg.value
      else .undefined
  | ADD =>
    match i.s_arg, i.f_arg with
    | some s_arg, some f_arg =>
      if s_arg.type = TT_IDENTIFIER then
        match map_at s.memory f_arg.value, map_at s.memory s_arg.value with
        | some first_variable, some second_variable =>
          .next { s with memory := map_put s.memory f_arg.value (add_variables env first_variable second_variable) }
        | _, _ => unknown_variable s "[ADD-VAR-VAR]" f_arg.value
      else
        match map_at s.memory f_arg.value with
        | some first_variable =>
          let second_variable : dynamic_variable :=
            if s_arg.type = TT_NUMERIC then { type := DVT_NUMERIC, value := s_arg.value }
            else { type := DVT_STRING, value := s_arg.value }
          .next { s with memory := map_put s.memory f_arg.value (add_variables env first_variable second_variable) }
        | none => unknown_variable s "[ADD-VAR-VAL]" f_arg.value
    | _, _ => .undefined
  | MUL =>
    match i.s_arg, i.f_arg with
    | some s_arg, some f_arg =>
      if s_arg.type = TT_IDENTIFIER then
        match map_at s.memory f_arg.value, map_at s.memory s_arg.value with
        | some first_variable, some second_variable =>
          match mul_variables env first_variable second_variable with
          | some result => .next { s with memory := map_put s.memory f_arg.value result }
          | none => .undefined
        | _, _ => unknown_variable s "[MUL-VAR-VAR]" f_arg.value
      else
        match map_at s.memory f_arg.value with
        | some first_variable =>
          match mul_variables env first_variable
              { type := DVT_NUMERIC, value := s_arg.value } with
          | some _ => .next s
          | none => .undefined
        | none => unknown_variable s "[MUL-VAR-VAL]" f_arg.value
    | _, _ => .undefined
  | CMP_EQ =>
    match i.s_arg, i.f_arg with
    | some s_arg, some f_arg => compare s "CMP_EQ" (fun a b => decide (a = b)) f_arg s_arg
    | _, _ => .undefined
  | CMP_GT =>
    match i.s_arg, i.f_arg with
    | some s_arg, some f_arg => compare s "CMP_GT" (fun a b => string_lt b a) f_arg s_arg
    | _, _ => .undefined
  | CMP_LT =>
    match i.s_arg, i.f_arg with
    | some s_arg, some f_arg => compare s "CMP_LT" (fun a b => string_lt a b) f_arg s_arg
    | _, _ => .undefined
  | NEG =>
    match i.f_arg with
    | none => .undefined
    | some f_arg =>
      if f_arg.type = TT_IDENTIFIER then
        match map_at s.memory f_arg.value with
        | some v =>
          .next { s with memory := (map_put s.memory f_arg.value
            { v with value := env.from_double (env.mul (env.to_double v.value) (env.of_int (-1))) }) }
        | none => unknown_variable s "[NEG-VAR]" f_arg.value
      else .next s
  | OUT =>
    match i.f_arg with
    | none => .undefined
    | some f_arg =>
      if f_arg.type = TT_IDENTIFIER then
        if f_arg.value = "endline" then .next { s with cout := s.cout ++ "\n" }
        else
          match map_at s.memory f_arg.value with
          | some v => .next { s with cout := s.cout ++ v.value }
          | none => unknown_variable s "[OUT-VAR]" f_arg.value
      else .next { s with cout := s.cout ++ f_arg.value }
  | IN =>
    match i.f_arg with
    | none => .undefined
    | some f_arg =>
      match map_at s.memory f_arg.value with
      | some v =>
        let r := cin_word s
        .next { r.2 with memory := (map_put s.memory f_arg.value
          { type := DVT_STRING, value := r.1.getD v.value }) }
      | none => unknown_variable s "[IN-VAR]" f_arg.value
  | GET =>
    match i.f_arg with
    | none => .undefined
    | some f_arg =>
      match map_at s.memory f_arg.value with
      | some _ =>
        let r := cin_get s
        .next { r.2 with memory := (map_put s.memory f_arg.value
          { type := DVT_STRING, value := env.c_str_at r.1 }) }
      | none => unknown_variable s "[IN-VAR]" f_arg.value
  | FLUSH => .next (cin_flush s)
  | STOP => .returned 0 s
  | LABEL => .next s
  | JMP =>
    match i.f_arg with
    | none => .undefined
    | some f_arg =>
      match map_at s.labels f_arg.value with
      | some k => .next { s with cip := k }
      | none => .next { s with cip := 0, labels := map_put s.labels f_arg.value 0 }
  | JNZ =>
    match map_at s.memory "cmp_register" with
    | some r =>
      if to_int r.value ≠ 0 then
        match i.f_arg with
        | none => .undefined
        | some f_arg =>
          match map_at s.labels f_arg.value with
          | some k => .next { s with cip := k }
          | none => .next { s with cip := 0, labels := map_put s.labels f_arg.value 0 }
      else .next s
    | none =>
      match i.f_arg with
      | none => .undefined
      | some f_arg => unknown_label s "[JNZ-LABEL]" f_arg.value
  | JZ =>
    match map_at s.memory "cmp_register" with
    | some r =>
      if to_int r.value = 0 then
        match i.f_arg with
        | none => .undefined
        | some f_arg =>
          match map_at s.labels f_arg.value with
          | some k => .next { s with cip := k }
          | none => .next { s with cip := 0, labels := map_put s.labels f_arg.value 0 }
      else .next s
    | none =>
      match i.f_arg with
      | none => .undefined
      | some f_arg => unknown_label s "[JZ-LABEL]" f_arg.value
  | NUM =>
    match i.f_arg with
    | none => .undefined
    | some f_arg =>
      match map_at s.memory f_arg.value with
      | some v =>
        .next { s with memory := (map_put s.memory f_arg.value
          { type := DVT_NUMERIC, value := env.from_double (env.to_double v.value) }) }
      | none => unknown_variable s "[NUM-VAR]" f_arg.value
  | STR =>
    match i.f_arg with
    | none => .undefined
    | some f_arg =>
      match map_at s.memory f_arg.value with
      | some v => .next { s with memory := map_put s.memory f_arg.value { v with type := DVT_STRING } }
      | none => unknown_variable s "[STR-VAR]" f_arg.value
  | NUM_INT =>
    match i.f_arg with
    | none => .undefined
    | some f_arg =>
      match map_at s.memory f_arg.value with
      | some v =>
        .next { s with memory := (map_put s.memory f_arg.value
          { type := DVT_NUMERIC, value := from_int (to_int v.value) }) }
      | none => unknown_variable s "[NUM_INT-VAR]" f_arg.value
  | SEED_RANDOM =>
    match map_at s.memory "random_max" with
    | none => .undefined
    | some m =>
      let random_max := to_int m.value
      if random_max = 0 then .undefined
      else
        let d1 := draw s.rand
        match map_at s.memory "random_int" with
        | none => .undefined
        | some ri =>
          let memory1 := map_put s.memory "random_int"
            { ri with value := from_int (Int.tmod d1.1 random_max) }
          let d2 := draw d1.2
          match map_at memory1 "random_num" with
          | none => .undefined
          | some rn =>
            .next { s with
              rand := d2.2
              memory := (map_put memory1 "random_num"
                { rn with value := env.from_double (env.of_int (Int.tmod d2.1 random_max)) }) }
  | NONE => .next s

/-- The prepass of `run`: `labels[f_arg->value] = cip` for every `label` instruction, from
index `cip` on.  A `label` without argument dereferences a null pointer. -/
def build_labels : List instruction → Nat → Labels → Option Labels
  | [], _, labels => some labels
  | i :: rest, cip, labels =>
    if i.op = LABEL then
      match i.f_arg with
      | none => none
      | some f_arg => build_labels rest (cip + 1) (map_put labels f_arg.value cip)
    else build_labels rest (cip + 1) labels

/-- The memory prepared by `run` before the main loop, drawing twice from `rand()`. -/
def initial_memory (env : Stdlib) (r1 r2 : Nat) : Memory :=
  [("cmp_register", { type := DVT_NUMERIC, value := "0" }),
   ("random_max", { type := DVT_NUMERIC, value := from_int 10000 }),
   ("random_int", { type := DVT_NUMERIC, value := from_int ((r1 : Int) % 1000) }),
   ("random_num", { type := DVT_NUMERIC, value := env.from_double (env.of_int ((r2 : Int) % 10000)) })]

/-- The state in which the main loop of `run` is entered. -/
def initial_state (env : Stdlib) (labels : Labels) (rand : List Nat) (cin : List Char) : State :=
  let d1 := draw rand
  let d2 := draw d1.2
  { cip := 0, memory := initial_memory env d1.1 d2.1, labels := labels, cout := "", cerr := "",
    cin := cin, cin_good := true, rand := d2.2 }

/-- One turn of the loop `for(cip = 0; cip < instructions.size(); ++cip)`: the body for the
instruction at `cip`, then `++cip`.  `none` when the loop condition is false. -/
def step (env : Stdlib) (instructions : List instruction) (s : State) : Option Outcome :=
  match instructions[s.cip]? with
  | none => none
  | some i =>
    match exec env i s with
    | .next s1 => some (.next { s1 with cip := s1.cip + 1 })
    | o => some o

/-- The main loop of `run` from the state `s`, for at most `fuel` instructions; `none`
when the instructions executed within `fuel` do not end the loop.  Leaving the loop is
the final `return 0`. -/
def run_loop (env : Stdlib) (instructions : List instruction) : Nat → State → Option Outcome
  | fuel, s =>
    match step env instructions s with
    | none => some (.returned 0 s)
    | some (.next s1) =>
      match fuel with
      | 0 => none
      | fuel1 + 1 => run_loop env instructions fuel1 s1
    | some o => some o

/-- The function `run`: the status returned and the final state of the streams. -/
def run (env : Stdlib) (instructions : List instruction) (rand : List Nat) (cin : List Char)
    (fuel : Nat) : Option Outcome :=
  match build_labels instructions 0 [] with
  | none => some .undefined
  | some labels => run_loop env instructions fuel (initial_state env labels rand cin)

/-- How the process ends: with an exit status, or in no defined way. -/
inductive Termination
  | exit (status : Nat)
  | undefined
  deriving DecidableEq, Repr

/-- The function `load_from_file` without time measurement, on the content of the file:
`run(parse(lex(inputfile)))`, whose value `main` returns.  `none` when `run` does not end
within `fuel` instructions. -/
def load_from_file (env : Stdlib) (inputfile : String) (rand : List Nat) (cin : List Char)
    (fuel : Nat) : Option Termination :=
  match parse (lex inputfile) with
  | .unexpected_token _ _ _ => some (.exit 1)
  | .unknown_parser_error => some (.exit 2)
  | .ok instructions =>
    match run env instructions rand cin fuel with
    | none => none
    | some (.returned code _) => some (.exit code)
    | some _ => some .undefined

/-! ## Notions used to state the properties -/

/-- The states in which the main loop of `run` fetches an instruction: the state prepared
by `run`, and every state the loop reaches from it. -/
inductive Reachable (env : Stdlib) (instructions : List instruction) (rand : List Nat)
    (cin : List Char) : State → Prop
  | start (labels : Labels) :
      build_labels instructions 0 [] = some labels →
      Reachable env instructions rand cin (initial_state env labels rand cin)
  | step (s s1 : State) :
      Reachable env instructions rand cin s →
      step env instructions s = some (.next s1) →
      Reachable env instructions rand cin s1

/-- Argument resolution: an identifier resolves through memory, a numeric or string
literal is used as a literal with the corresponding tag. -/
def resolve (memory : Memory) (arg : data.token) : Option dynamic_variable :=
  match arg.type with
  | TT_IDENTIFIER => map_at memory arg.value
  | TT_NUMERIC => some { type := DVT_NUMERIC, value := arg.value }
  | TT_STRING => some { type := DVT_STRING, value := arg.value }
  | TT_COMA => none

/-- The instruction `i` is a `label` instruction naming `name`. -/
def is_label (name : String) (i : instruction) : Bool :=
  i.op = LABEL && (i.f_arg.map (fun t => t.value)) = some name

/-- Index of the last `label` instruction naming `name`. -/
def last_label (name : String) : List instruction → Option Nat
  | [] => none
  | i :: rest =>
    match last_label name rest with
    | some j => some (j + 1)
    | none => if is_label name i then some 0 else none

/-- The instruction `i` has to look up an identifier that `memory` does not hold: the
identifier source of `mov`, `add`, `mul`, `cmp_eq`, `cmp_gt`, `cmp_lt`; the destination of
`add`, `mul`, `cmp_*`, `neg`, `in`, `get`, `num`, `str`, `num_int`; the argument of `out`
other than `endline`. -/
def missing_lookup (memory : Memory) (i : instruction) : Prop :=
  (i.op = MOV ∧ ∃ x, i.s_arg = some ⟨TT_IDENTIFIER, x⟩ ∧ map_at memory x = none) ∨
  ((i.op = ADD ∨ i.op = MUL ∨ i.op = CMP_EQ ∨ i.op = CMP_GT ∨ i.op = CMP_LT) ∧
    ∃ d x, i.f_arg = some d ∧ i.s_arg = some ⟨TT_IDENTIFIER, x⟩ ∧ map_at memory x = none) ∨
  ((i.op = ADD ∨ i.op = MUL ∨ i.op = CMP_EQ ∨ i.op = CMP_GT ∨ i.op = CMP_LT) ∧
    ∃ d src, i.f_arg = some d ∧ i.s_arg = some src ∧ map_at memory d.value = none) ∨
  (i.op = NEG ∧ ∃ x, i.f_arg = some ⟨TT_IDENTIFIER, x⟩ ∧ map_at memory x = none) ∨
  ((i.op = IN ∨ i.op = GET ∨ i.op = NUM ∨ i.op = STR ∨ i.op = NUM_INT) ∧
    ∃ d, i.f_arg = some d ∧ map_at memory d.value = none) ∨
  (i.op = OUT ∧ ∃ x, i.f_arg = some ⟨TT_IDENTIFIER, x⟩ ∧ x ≠ "endline" ∧ map_at memory x = none)

/-- A `Stdlib` on which programs can be evaluated: `double` restricted to the integers,
read and written in decimal.  The C++ conversions agree with it on integer texts whose
results have at most six digits.  Its `max_size` is `2 ^ 62 - 1`, the `max_size()` of the
`std::string` of libstdc++ on a 64-bit machine. -/
def integer_stdlib : Stdlib :=
  { Double := Int, to_double := to_int, from_double := from_int, add := fun a b => a + b,
    mul := fun a b => a * b, of_int := fun n => n, c_str_at := fun _ => "",
    max_size := 4611686018427387903, max_size_ge := by decide }

/-- An identifier token. -/
def identifier (x : String) : data.token := ⟨TT_IDENTIFIER, x⟩

/-- A numeric literal token. -/
def numeric (x : String) : data.token := ⟨TT_NUMERIC, x⟩

/-- A string literal token. -/
def string_literal (x : String) : data.token := ⟨TT_STRING, x⟩

/-- A state of the main loop at instruction 0, with the given memory and labels, nothing
written and nothing to read. -/
def state_with (memory : Memory) (labels : Labels) : State :=
  { cip := 0, memory := memory, labels := labels, cout := "", cerr := "", cin := [],
    cin_good := true, rand := [] }

/-- The instruction invariant: the opcode is a real one, the arguments that are set are
as many as the opcode needs, and each of them meets the expectation of the opcode for its
position. -/
def instruction_ok (i : instruction) : Bool :=
  i.op ≠ NONE &&
  if get_number_of_args_needed i.op = 0 then i.f_arg = none && i.s_arg = none
  else if get_number_of_args_needed i.op = 1 then
    (match i.f_arg with
      | some t => match_expectation (get_expected_argument_type i.op 1) t
      | none => false) && i.s_arg = none
  else
    match i.f_arg, i.s_arg with
    | some t1, some t2 =>
      match_expectation (get_expected_argument_type i.op 1) t1 &&
        match_expectation (get_expected_argument_type i.op 2) t2
    | _, _ => false

/-- The tokens of an instruction in program order: the name of the opcode, then the
arguments, with a comma between the two arguments. -/
def render (i : instruction) : List data.token :=
  ⟨TT_IDENTIFIER, print_opcode i.op⟩ ::
    match i.f_arg, i.s_arg with
    | some t1, some t2 => [t1, ⟨TT_COMA, ","⟩, t2]
    | some t1, none => [t1]
    | none, _ => []

/-- What holds of the variables of `parse` at the start of every turn of its loop: the
instructions pushed so far satisfy the instruction invariant, and the current instruction
and the expectation are the ones of the element awaited. -/
def parser_invariant (st : parser_state) : Prop :=
  (∀ i ∈ st.instructions, instruction_ok i = true) ∧
  ((st.instruction_element = IE_OPCODE ∧ st.current_instruction = ⟨NONE, none, none⟩ ∧
      st.expected_token_type = ET_OPCODE) ∨
   (st.instruction_element = IE_FARG ∧ ∃ op, op ≠ NONE ∧ get_number_of_args_needed op > 0 ∧
      st.current_instruction = ⟨op, none, none⟩ ∧
      st.expected_token_type = get_expected_argument_type op 1) ∨
   (st.instruction_element = IE_COMA ∧ ∃ op t1, op ≠ NONE ∧ get_number_of_args_needed op > 1 ∧
      st.current_instruction = ⟨op, some t1, none⟩ ∧
      match_expectation (get_expected_argument_type op 1) t1 = true ∧
      st.expected_token_type = ET_COMA) ∨
   (st.instruction_element = IE_SARG ∧ ∃ op t1, op ≠ NONE ∧ get_number_of_args_needed op > 1 ∧
      st.current_instruction = ⟨op, some t1, none⟩ ∧
      match_expectation (get_expected_argument_type op 1) t1 = true ∧
      st.expected_token_type = get_expected_argument_type op 2))

/-- The tokens `lex` makes of a line that needs no trimming and is no comment: the loop
over its characters from the initial flags, then the last token. -/
def scan (line : List Char) : List data.token :=
  lex_flush (line.foldl lex_char
    { tokens := [], word := [], is_string := false, is_escaped := false })

/-- A character of the class `[0-9.]`. -/
def digit_or_dot (c : Char) : Bool :=
  isdigit c || c = '.'

/-- The word matches `-?[0-9.]*`: an optional minus, then any number of digits and dots. -/
def matches_star (w : List Char) : Prop :=
  ∃ body, (w = body ∨ w = '-' :: body) ∧ ∀ c ∈ body, digit_or_dot c = true

/-- The word matches `-?[0-9.]+`: an optional minus, then at least one digit or dot. -/
def matches_plus (w : List Char) : Prop :=
  ∃ body, (w = body ∨ w = '-' :: body) ∧ body ≠ [] ∧ ∀ c ∈ body, digit_or_dot c = true

/-- A word that `lex` reads outside a string: it is not empty and holds no comma, no
double quote and no whitespace. -/
def unquoted_word (w : List Char) : Prop :=
  w ≠ [] ∧ ∀ c ∈ w, c ≠ ',' ∧ c ≠ '"' ∧ isspace c = false

/-- The range check of the extraction into an `int`: a value above `INT_MAX` or below
`INT_MIN` is replaced by the bound. -/
def saturate (v : Int) : Int :=
  if v > INT_MAX then INT_MAX else if v < INT_MIN then INT_MIN else v

/-- Where the text of a variable can come from when it is stored with the Numeric tag: the
text `from_int` makes of an integer, the text `from_double` makes of a `double`, or the
text of a Numeric token that is the source of a `mov` instruction of the program. -/
def numeric_origin (env : Stdlib) (instructions : List instruction) (text : String) : Prop :=
  (∃ n : Int, text = from_int n) ∨ (∃ x : env.Double, text = env.from_double x) ∨
  (∃ i ∈ instructions, i.op = MOV ∧
    ∃ t : data.token, i.s_arg = some t ∧ t.type = TT_NUMERIC ∧ text = t.value)

/-- Every variable of `memory` with the Numeric tag holds a text of one of these origins. -/
def numeric_invariant (env : Stdlib) (instructions : List instruction) (memory : Memory) :
    Prop :=
  ∀ x v, map_at memory x = some v → v.type = DVT_NUMERIC →
    numeric_origin env instructions v.value

/-- The texts of the tokens, one after the other. -/
def token_texts (tokens : List data.token) : List Char :=
  tokens.flatMap (fun t => t.value.data)

/-- The characters of the line that are no whitespace, in their order. -/
def remove_whitespace (line : List Char) : List Char :=
  line.filter (fun c => !isspace c)

/-- A token of a line without double quote: the Comma token with the text `,`, or a
Numeric or Identifier token whose text is not empty and holds no comma and no
whitespace. -/
def plain_token (t : data.token) : Prop :=
  t = ⟨TT_COMA, ","⟩ ∨
  ((t.type = TT_NUMERIC ∨ t.type = TT_IDENTIFIER) ∧ t.value.data ≠ [] ∧
    ∀ c ∈ t.value.data, c ≠ ',' ∧ isspace c = false)

/-- The text `value` doubled `times` times: what the loop of the `str * num` case leaves
when no append throws. -/
def doubled : Nat → String → String
  | 0, value => value
  | times + 1, value => doubled times (value ++ value)

/-! ## `std::map` lemmas -/

theorem map_at_map_put {α : Type} (m : List (String × α)) (x y : String) (a : α) :
    map_at (map_put m x a) y = if x = y then some a else map_at m y := by
  induction m with
  | nil => simp [map_put, map_at]
  | cons p rest ih =>
    obtain ⟨k, v⟩ := p
    by_cases hk : k = x
    · subst hk
      by_cases hy : k = y <;> simp [map_put, map_at, hy]
    · by_cases hy : k = y
      · subst hy
        have hx : ¬ x = k := fun h => hk h.symm
        simp [map_put, map_at, hk, hx]
      · simp [map_put, map_at, hk, hy, ih]

theorem map_at_map_put_same {α : Type} (m : List (String × α)) (x : String) (a : α) :
    map_at (map_put m x a) x = some a := by
  simp [map_at_map_put]

theorem map_at_map_put_other {α : Type} (m : List (String × α)) (x y : String) (a : α)
    (h : y ≠ x) : map_at (map_put m x a) y = map_at m y := by
  have h1 : ¬ x = y := fun e => h e.symm
  simp [map_at_map_put, h1]

/-! ## The main loop -/

theorem run_loop_next (env : Stdlib) (instructions : List instruction) (fuel : Nat)
    (s s1 : State) (h : step env instructions s = some (.next s1)) :
    run_loop env instructions (fuel + 1) s = run_loop env instructions fuel s1 := by
  rw [run_loop, h]

theorem run_loop_returned (env : Stdlib) (instructions : List instruction) (fuel : Nat)
    (s s1 : State) (code : Nat) (h : step env instructions s = some (.returned code s1)) :
    run_loop env instructions fuel s = some (.returned code s1) := by
  rw [run_loop, h]

theorem run_loop_end (env : Stdlib) (instructions : List instruction) (fuel : Nat)
    (s : State) (h : step env instructions s = none) :
    run_loop env instructions fuel s = some (.returned 0 s) := by
  rw [run_loop, h]

/-- From a reachable state on, `run` is the main loop continued from that state. -/
theorem run_of_reachable (env : Stdlib) (instructions : List instruction) (rand : List Nat)
    (cin : List Char) (s : State) (h : Reachable env instructions rand cin s) :
    ∃ n, ∀ fuel, run env instructions rand cin (n + fuel) = run_loop env instructions fuel s := by
  induction h with
  | start labels hl => exact ⟨0, fun fuel => by simp [run, hl]⟩
  | step s s1 _ hs ih =>
    obtain ⟨n, hn⟩ := ih
    refine ⟨n + 1, fun fuel => ?_⟩
    rw [Nat.add_assoc, Nat.add_comm 1 fuel, hn (fuel + 1), run_loop_next env instructions fuel s s1 hs]

theorem step_of_exec_returned (env : Stdlib) (instructions : List instruction) (s s1 : State)
    (i : instruction) (code : Nat) (hi : instructions[s.cip]? = some i)
    (h : exec env i s = .returned code s1) :
    step env instructions s = some (.returned code s1) := by
  simp [step, hi, h]

theorem step_of_exec_next (env : Stdlib) (instructions : List instruction) (s s1 : State)
    (i : instruction) (hi : instructions[s.cip]? = some i) (h : exec env i s = .next s1) :
    step env instructions s = some (.next { s1 with cip := s1.cip + 1 }) := by
  simp [step, hi, h]

/-! ## Unknown identifiers -/

theorem unknown_variable_eq (s : State) (tag name : String) :
    ∃ e, unknown_variable s tag name = .returned 3 { s with cerr := e } :=
  ⟨_, rfl⟩

theorem compare_missing_source (s : State) (name x : String) (rel : String → String → Bool)
    (d : data.token) (hx : map_at s.memory x = none) :
    ∃ e, compare s name rel d ⟨TT_IDENTIFIER, x⟩ = .returned 3 { s with cerr := e } := by
  cases hd : map_at s.memory d.value <;> simp [compare, hx, hd] <;>
    exact unknown_variable_eq _ _ _

theorem compare_missing_destination (s : State) (name : String) (rel : String → String → Bool)
    (d src : data.token) (hd : map_at s.memory d.value = none) :
    ∃ e, compare s name rel d src = .returned 3 { s with cerr := e } := by
  by_cases ht : src.type = TT_IDENTIFIER <;> simp [compare, hd, ht] <;>
    exact unknown_variable_eq _ _ _

theorem exec_missing_lookup (env : Stdlib) (i : instruction) (s : State)
    (h : missing_lookup s.memory i) :
    ∃ e, exec env i s = .returned 3 { s with cerr := e } := by
  obtain ⟨op, f_arg, s_arg⟩ := i
  rcases h with h | h | h | h | h | h
  · obtain ⟨hop, x, hs, hx⟩ := h
    simp only at hop hs
    subst hop hs
    simp only [exec, hx]
    exact unknown_variable_eq _ _ _
  · obtain ⟨hop, d, x, hf, hs, hx⟩ := h
    simp only at hop hf hs
    subst hf hs
    rcases hop with hop | hop | hop | hop | hop <;> subst hop
    · cases hd : map_at s.memory d.value <;> simp [exec, hx, hd] <;>
        exact unknown_variable_eq _ _ _
    · cases hd : map_at s.memory d.value <;> simp [exec, hx, hd] <;>
        exact unknown_variable_eq _ _ _
    · simp only [exec]
      exact compare_missing_source s _ x _ d hx
    · simp only [exec]
      exact compare_missing_source s _ x _ d hx
    · simp only [exec]
      exact compare_missing_source s _ x _ d hx
  · obtain ⟨hop, d, src, hf, hs, hd⟩ := h
    simp only at hop hf hs
    subst hf hs
    rcases hop with hop | hop | hop | hop | hop <;> subst hop
    · by_cases ht : src.type = TT_IDENTIFIER <;> simp [exec, hd, ht] <;>
        exact unknown_variable_eq _ _ _
    · by_cases ht : src.type = TT_IDENTIFIER <;> simp [exec, hd, ht] <;>
        exact unknown_variable_eq _ _ _
    · simp only [exec]
      exact compare_missing_destination s _ _ d src hd
    · simp only [exec]
      exact compare_missing_destination s _ _ d src hd
    · simp only [exec]
      exact compare_missing_destination s _ _ d src hd
  · obtain ⟨hop, x, hf, hx⟩ := h
    simp only at hop hf
    subst hop hf
    simp only [exec, hx]
    exact unknown_variable_eq _ _ _
  · obtain ⟨hop, d, hf, hd⟩ := h
    simp only at hop hf
    subst hf
    rcases hop with hop | hop | hop | hop | hop <;> subst hop <;> simp only [exec, hd] <;>
      exact unknown_variable_eq _ _ _
  · obtain ⟨hop, x, hf, hne, hx⟩ := h
    simp only at hop hf
    subst hop hf
    simp [exec, hx, hne]
    exact unknown_variable_eq _ _ _

/-- C1: in every state reached by `run`, fetching an instruction that must look up an
identifier absent from memory makes `run` return status 3 at that instruction.  The final
state is the state before the instruction except for the diagnostic on `std::cerr`: the
instruction pointer has not moved (no later instruction executes), memory is exactly as
it was and nothing was added to `std::cout`. -/
theorem run_unknown_identifier_returns_3 (env : Stdlib) (instructions : List instruction)
    (rand : List Nat) (cin : List Char) (s : State) (i : instruction)
    (hr : Reachable env instructions rand cin s) (hi : instructions[s.cip]? = some i)
    (hm : missing_lookup s.memory i) :
    ∃ n e, ∀ fuel,
      run env instructions rand cin (n + fuel) = some (.returned 3 { s with cerr := e }) := by
  obtain ⟨n, hn⟩ := run_of_reachable env instructions rand cin s hr
  obtain ⟨e, he⟩ := exec_missing_lookup env i s hm
  refine ⟨n, e, fun fuel => ?_⟩
  rw [hn fuel]
  exact run_loop_returned env instructions fuel s _ 3 (step_of_exec_returned env instructions s _ i 3 hi he)

/-- The program `out missing`, started with nothing to read, returns 3 at once. -/
theorem run_unknown_identifier_returns_3_witness :
    ∃ n e, ∀ fuel,
      run integer_stdlib [⟨OUT, some (identifier "missing"), none⟩] [] [] (n + fuel) =
        some (.returned 3 { initial_state integer_stdlib [] [] [] with cerr := e }) :=
  run_unknown_identifier_returns_3 integer_stdlib [⟨OUT, some (identifier "missing"), none⟩] [] []
    (initial_state integer_stdlib [] [] []) ⟨OUT, some (identifier "missing"), none⟩
    (Reachable.start [] rfl) rfl
    (Or.inr (Or.inr (Or.inr (Or.inr (Or.inr ⟨rfl, "missing", rfl, by decide, rfl⟩)))))

/-! ## Unknown labels -/

/-- C2 (failing input): the program `jmp nowhere`, which defines no label, does not
return 3.  `labels[...]` creates the entry `nowhere -> 0`, the loop increments `cip` to 1
and `run` returns 0 with nothing written to `std::cerr`. -/
theorem run_jmp_unknown_label (env : Stdlib) (rand : List Nat) (cin : List Char) (fuel : Nat) :
    run env [⟨JMP, some (identifier "nowhere"), none⟩] rand cin (fuel + 1) =
      some (.returned 0
        { initial_state env [("nowhere", 0)] rand cin with cip := 1 }) := by
  simp [run, build_labels, run_loop, step, exec, initial_state, map_at, map_put, identifier]

/-! ## `mov` -/

theorem exec_mov (env : Stdlib) (s : State) (dst src : data.token) (v : dynamic_variable)
    (hv : resolve s.memory src = some v) :
    exec env ⟨MOV, some dst, some src⟩ s =
      .next { s with memory := map_put s.memory dst.value v } := by
  obtain ⟨ty, text⟩ := src
  cases ty <;> simp [resolve] at hv <;> simp [exec, hv]

theorem exec_out_identifier (env : Stdlib) (s : State) (x : String) (v : dynamic_variable)
    (s_arg : Option data.token) (hx : x ≠ "endline") (hv : map_at s.memory x = some v) :
    exec env ⟨OUT, some ⟨TT_IDENTIFIER, x⟩, s_arg⟩ s = .next { s with cout := s.cout ++ v.value } := by
  simp [exec, hx, hv]

/-- C3: `mov dst, src` with a source that resolves to `v` (a numeric literal to
`(Numeric, text)`, a string literal to `(Text, text)`, an identifier to the variable it
names) continues with a memory in which `dst` holds `v` and every other name holds what it
held before; and for a literal `lit` and a name `a` other than `endline` the program
`mov a, lit` / `out a` / `stop` returns 0 having printed exactly the text of `lit`. -/
theorem mov_semantics (env : Stdlib) (s : State) (dst src : data.token) (v : dynamic_variable)
    (hv : resolve s.memory src = some v) :
    (∃ m, exec env ⟨MOV, some dst, some src⟩ s = .next { s with memory := m } ∧
      map_at m dst.value = some v ∧ ∀ x, x ≠ dst.value → map_at m x = map_at s.memory x) ∧
    (∀ (a : String) (lit : data.token) (rand : List Nat) (cin : List Char) (fuel : Nat),
      a ≠ "endline" → lit.type = TT_NUMERIC ∨ lit.type = TT_STRING →
      ∃ sf, run env [⟨MOV, some (identifier a), some lit⟩, ⟨OUT, some (identifier a), none⟩,
          ⟨STOP, none, none⟩] rand cin (fuel + 2) = some (.returned 0 sf) ∧
        sf.cout = lit.value) := by
  constructor
  · exact ⟨_, exec_mov env s dst src v hv, map_at_map_put_same _ _ _,
      fun x hx => map_at_map_put_other _ _ _ _ hx⟩
  · intro a lit rand cin fuel ha hlit
    obtain ⟨ty, text⟩ := lit
    rcases hlit with h | h <;> simp only at h <;> subst h <;>
      simp [run, build_labels, run_loop, step, exec, initial_state, identifier, ha,
        map_at_map_put_same]

/-- The state prepared by `run`, `mov a, 5` and the numeric literal `5`. -/
theorem mov_semantics_witness :
    resolve (initial_state integer_stdlib [] [] []).memory (numeric "5") =
        some ⟨DVT_NUMERIC, "5"⟩ ∧
      ∃ m, exec integer_stdlib ⟨MOV, some (identifier "a"), some (numeric "5")⟩
            (initial_state integer_stdlib [] [] []) =
          .next { initial_state integer_stdlib [] [] [] with memory := m } ∧
        map_at m (identifier "a").value = some ⟨DVT_NUMERIC, "5"⟩ ∧
        ∀ x, x ≠ (identifier "a").value →
          map_at m x = map_at (initial_state integer_stdlib [] [] []).memory x :=
  ⟨rfl, (mov_semantics integer_stdlib (initial_state integer_stdlib [] [] []) (identifier "a")
    (numeric "5") ⟨DVT_NUMERIC, "5"⟩ rfl).1⟩

/-! ## `add` -/

theorem length_doubled (times : Nat) (value : String) :
    (doubled times value).length = value.length * 2 ^ times := by
  induction times generalizing value with
  | zero => simp [doubled]
  | succ n ih =>
    rw [doubled, ih, String.length_append, pow_succ]
    ring

/-- The loop of the `str * num` case ends without throwing exactly when it does not turn
at all or the doubled text is no longer than `max_size`; it then leaves the doubled text. -/
theorem self_concat_eq (max_size times : Nat) (value : String) :
    self_concat max_size times value =
      if times = 0 ∨ value.length * 2 ^ times ≤ max_size then some (doubled times value)
      else none := by
  induction times generalizing value with
  | zero => simp [self_concat, doubled]
  | succ n ih =>
    rw [self_concat, doubled]
    have hpow : 1 ≤ 2 ^ n := Nat.one_le_two_pow
    have hmul : value.length * 2 ^ (n + 1) = (value.length + value.length) * 2 ^ n := by
      rw [pow_succ]
      ring
    by_cases hfit : value.length * 2 ^ (n + 1) ≤ max_size
    · have h1 : ¬ (value.length + value.length > max_size) := by
        have : value.length + value.length ≤ (value.length + value.length) * 2 ^ n :=
          Nat.le_mul_of_pos_right _ hpow
        omega
      have h2 : (value ++ value).length * 2 ^ n ≤ max_size := by
        rw [String.length_append, ← hmul]
        exact hfit
      rw [if_neg h1, ih, if_pos (Or.inr h2), if_pos (Or.inr hfit)]
    · by_cases h1 : value.length + value.length > max_size
      · rw [if_pos h1, if_neg (fun h => h.elim (Nat.succ_ne_zero n) hfit)]
      · have h2 : ¬ ((value ++ value).length * 2 ^ n ≤ max_size) := by
          rw [String.length_append, ← hmul]
          exact hfit
        have h3 : ¬ n = 0 := by
          intro hn
          subst hn
          simp at hmul
          omega
        rw [if_neg h1, ih, if_neg (fun h => h.elim h3 h2),
          if_neg (fun h => h.elim (Nat.succ_ne_zero n) hfit)]

/-- The local variable of `MUL` for a Numeric `first_variable`: the formatted product. -/
theorem mul_variables_numeric (env : Stdlib) (d v : dynamic_variable)
    (hd : d.type = DVT_NUMERIC) :
    mul_variables env d v = some ⟨DVT_NUMERIC,
      env.from_double (env.mul (env.to_double d.value) (env.to_double v.value))⟩ := by
  obtain ⟨dt, dv⟩ := d
  simp only at hd
  subst hd
  simp [mul_variables]

/-- The local variable of `MUL` for a Text `first_variable`: the text doubled
`to_unsigned v.value` times when the loop does not throw, nothing when it does. -/
theorem mul_variables_text (env : Stdlib) (d v : dynamic_variable)
    (hd : d.type = DVT_STRING) :
    mul_variables env d v =
      if to_unsigned v.value = 0 ∨
          d.value.length * 2 ^ to_unsigned v.value ≤ env.max_size then
        some ⟨DVT_STRING, doubled (to_unsigned v.value) d.value⟩
      else none := by
  obtain ⟨dt, dv⟩ := d
  simp only at hd
  subst hd
  simp only [mul_variables, reduceCtorEq, if_false, self_concat_eq]
  by_cases h : to_unsigned v.value = 0 ∨ dv.length * 2 ^ to_unsigned v.value ≤ env.max_size
  · simp only [h, if_true]
  · simp only [h, if_false]

/-- C5 (failing input): after `mov a, "ab"` / `mul a, 1` the Text variable `a` still holds
`ab`, of length 2 and not `2 * 2 ^ 1`: the program prints `ab` and returns 0. -/
theorem run_mul_text_literal (env : Stdlib) (rand : List Nat) (cin : List Char) (fuel : Nat) :
    ∃ sf, run env [⟨MOV, some (identifier "a"), some (string_literal "ab")⟩,
        ⟨MUL, some (identifier "a"), some (numeric "1")⟩,
        ⟨OUT, some (identifier "a"), none⟩, ⟨STOP, none, none⟩] rand cin (fuel + 3) =
          some (.returned 0 sf) ∧
      sf.cout = "ab" ∧ map_at sf.memory "a" = some ⟨DVT_STRING, "ab"⟩ ∧
      to_unsigned "1" = 1 := by
  have h : to_unsigned "1" = 1 := by decide
  have hfit : ¬ ("ab".length + "ab".length > env.max_size) := by
    have hlen : "ab".length = 2 := by decide
    have := env.max_size_ge
    omega
  simp [run, build_labels, run_loop, step, exec, initial_state, identifier, string_literal,
    numeric, map_at_map_put_same, h, mul_variables, self_concat, hfit]

/-- C6 (failing input): after `mov a, 2` / `mul a, 3` the Numeric variable `a` still holds
`2`, whatever the `double` operations are: the program prints `2` and returns 0. -/
theorem run_mul_numeric_literal (env : Stdlib) (rand : List Nat) (cin : List Char)
    (fuel : Nat) :
    ∃ sf, run env [⟨MOV, some (identifier "a"), some (numeric "2")⟩,
        ⟨MUL, some (identifier "a"), some (numeric "3")⟩,
        ⟨OUT, some (identifier "a"), none⟩, ⟨STOP, none, none⟩] rand cin (fuel + 3) =
          some (.returned 0 sf) ∧
      sf.cout = "2" ∧ map_at sf.memory "a" = some ⟨DVT_NUMERIC, "2"⟩ := by
  simp [run, build_labels, run_loop, step, exec, initial_state, identifier, numeric,
    map_at_map_put_same, mul_variables]

/-! ## Comparisons -/

theorem chars_lt_iff (a b : List Char) : chars_lt a b = true ↔ List.lt a b := by
  induction a generalizing b with
  | nil =>
    cases b with
    | nil =>
      simp only [chars_lt]
      exact ⟨fun h => absurd h (by decide), fun h => nomatch h⟩
    | cons y ys =>
      simp only [chars_lt]
      exact ⟨fun _ => List.lt.nil _ _, fun _ => trivial⟩
  | cons x xs ih =>
    cases b with
    | nil =>
      simp only [chars_lt]
      exact ⟨fun h => absurd h (by decide), fun h => nomatch h⟩
    | cons y ys =>
      have hxy : x < y ↔ x.toNat < y.toNat := Iff.rfl
      have hyx : y < x ↔ y.toNat < x.toNat := Iff.rfl
      rw [chars_lt]
      constructor
      · intro h
        by_cases h1 : x.toNat < y.toNat
        · exact List.lt.head _ _ (hxy.2 h1)
        · by_cases h2 : y.toNat < x.toNat
          · simp [h1, h2] at h
          · simp only [h1, h2, if_false] at h
            exact List.lt.tail (fun c => h1 (hxy.1 c)) (fun c => h2 (hyx.1 c)) ((ih ys).1 h)
      · intro h
        cases h with
        | head _ _ hlt => simp [hxy.1 hlt]
        | tail h1 h2 hlt =>
          have h1n : ¬ x.toNat < y.toNat := fun c => h1 (hxy.2 c)
          have h2n : ¬ y.toNat < x.toNat := fun c => h2 (hyx.2 c)
          simp only [h1n, h2n, if_false]
          exact (ih ys).2 hlt

/-- The `<` of `std::string` is the lexicographic order of the texts. -/
theorem string_lt_eq (a b : String) : string_lt a b = decide (a < b) := by
  have h : string_lt a b = true ↔ a < b :=
    (chars_lt_iff a.data b.data).trans
      ((List.lt_iff_lex_lt a.data b.data).trans String.lt_iff_toList_lt.symm)
  by_cases hab : a < b
  · simp [hab, h.2 hab]
  · have : string_lt a b = false := by
      cases hs : string_lt a b
      · rfl
      · exact absurd (h.1 hs) hab
    simp [hab, this]

theorem exec_compare (s : State) (name : String) (rel : String → String → Bool)
    (dst src : data.token) (d v r : dynamic_variable)
    (hd : map_at s.memory dst.value = some d) (hv : resolve s.memory src = some v)
    (hr : map_at s.memory "cmp_register" = some r) :
    compare s name rel dst src =
      .next { s with memory := (map_put s.memory "cmp_register"
        { r with value := if rel d.value v.value then "1" else "0" }) } := by
  obtain ⟨ty, text⟩ := src
  cases ty <;> simp [resolve] at hv
  · subst hv
    simp [compare, set_cmp_register, hd, hr]
  · simp [compare, set_cmp_register, hd, hv, hr]
  · subst hv
    simp [compare, set_cmp_register, hd, hr]

/-! ## `out` -/

/-- C10: `out arg` continues with the same state except for `std::cout`, to which it has
appended a newline when `arg` is the identifier `endline` (whatever memory holds), the
value of `memory[arg]` when `arg` is another identifier that memory holds, and the text
of `arg` when `arg` is a numeric or string literal; and whenever `out` continues or
returns, memory is what it was. -/
theorem out_semantics (env : Stdlib) (s : State) (arg : data.token)
    (s_arg : Option data.token) :
    (arg = ⟨TT_IDENTIFIER, "endline"⟩ →
      exec env ⟨OUT, some arg, s_arg⟩ s = .next { s with cout := s.cout ++ "\n" }) ∧
    (∀ v, arg.type = TT_IDENTIFIER → arg.value ≠ "endline" →
      map_at s.memory arg.value = some v →
      exec env ⟨OUT, some arg, s_arg⟩ s = .next { s with cout := s.cout ++ v.value }) ∧
    (arg.type = TT_NUMERIC ∨ arg.type = TT_STRING →
      exec env ⟨OUT, some arg, s_arg⟩ s = .next { s with cout := s.cout ++ arg.value }) ∧
    (∀ s1 code, exec env ⟨OUT, some arg, s_arg⟩ s = .next s1 ∨
        exec env ⟨OUT, some arg, s_arg⟩ s = .returned code s1 → s1.memory = s.memory) := by
  obtain ⟨ty, text⟩ := arg
  refine ⟨?_, ?_, ?_, ?_⟩
  · intro h
    simp only [data.token.mk.injEq] at h
    obtain ⟨h1, h2⟩ := h
    subst h1 h2
    simp [exec]
  · intro v h1 h2 h3
    simp only at h1 h2 h3
    subst h1
    simp [exec, h2, h3]
  · intro h
    rcases h with h | h <;> simp only at h <;> subst h <;> simp [exec]
  · intro s1 code h
    cases ty <;> simp only [exec] at h
    · simp at h
      rw [← h]
    · simp at h
      rw [← h]
    · by_cases he : text = "endline"
      · simp [he] at h
        rw [← h]
      · cases hm : map_at s.memory text <;> simp [he, hm, unknown_variable] at h
        · rw [← h.2]
        · rw [← h]
    · simp at h
      rw [← h]

/-- The instruction `out endline` in a memory that holds a variable named `endline`. -/
theorem out_semantics_witness :
    exec integer_stdlib ⟨OUT, some (identifier "endline"), none⟩
        (state_with [("endline", ⟨DVT_STRING, "x"⟩)] []) =
      .next { state_with [("endline", ⟨DVT_STRING, "x"⟩)] [] with cout := "" ++ "\n" } :=
  (out_semantics integer_stdlib (state_with [("endline", ⟨DVT_STRING, "x"⟩)] [])
    (identifier "endline") none).1 rfl

/-! ## Invariants of the main loop -/

theorem map_put_keeps {α : Type} (m : List (String × α)) (x y : String) (a : α)
    (h : (map_at m y).isSome = true) : (map_at (map_put m x a) y).isSome = true := by
  rw [map_at_map_put]
  by_cases hxy : x = y <;> simp [hxy, h]

theorem map_put_new_keeps {α : Type} (m : List (String × α)) (x y : String) (a b : α)
    (hx : map_at m x = none) (hy : map_at m y = some b) :
    map_at (map_put m x a) y = some b := by
  rw [map_at_map_put]
  by_cases hxy : x = y
  · subst hxy
    rw [hx] at hy
    exact absurd hy (by simp)
  · simp [hxy, hy]

theorem cin_word_frame (s : State) :
    (cin_word s).2.memory = s.memory ∧ (cin_word s).2.labels = s.labels ∧
      (cin_word s).2.cip = s.cip ∧ (cin_word s).2.cout = s.cout := by
  unfold cin_word
  by_cases hg : s.cin_good = true
  · by_cases hc : List.dropWhile isspace s.cin = [] <;> simp [hg, hc]
  · simp [hg]

theorem cin_get_frame (s : State) :
    (cin_get s).2.memory = s.memory ∧ (cin_get s).2.labels = s.labels ∧
      (cin_get s).2.cip = s.cip ∧ (cin_get s).2.cout = s.cout := by
  unfold cin_get
  by_cases hg : s.cin_good = true
  · cases hc : s.cin <;> simp [hg]
  · simp [hg]

theorem cin_flush_frame (s : State) :
    (cin_flush s).memory = s.memory ∧ (cin_flush s).labels = s.labels ∧
      (cin_flush s).cip = s.cip ∧ (cin_flush s).cout = s.cout := by
  unfold cin_flush
  simp only
  split
  · exact ⟨rfl, rfl, rfl, rfl⟩
  · split <;> exact ⟨rfl, rfl, rfl, rfl⟩

/-- An instruction that continues keeps every key of memory and every entry of the label
index. -/
theorem exec_next_keeps (env : Stdlib) (i : instruction) (s s1 : State)
    (h : exec env i s = .next s1) :
    (∀ y, (map_at s.memory y).isSome = true → (map_at s1.memory y).isSome = true) ∧
    (∀ name k, map_at s.labels name = some k → map_at s1.labels name = some k) := by
  obtain ⟨op, f_arg, s_arg⟩ := i
  cases op <;> simp only [exec, compare, set_cmp_register, unknown_variable, unknown_label] at h <;>
    (repeat' split at h) <;>
    simp only [Outcome.next.injEq, reduceCtorEq] at h <;>
    subst h <;>
    refine ⟨fun y hy => ?_, fun name k hk => ?_⟩ <;>
    (try simp only [(cin_word_frame s).2.1, (cin_get_frame s).2.1, (cin_flush_frame s).1,
      (cin_flush_frame s).2.1]) <;>
    first
      | exact hy
      | exact hk
      | exact map_put_keeps _ _ _ _ hy
      | exact map_put_keeps _ _ _ _ (map_put_keeps _ _ _ _ hy)
      | (apply map_put_new_keeps <;> assumption)

theorem step_next_cases (env : Stdlib) (instructions : List instruction) (s s1 : State)
    (h : step env instructions s = some (.next s1)) :
    ∃ i s2, instructions[s.cip]? = some i ∧ exec env i s = .next s2 ∧
      s1 = { s2 with cip := s2.cip + 1 } := by
  unfold step at h
  cases hi : instructions[s.cip]? with
  | none => simp [hi] at h
  | some i =>
    cases he : exec env i s with
    | next s2 =>
      simp [hi, he] at h
      exact ⟨i, s2, rfl, he, h.symm⟩
    | returned code s2 => simp [hi, he] at h
    | undefined => simp [hi, he] at h

/-- The label index after the prepass: a name defined by a `label` instruction maps to
the index of the last such instruction, any other name to what it mapped to before. -/
theorem build_labels_at (name : String) (instructions : List instruction) (cip : Nat)
    (acc labels : Labels) (h : build_labels instructions cip acc = some labels) :
    map_at labels name =
      match last_label name instructions with
      | some j => some (cip + j)
      | none => map_at acc name := by
  induction instructions generalizing cip acc with
  | nil =>
    simp only [build_labels, Option.some.injEq] at h
    subst h
    rfl
  | cons i rest ih =>
    obtain ⟨op, f_arg, s_arg⟩ := i
    simp only [build_labels] at h
    by_cases hop : op = LABEL
    · subst hop
      cases f_arg with
      | none => simp at h
      | some t =>
        simp only [if_true] at h
        rw [ih (cip + 1) _ h, last_label]
        cases hl : last_label name rest with
        | some j => simp [Nat.add_assoc, Nat.add_comm 1 j]
        | none =>
          simp only [map_at_map_put, is_label]
          by_cases ht : t.value = name <;> simp [ht]
    · simp only [hop, if_false] at h
      rw [ih (cip + 1) _ h, last_label]
      cases hl : last_label name rest with
      | some j => simp [Nat.add_assoc, Nat.add_comm 1 j]
      | none => simp [is_label, hop]

theorem last_label_is_label (name : String) (instructions : List instruction) (j : Nat)
    (h : last_label name instructions = some j) :
    ∃ i, instructions[j]? = some i ∧ is_label name i = true := by
  induction instructions generalizing j with
  | nil => simp [last_label] at h
  | cons i rest ih =>
    rw [last_label] at h
    cases hl : last_label name rest with
    | some j1 =>
      simp only [hl, Option.some.injEq] at h
      subst h
      obtain ⟨i1, h1, h2⟩ := ih j1 hl
      exact ⟨i1, by simpa using h1, h2⟩
    | none =>
      simp only [hl] at h
      by_cases hi : is_label name i = true
      · simp only [hi, if_true, Option.some.injEq] at h
        subst h
        exact ⟨i, by simp, hi⟩
      · simp [hi] at h

theorem last_label_defined (name : String) (instructions : List instruction) (k : Nat)
    (i : instruction) (hk : instructions[k]? = some i) (hi : is_label name i = true) :
    ∃ j, last_label name instructions = some j := by
  induction instructions generalizing k with
  | nil => simp at hk
  | cons i0 rest ih =>
    rw [last_label]
    cases hl : last_label name rest with
    | some j1 => exact ⟨j1 + 1, rfl⟩
    | none =>
      cases k with
      | zero =>
        simp only [List.getElem?_cons_zero, Option.some.injEq] at hk
        subst hk
        exact ⟨0, by simp [hi]⟩
      | succ k1 =>
        simp only [List.getElem?_cons_succ] at hk
        obtain ⟨j, hj⟩ := ih k1 hk
        rw [hl] at hj
        exact absurd hj (by simp)

/-- In every state reached by `run`, `cmp_register` is in memory and the label index maps
every name defined by a `label` instruction to the index of the last such instruction. -/
theorem reachable_invariant (env : Stdlib) (instructions : List instruction)
    (rand : List Nat) (cin : List Char) (s : State)
    (h : Reachable env instructions rand cin s) :
    (map_at s.memory "cmp_register").isSome = true ∧
    ∀ name j, last_label name instructions = some j → map_at s.labels name = some j := by
  induction h with
  | start labels hl =>
    refine ⟨rfl, fun name j hj => ?_⟩
    have := build_labels_at name instructions 0 [] labels hl
    rw [hj] at this
    simpa [initial_state] using this
  | step s s1 _ hs ih =>
    obtain ⟨i, s2, _, he, h1⟩ := step_next_cases env instructions s s1 hs
    obtain ⟨hm, hl⟩ := exec_next_keeps env i s s2 he
    subst h1
    exact ⟨hm _ ih.1, fun name j hj => hl name j (ih.2 name j hj)⟩

/-! ## Comparisons in reachable states -/

/-- C7: in every state reached by `run` in which `dst` holds `d` and the source resolves
to `v`, `cmp_register` holds some `r` and the opcodes `cmp_eq`, `cmp_gt`, `cmp_lt` continue
with a memory that differs from the old one at `cmp_register` only, where the tag is the
one of `r` and the value is `1` if `d.value = v.value`, `d.value > v.value`,
`d.value < v.value` respectively (equality and lexicographic order of the texts, the tags
of `d` and `v` playing no part) and `0` if not.  The program `mov a, 10` / `mov b, 9` /
`cmp_lt a, b` / `out cmp_register` / `stop` prints `1`. -/
theorem cmp_semantics (env : Stdlib) (instructions : List instruction) (rand : List Nat)
    (cin : List Char) (s : State) (dst src : data.token) (d v : dynamic_variable)
    (hs : Reachable env instructions rand cin s)
    (hd : map_at s.memory dst.value = some d) (hv : resolve s.memory src = some v) :
    (∃ r, map_at s.memory "cmp_register" = some r ∧
      ∀ op b, (op, b) ∈ [(CMP_EQ, decide (d.value = v.value)),
          (CMP_GT, decide (d.value > v.value)), (CMP_LT, decide (d.value < v.value))] →
      ∃ m, exec env ⟨op, some dst, some src⟩ s = .next { s with memory := m } ∧
        map_at m "cmp_register" = some ⟨r.type, if b then "1" else "0"⟩ ∧
        ∀ x, x ≠ "cmp_register" → map_at m x = map_at s.memory x) ∧
    (∀ (rand1 : List Nat) (cin1 : List Char) (fuel : Nat),
      ∃ sf, run env [⟨MOV, some (identifier "a"), some (numeric "10")⟩,
          ⟨MOV, some (identifier "b"), some (numeric "9")⟩,
          ⟨CMP_LT, some (identifier "a"), some (identifier "b")⟩,
          ⟨OUT, some (identifier "cmp_register"), none⟩, ⟨STOP, none, none⟩]
          rand1 cin1 (fuel + 4) = some (.returned 0 sf) ∧ sf.cout = "1") := by
  constructor
  · obtain ⟨r, hr⟩ := Option.isSome_iff_exists.1
      (reachable_invariant env instructions rand cin s hs).1
    refine ⟨r, hr, ?_⟩
    intro op b hb
    simp only [List.mem_cons, Prod.mk.injEq, List.mem_singleton, List.not_mem_nil, or_false] at hb
    rcases hb with ⟨h1, h2⟩ | ⟨h1, h2⟩ | ⟨h1, h2⟩ <;> subst h1 h2 <;>
      refine ⟨map_put s.memory "cmp_register" ⟨r.type, if _ then "1" else "0"⟩, ?_,
        map_at_map_put_same _ _ _, fun x hx => map_at_map_put_other _ _ _ _ hx⟩ <;>
      simp only [exec] <;>
      rw [exec_compare s _ _ dst src d v r hd hv hr] <;>
      simp [string_lt_eq]
  · intro rand1 cin1 fuel
    have h : string_lt "10" "9" = true := by decide
    simp [run, build_labels, run_loop, step, exec, compare, set_cmp_register, initial_state,
      initial_memory, identifier, numeric, map_at, map_put, h]

/-- The state prepared by `run` and the instruction `cmp_lt cmp_register, 9`. -/
theorem cmp_semantics_witness :
    ∃ r, map_at (initial_state integer_stdlib [] [] []).memory "cmp_register" = some r ∧
      ∀ op b, (op, b) ∈ [(CMP_EQ, decide ("0" = "9")),
          (CMP_GT, decide ("0" > "9")), (CMP_LT, decide ("0" < "9"))] →
      ∃ m, exec integer_stdlib ⟨op, some (identifier "cmp_register"), some (numeric "9")⟩
            (initial_state integer_stdlib [] [] []) =
          .next { initial_state integer_stdlib [] [] [] with memory := m } ∧
        map_at m "cmp_register" = some ⟨r.type, if b then "1" else "0"⟩ ∧
        ∀ x, x ≠ "cmp_register" →
          map_at m x = map_at (initial_state integer_stdlib [] [] []).memory x :=
  (cmp_semantics integer_stdlib [] [] [] (initial_state integer_stdlib [] [] [])
    (identifier "cmp_register") (numeric "9") ⟨DVT_NUMERIC, "0"⟩ ⟨DVT_NUMERIC, "9"⟩
    (Reachable.start [] rfl) rfl rfl).1

/-! ## Jumps -/

theorem exec_jmp (env : Stdlib) (s : State) (t : data.token_type) (name : String)
    (s_arg : Option data.token) (k : Nat) (hk : map_at s.labels name = some k) :
    exec env ⟨JMP, some ⟨t, name⟩, s_arg⟩ s = .next { s with cip := k } := by
  simp [exec, hk]

theorem exec_jnz (env : Stdlib) (s : State) (t : data.token_type) (name : String)
    (s_arg : Option data.token) (k : Nat) (r : dynamic_variable)
    (hr : map_at s.memory "cmp_register" = some r) (hk : map_at s.labels name = some k) :
    exec env ⟨JNZ, some ⟨t, name⟩, s_arg⟩ s =
      .next { s with cip := if to_int r.value ≠ 0 then k else s.cip } := by
  by_cases hc : to_int r.value = 0 <;> simp [exec, hr, hk, hc]

theorem exec_jz (env : Stdlib) (s : State) (t : data.token_type) (name : String)
    (s_arg : Option data.token) (k : Nat) (r : dynamic_variable)
    (hr : map_at s.memory "cmp_register" = some r) (hk : map_at s.labels name = some k) :
    exec env ⟨JZ, some ⟨t, name⟩, s_arg⟩ s =
      .next { s with cip := if to_int r.value = 0 then k else s.cip } := by
  by_cases hc : to_int r.value = 0 <;> simp [exec, hr, hk, hc]

/-- C9: let `L` be defined exactly once, by the `label` instruction at index `k`.  In every
state reached by `run`, whatever the index `s.cip` of the instruction fetched (before or
after `k`), a `jmp L`, a `jnz L` with `cmp_register` not 0 and a `jz L` with `cmp_register`
0 make the loop continue at index `k + 1`, the instruction that follows the label. -/
theorem label_resolution (env : Stdlib) (instructions : List instruction)
    (rand : List Nat) (cin : List Char) (s : State) (L : String) (k : Nat)
    (hr : Reachable env instructions rand cin s)
    (hk : ∃ il : instruction, instructions[k]? = some il ∧ is_label L il = true)
    (huniq : ∀ (j : Nat) (ij : instruction),
      instructions[j]? = some ij → is_label L ij = true → j = k) :
    ∃ r : dynamic_variable, map_at s.memory "cmp_register" = some r ∧
      (∀ t sa, instructions[s.cip]? = some ⟨JMP, some ⟨t, L⟩, sa⟩ →
        step env instructions s = some (.next { s with cip := k + 1 })) ∧
      (∀ t sa, instructions[s.cip]? = some ⟨JNZ, some ⟨t, L⟩, sa⟩ → to_int r.value ≠ 0 →
        step env instructions s = some (.next { s with cip := k + 1 })) ∧
      (∀ t sa, instructions[s.cip]? = some ⟨JZ, some ⟨t, L⟩, sa⟩ → to_int r.value = 0 →
        step env instructions s = some (.next { s with cip := k + 1 })) := by
  obtain ⟨hm, hl⟩ := reachable_invariant env instructions rand cin s hr
  obtain ⟨il, hil, hlab⟩ := hk
  obtain ⟨j, hj⟩ := last_label_defined L instructions k il hil hlab
  obtain ⟨ij, hij, hjlab⟩ := last_label_is_label L instructions j hj
  have hjk : j = k := huniq j ij hij hjlab
  subst hjk
  obtain ⟨r, hreg⟩ := Option.isSome_iff_exists.1 hm
  refine ⟨r, hreg, ?_, ?_, ?_⟩
  · intro t sa hi
    exact step_of_exec_next env instructions s _ _ hi (exec_jmp env s t L sa j (hl L j hj))
  · intro t sa hi hc
    have := step_of_exec_next env instructions s _ _ hi
      (exec_jnz env s t L sa j r hreg (hl L j hj))
    simpa [hc] using this
  · intro t sa hi hc
    have := step_of_exec_next env instructions s _ _ hi
      (exec_jz env s t L sa j r hreg (hl L j hj))
    simpa [hc] using this

/-- The program `jmp skip` / `out "no"` / `label skip` / `stop` in the state prepared by
`run`: the forward jump continues at index 3. -/
theorem label_resolution_witness :
    ∃ r : dynamic_variable,
      map_at (initial_state integer_stdlib [("skip", 2)] [] []).memory "cmp_register" = some r ∧
      (∀ t sa, [(⟨JMP, some (identifier "skip"), none⟩ : instruction),
          ⟨OUT, some (string_literal "no"), none⟩, ⟨LABEL, some (identifier "skip"), none⟩,
          ⟨STOP, none, none⟩][(initial_state integer_stdlib [("skip", 2)] [] []).cip]? =
            some ⟨JMP, some ⟨t, "skip"⟩, sa⟩ →
        step integer_stdlib [⟨JMP, some (identifier "skip"), none⟩,
          ⟨OUT, some (string_literal "no"), none⟩, ⟨LABEL, some (identifier "skip"), none⟩,
          ⟨STOP, none, none⟩] (initial_state integer_stdlib [("skip", 2)] [] []) =
          some (.next { initial_state integer_stdlib [("skip", 2)] [] [] with cip := 2 + 1 })) ∧
      (∀ t sa, [(⟨JMP, some (identifier "skip"), none⟩ : instruction),
          ⟨OUT, some (string_literal "no"), none⟩, ⟨LABEL, some (identifier "skip"), none⟩,
          ⟨STOP, none, none⟩][(initial_state integer_stdlib [("skip", 2)] [] []).cip]? =
            some ⟨JNZ, some ⟨t, "skip"⟩, sa⟩ → to_int r.value ≠ 0 →
        step integer_stdlib [⟨JMP, some (identifier "skip"), none⟩,
          ⟨OUT, some (string_literal "no"), none⟩, ⟨LABEL, some (identifier "skip"), none⟩,
          ⟨STOP, none, none⟩] (initial_state integer_stdlib [("skip", 2)] [] []) =
          some (.next { initial_state integer_stdlib [("skip", 2)] [] [] with cip := 2 + 1 })) ∧
      (∀ t sa, [(⟨JMP, some (identifier "skip"), none⟩ : instruction),
          ⟨OUT, some (string_literal "no"), none⟩, ⟨LABEL, some (identifier "skip"), none⟩,
          ⟨STOP, none, none⟩][(initial_state integer_stdlib [("skip", 2)] [] []).cip]? =
            some ⟨JZ, some ⟨t, "skip"⟩, sa⟩ → to_int r.value = 0 →
        step integer_stdlib [⟨JMP, some (identifier "skip"), none⟩,
          ⟨OUT, some (string_literal "no"), none⟩, ⟨LABEL, some (identifier "skip"), none⟩,
          ⟨STOP, none, none⟩] (initial_state integer_stdlib [("skip", 2)] [] []) =
          some (.next { initial_state integer_stdlib [("skip", 2)] [] [] with cip := 2 + 1 })) :=
  label_resolution integer_stdlib
    [⟨JMP, some (identifier "skip"), none⟩, ⟨OUT, some (string_literal "no"), none⟩,
      ⟨LABEL, some (identifier "skip"), none⟩, ⟨STOP, none, none⟩] [] []
    (initial_state integer_stdlib [("skip", 2)] [] []) "skip" 2 (Reachable.start _ rfl)
    ⟨_, rfl, rfl⟩
    (fun j ij h1 h2 => by
      rcases j with _ | _ | _ | _ | j
      · simp at h1; subst h1; simp [is_label] at h2
      · simp at h1; subst h1; simp [is_label] at h2
      · rfl
      · simp at h1; subst h1; simp [is_label] at h2
      · simp at h1)

/-! ## The opcode table -/

/-- The opcode of each of the twenty names of the opcodes list. -/
theorem get_opcode_names :
    get_opcode "mov" = MOV ∧
    get_opcode "add" = ADD ∧
    get_opcode "mul" = MUL ∧
    get_opcode "cmp_eq" = CMP_EQ ∧
    get_opcode "cmp_gt" = CMP_GT ∧
    get_opcode "cmp_lt" = CMP_LT ∧
    get_opcode "neg" = NEG ∧
    get_opcode "out" = OUT ∧
    get_opcode "in" = IN ∧
    get_opcode "get" = GET ∧
    get_opcode "flush" = FLUSH ∧
    get_opcode "stop" = STOP ∧
    get_opcode "label" = LABEL ∧
    get_opcode "jmp" = JMP ∧
    get_opcode "jnz" = JNZ ∧
    get_opcode "jz" = JZ ∧
    get_opcode "num" = NUM ∧
    get_opcode "str" = STR ∧
    get_opcode "num_int" = NUM_INT ∧
    get_opcode "seed_random" = SEED_RANDOM := by
  decide

theorem get_opcode_print_opcode (op : opcode) (h : op ≠ NONE) :
    get_opcode (print_opcode op) = op ∧ is_opcode (print_opcode op) = true := by
  cases op <;> first | exact absurd rfl h | decide

theorem is_opcode_get_opcode (x : String) (h : is_opcode x = true) :
    get_opcode x ≠ NONE ∧ print_opcode (get_opcode x) = x := by
  simp only [is_opcode, data.opcodes, decide_eq_true_eq, List.mem_cons, List.mem_singleton,
    List.not_mem_nil, or_false] at h
  rcases h with h | h | h | h | h | h | h | h | h | h | h | h | h | h | h | h | h | h | h | h <;>
    subst h <;> decide

/-- C15: the arity and the accepted kinds of every opcode name.  `mov`, `add`, `mul`,
`cmp_eq`, `cmp_gt`, `cmp_lt` need 2 arguments, the first accepted iff it is an Identifier,
the second iff it is an Identifier, a Numeric or a String; `neg`, `in`, `get`, `jmp`,
`jnz`, `jz`, `num`, `str`, `num_int`, `label` need 1 argument, accepted iff it is an
Identifier; `out` needs 1 argument, accepted iff it is an Identifier, a Numeric or a
String; `stop`, `flush`, `seed_random` need none.  These twenty names are the opcodes
list. -/
theorem opcode_table :
    (∀ x ∈ ["mov", "add", "mul", "cmp_eq", "cmp_gt", "cmp_lt"],
      get_number_of_args_needed (get_opcode x) = 2 ∧
      ∀ tok : data.token,
        (match_expectation (get_expected_argument_type (get_opcode x) 1) tok = true ↔
          tok.type = TT_IDENTIFIER) ∧
        (match_expectation (get_expected_argument_type (get_opcode x) 2) tok = true ↔
          tok.type = TT_IDENTIFIER ∨ tok.type = TT_NUMERIC ∨ tok.type = TT_STRING)) ∧
    (∀ x ∈ ["neg", "in", "get", "jmp", "jnz", "jz", "num", "str", "num_int", "label"],
      get_number_of_args_needed (get_opcode x) = 1 ∧
      ∀ tok : data.token,
        (match_expectation (get_expected_argument_type (get_opcode x) 1) tok = true ↔
          tok.type = TT_IDENTIFIER)) ∧
    (get_number_of_args_needed (get_opcode "out") = 1 ∧
      ∀ tok : data.token,
        (match_expectation (get_expected_argument_type (get_opcode "out") 1) tok = true ↔
          tok.type = TT_IDENTIFIER ∨ tok.type = TT_NUMERIC ∨ tok.type = TT_STRING)) ∧
    (∀ x ∈ ["stop", "flush", "seed_random"], get_number_of_args_needed (get_opcode x) = 0) ∧
    (["mov", "add", "mul", "cmp_eq", "cmp_gt", "cmp_lt"] ++
      ["neg", "in", "get", "jmp", "jnz", "jz", "num", "str", "num_int", "label"] ++
      ["out"] ++ ["stop", "flush", "seed_random"]).Perm data.opcodes := by
  obtain ⟨h1, h2, h3, h4, h5, h6, h7, h8, h9, h10, h11, h12, h13, h14, h15, h16, h17, h18,
    h19, h20⟩ := get_opcode_names
  refine ⟨?_, ?_, ?_, ?_, by decide⟩
  · intro x hx
    simp only [List.mem_cons, List.mem_singleton, List.not_mem_nil, or_false] at hx
    rcases hx with h | h | h | h | h | h <;> subst h <;>
      simp only [h1, h2, h3, h4, h5, h6] <;>
      refine ⟨rfl, fun tok => ?_⟩ <;>
      obtain ⟨ty, v⟩ := tok <;>
      cases ty <;> simp [get_expected_argument_type, match_expectation]
  · intro x hx
    simp only [List.mem_cons, List.mem_singleton, List.not_mem_nil, or_false] at hx
    rcases hx with h | h | h | h | h | h | h | h | h | h <;> subst h <;>
      simp only [h7, h9, h10, h13, h14, h15, h16, h17, h18, h19] <;>
      refine ⟨rfl, fun tok => ?_⟩ <;>
      obtain ⟨ty, v⟩ := tok <;>
      cases ty <;> simp [get_expected_argument_type, match_expectation]
  · rw [h8]
    refine ⟨rfl, fun tok => ?_⟩
    obtain ⟨ty, v⟩ := tok
    cases ty <;> simp [get_expected_argument_type, match_expectation]
  · intro x hx
    simp only [List.mem_cons, List.mem_singleton, List.not_mem_nil, or_false] at hx
    rcases hx with h | h | h <;> subst h <;> simp only [h11, h12, h20] <;> rfl

/-- The table at the name `mov`. -/
theorem opcode_table_witness :
    get_number_of_args_needed (get_opcode "mov") = 2 ∧
      ∀ tok : data.token,
        (match_expectation (get_expected_argument_type (get_opcode "mov") 1) tok = true ↔
          tok.type = TT_IDENTIFIER) ∧
        (match_expectation (get_expected_argument_type (get_opcode "mov") 2) tok = true ↔
          tok.type = TT_IDENTIFIER ∨ tok.type = TT_NUMERIC ∨ tok.type = TT_STRING) :=
  opcode_table.1 "mov" (by decide)

/-! ## The invariant of `parse` -/

theorem arity_cases (op : opcode) :
    get_number_of_args_needed op = 0 ∨ get_number_of_args_needed op = 1 ∨
      get_number_of_args_needed op = 2 := by
  cases op <;> simp [get_number_of_args_needed]

theorem parse_token_invariant (st st1 : parser_state) (i : Nat) (g_token : data.token)
    (hinv : parser_invariant st) (h : parse_token st i g_token = .ok st1) :
    parser_invariant st1 := by
  obtain ⟨hok, hel⟩ := hinv
  unfold parse_token at h
  by_cases hm : match_expectation st.expected_token_type g_token = false
  · simp [hm] at h
  · have hm1 : match_expectation st.expected_token_type g_token = true := by
      cases hc : match_expectation st.expected_token_type g_token
      · exact absurd hc hm
      · rfl
    simp only [hm1, Bool.true_eq_false, if_false] at h
    rcases hel with ⟨he, hc, hx⟩ | ⟨he, op, hop, har, hc, hx⟩ | ⟨he, op, t1, hop, har, hc, ht1, hx⟩ |
        ⟨he, op, t1, hop, har, hc, ht1, hx⟩
    · -- the opcode
      rw [hx] at hm1
      simp only [match_expectation, Bool.and_eq_true, decide_eq_true_eq] at hm1
      obtain ⟨hne, _⟩ := is_opcode_get_opcode g_token.value hm1.2
      simp only [he, IE_OPCODE, hc] at h
      by_cases ha : get_number_of_args_needed (get_opcode g_token.value) > 0
      · simp only [ha, if_true, parse_result.ok.injEq] at h
        subst h
        exact ⟨hok, Or.inr (Or.inl ⟨rfl, _, hne, ha, rfl, rfl⟩)⟩
      · simp only [ha, if_false, parse_result.ok.injEq] at h
        subst h
        refine ⟨?_, Or.inl ⟨rfl, rfl, rfl⟩⟩
        intro j hj
        simp only [push_instruction, List.mem_append, List.mem_singleton] at hj
        rcases hj with hj | hj
        · exact hok j hj
        · subst hj
          have h0 : get_number_of_args_needed (get_opcode g_token.value) = 0 := by
            rcases arity_cases (get_opcode g_token.value) with h0 | h0 | h0
            · exact h0
            · exact absurd (by rw [h0]; decide) ha
            · exact absurd (by rw [h0]; decide) ha
          simp [instruction_ok, hne, h0]
    · -- the first argument
      rw [hx] at hm1
      simp only [he, IE_FARG, hc] at h
      by_cases ha : get_number_of_args_needed op > 1
      · simp only [ha, if_true, parse_result.ok.injEq] at h
        subst h
        exact ⟨hok, Or.inr (Or.inr (Or.inl ⟨rfl, op, g_token, hop, ha, rfl, hm1, rfl⟩))⟩
      · simp only [ha, if_false, parse_result.ok.injEq] at h
        subst h
        refine ⟨?_, Or.inl ⟨rfl, rfl, rfl⟩⟩
        intro j hj
        simp only [push_instruction, List.mem_append, List.mem_singleton] at hj
        rcases hj with hj | hj
        · exact hok j hj
        · subst hj
          have h1 : get_number_of_args_needed op = 1 := by
            rcases arity_cases op with h0 | h0 | h0
            · exact absurd har (by rw [h0]; decide)
            · exact h0
            · exact absurd (by rw [h0]; decide) ha
          simp [instruction_ok, hop, h1, hm1]
    · -- the comma
      simp only [he, IE_COMA, hc, parse_result.ok.injEq] at h
      subst h
      exact ⟨hok, Or.inr (Or.inr (Or.inr ⟨rfl, op, t1, hop, har, rfl, ht1, rfl⟩))⟩
    · -- the second argument
      rw [hx] at hm1
      simp only [he, IE_SARG, hc, parse_result.ok.injEq] at h
      subst h
      refine ⟨?_, Or.inl ⟨rfl, rfl, rfl⟩⟩
      intro j hj
      simp only [push_instruction, List.mem_append, List.mem_singleton] at hj
      rcases hj with hj | hj
      · exact hok j hj
      · subst hj
        have h2 : get_number_of_args_needed op = 2 := by
          rcases arity_cases op with h0 | h0 | h0
          · exact absurd har (by rw [h0]; decide)
          · exact absurd har (by rw [h0]; decide)
          · exact h0
        simp [instruction_ok, hop, h2, hm1, ht1]

theorem parse_loop_invariant (tokens : List data.token) (i : Nat) (st st1 : parser_state)
    (hinv : parser_invariant st) (h : parse_loop tokens i st = .ok st1) :
    parser_invariant st1 := by
  induction tokens generalizing i st with
  | nil =>
    simp only [parse_loop, parse_result.ok.injEq] at h
    subst h
    exact hinv
  | cons g_token rest ih =>
    rw [parse_loop] at h
    cases ht : parse_token st i g_token with
    | ok st2 =>
      rw [ht] at h
      exact ih (i + 1) st2 (parse_token_invariant st st2 i g_token hinv ht) h
    | unexpected_token j t e => simp [ht] at h
    | unknown_parser_error => simp [ht] at h

theorem parser_start_invariant : parser_invariant parser_start :=
  ⟨fun _ h => absurd h (List.not_mem_nil _), Or.inl ⟨rfl, rfl, rfl⟩⟩

theorem parse_ok_cases (tokens : List data.token) (instructions : List instruction)
    (h : parse tokens = .ok instructions) :
    ∃ st, parse_loop tokens 0 parser_start = .ok st ∧ st.instructions = instructions := by
  unfold parse at h
  cases hl : parse_loop tokens 0 parser_start with
  | ok st =>
    simp only [hl, parse_result.ok.injEq] at h
    exact ⟨st, rfl, h⟩
  | unexpected_token j t e => simp [hl] at h
  | unknown_parser_error => simp [hl] at h

theorem argument_not_comma (op : opcode) (n : Int) (t : data.token)
    (h : match_expectation (get_expected_argument_type op n) t = true) :
    t.type ≠ TT_COMA := by
  obtain ⟨ty, v⟩ := t
  intro hc
  simp only at hc
  subst hc
  by_cases hn : n = 1 <;> cases op <;>
    simp [get_expected_argument_type, match_expectation, hn] at h

theorem instruction_ok_spec (i : instruction) (h : instruction_ok i = true) :
    i.op ≠ NONE ∧ print_opcode i.op ∈ data.opcodes ∧
    ((get_number_of_args_needed i.op = 0 ∧ i.f_arg = none ∧ i.s_arg = none) ∨
     (get_number_of_args_needed i.op = 1 ∧ ∃ t, i.f_arg = some t ∧ i.s_arg = none ∧
        match_expectation (get_expected_argument_type i.op 1) t = true) ∨
     (get_number_of_args_needed i.op = 2 ∧ ∃ t1 t2, i.f_arg = some t1 ∧ i.s_arg = some t2 ∧
        match_expectation (get_expected_argument_type i.op 1) t1 = true ∧
        match_expectation (get_expected_argument_type i.op 2) t2 = true)) ∧
    (∀ t, i.f_arg = some t ∨ i.s_arg = some t → t.type ≠ TT_COMA) := by
  obtain ⟨op, f_arg, s_arg⟩ := i
  have hop : op ≠ NONE := by
    intro hc
    subst hc
    simp [instruction_ok] at h
  have hmem : print_opcode op ∈ data.opcodes := by
    have := (get_opcode_print_opcode op hop).2
    simpa [is_opcode] using this
  refine ⟨hop, hmem, ?_⟩
  rcases arity_cases op with h0 | h0 | h0
  · cases f_arg <;> cases s_arg <;> simp [instruction_ok, h0, hop] at h
    simp [h0]
  · cases f_arg with
    | none => simp [instruction_ok, h0, hop] at h
    | some t =>
      cases s_arg with
      | some t2 => simp [instruction_ok, h0, hop] at h
      | none =>
        simp [instruction_ok, h0, hop] at h
        refine ⟨Or.inr (Or.inl ⟨h0, t, rfl, rfl, h⟩), ?_⟩
        intro t' ht'
        simp only [Option.some.injEq, reduceCtorEq, or_false] at ht'
        subst ht'
        exact argument_not_comma op 1 _ h
  · cases f_arg with
    | none => simp [instruction_ok, h0, hop] at h
    | some t1 =>
      cases s_arg with
      | none => simp [instruction_ok, h0, hop] at h
      | some t2 =>
        simp [instruction_ok, h0, hop] at h
        refine ⟨Or.inr (Or.inr ⟨h0, t1, t2, rfl, rfl, h.1, h.2⟩), ?_⟩
        intro t' ht'
        simp only [Option.some.injEq] at ht'
        rcases ht' with ht' | ht' <;> subst ht'
        · exact argument_not_comma op 1 _ h.1
        · exact argument_not_comma op 2 _ h.2

/-- C12: every instruction of a vector returned by `parse` has one of the twenty real
opcodes; it has no argument when the opcode needs none, a first argument only when it
needs one, and both when it needs two; each argument meets the expectation of the opcode
for its position; and no argument is a Comma token. -/
theorem parse_instruction_invariant (tokens : List data.token)
    (instructions : List instruction) (h : parse tokens = .ok instructions) :
    ∀ i ∈ instructions,
      i.op ≠ NONE ∧ print_opcode i.op ∈ data.opcodes ∧
      ((get_number_of_args_needed i.op = 0 ∧ i.f_arg = none ∧ i.s_arg = none) ∨
       (get_number_of_args_needed i.op = 1 ∧ ∃ t, i.f_arg = some t ∧ i.s_arg = none ∧
          match_expectation (get_expected_argument_type i.op 1) t = true) ∨
       (get_number_of_args_needed i.op = 2 ∧ ∃ t1 t2, i.f_arg = some t1 ∧ i.s_arg = some t2 ∧
          match_expectation (get_expected_argument_type i.op 1) t1 = true ∧
          match_expectation (get_expected_argument_type i.op 2) t2 = true)) ∧
      (∀ t, i.f_arg = some t ∨ i.s_arg = some t → t.type ≠ TT_COMA) := by
  obtain ⟨st, hst, hi⟩ := parse_ok_cases tokens instructions h
  have hinv := parse_loop_invariant tokens 0 parser_start st parser_start_invariant hst
  intro i hmem
  rw [← hi] at hmem
  exact instruction_ok_spec i (hinv.1 i hmem)

/-- The tokens of `mov a, 5` / `stop` and the instruction `mov a, 5` of the result. -/
theorem parse_instruction_invariant_witness :
    MOV ≠ NONE ∧ print_opcode MOV ∈ data.opcodes ∧
      ((get_number_of_args_needed MOV = 0 ∧
          (some (identifier "a") : Option data.token) = none ∧
          (some (numeric "5") : Option data.token) = none) ∨
       (get_number_of_args_needed MOV = 1 ∧ ∃ t, some (identifier "a") = some t ∧
          (some (numeric "5") : Option data.token) = none ∧
          match_expectation (get_expected_argument_type MOV 1) t = true) ∨
       (get_number_of_args_needed MOV = 2 ∧ ∃ t1 t2, some (identifier "a") = some t1 ∧
          some (numeric "5") = some t2 ∧
          match_expectation (get_expected_argument_type MOV 1) t1 = true ∧
          match_expectation (get_expected_argument_type MOV 2) t2 = true)) ∧
      (∀ t, some (identifier "a") = some t ∨ some (numeric "5") = some t → t.type ≠ TT_COMA) :=
  parse_instruction_invariant
    [identifier "mov", identifier "a", ⟨TT_COMA, ","⟩, numeric "5", identifier "stop"]
    [⟨MOV, some (identifier "a"), some (numeric "5")⟩, ⟨STOP, none, none⟩] (by decide)
    ⟨MOV, some (identifier "a"), some (numeric "5")⟩ (List.mem_cons_self _ _)

/-! ## Parsing the tokens of instructions -/

theorem parse_loop_render (i : instruction) (rest : List data.token) (n : Nat)
    (acc : List instruction) (h : instruction_ok i = true) :
    parse_loop (render i ++ rest) n ⟨acc, ⟨NONE, none, none⟩, ET_OPCODE, IE_OPCODE⟩ =
      parse_loop rest (n + (render i).length)
        ⟨acc ++ [i], ⟨NONE, none, none⟩, ET_OPCODE, IE_OPCODE⟩ := by
  obtain ⟨hop, _, hcases, _⟩ := instruction_ok_spec i h
  obtain ⟨op, f_arg, s_arg⟩ := i
  obtain ⟨hget, hisop⟩ := get_opcode_print_opcode op hop
  simp only at hop hcases hget hisop
  have hopc : match_expectation ET_OPCODE ⟨TT_IDENTIFIER, print_opcode op⟩ = true := by
    simp [match_expectation, hisop]
  have hcoma : match_expectation ET_COMA ⟨TT_COMA, ","⟩ = true := rfl
  rcases hcases with ⟨h0, hf, hs⟩ | ⟨h1, t, hf, hs, hm⟩ | ⟨h2, t1, t2, hf, hs, hm1, hm2⟩
  · subst hf hs
    simp [render, parse_loop, parse_token, hopc, hget, h0, push_instruction, IE_OPCODE]
  · subst hf hs
    simp [render, parse_loop, parse_token, hopc, hget, h1, hm, push_instruction, IE_OPCODE,
      IE_FARG, Nat.add_assoc]
  · subst hf hs
    simp [render, parse_loop, parse_token, hopc, hcoma, hget, h2, hm1, hm2, push_instruction,
      IE_OPCODE, IE_FARG, IE_COMA, IE_SARG, Nat.add_assoc]

theorem parse_loop_renders (instructions : List instruction) (n : Nat)
    (acc : List instruction) (h : ∀ i ∈ instructions, instruction_ok i = true) :
    parse_loop (instructions.flatMap render) n ⟨acc, ⟨NONE, none, none⟩, ET_OPCODE, IE_OPCODE⟩ =
      .ok ⟨acc ++ instructions, ⟨NONE, none, none⟩, ET_OPCODE, IE_OPCODE⟩ := by
  induction instructions generalizing n acc with
  | nil => simp [parse_loop]
  | cons i rest ih =>
    rw [List.flatMap_cons, parse_loop_render i _ n acc (h i (List.mem_cons_self _ _)),
      ih _ _ (fun j hj => h j (List.mem_cons_of_mem _ hj))]
    simp

/-- C13: `parse` applied to the tokens of a list of instructions that satisfy the
instruction invariant (for each one the name of its opcode, then its arguments, with a
Comma token between two arguments) returns exactly that list; so it does for
`mov mov, 5`, whose first argument is spelled like an opcode. -/
theorem parse_render (instructions : List instruction)
    (h : ∀ i ∈ instructions, instruction_ok i = true) :
    parse (instructions.flatMap render) = .ok instructions ∧
    parse [identifier "mov", identifier "mov", ⟨TT_COMA, ","⟩, numeric "5"] =
      .ok [⟨MOV, some (identifier "mov"), some (numeric "5")⟩] := by
  refine ⟨?_, by decide⟩
  have := parse_loop_renders instructions 0 [] h
  simp only [parse, parser_start, this, List.nil_append]

/-- The instructions `mov mov, 5` / `out "x"` / `stop`. -/
theorem parse_render_witness :
    parse ([(⟨MOV, some (identifier "mov"), some (numeric "5")⟩ : instruction),
        ⟨OUT, some (string_literal "x"), none⟩, ⟨STOP, none, none⟩].flatMap render) =
      .ok [⟨MOV, some (identifier "mov"), some (numeric "5")⟩,
        ⟨OUT, some (string_literal "x"), none⟩, ⟨STOP, none, none⟩] :=
  (parse_render [⟨MOV, some (identifier "mov"), some (numeric "5")⟩,
    ⟨OUT, some (string_literal "x"), none⟩, ⟨STOP, none, none⟩] (by decide)).1

/-! ## Parse errors -/

theorem parse_token_unexpected (st : parser_state) (n j : Nat) (g t : data.token)
    (e : data.expected_token) :
    parse_token st n g = .unexpected_token j t e ↔
      j = n ∧ t = g ∧ e = st.expected_token_type ∧
        match_expectation st.expected_token_type g = false := by
  unfold parse_token
  by_cases hm : match_expectation st.expected_token_type g = false
  · simp only [hm, if_true, parse_result.unexpected_token.injEq]
    constructor
    · rintro ⟨h1, h2, h3⟩
      exact ⟨h1.symm, h2.symm, h3.symm, trivial⟩
    · rintro ⟨h1, h2, h3, _⟩
      exact ⟨h1.symm, h2.symm, h3.symm⟩
  · have hm1 : match_expectation st.expected_token_type g = true := by
      cases hc : match_expectation st.expected_token_type g
      · exact absurd hc hm
      · rfl
    simp only [hm1, Bool.true_eq_false, if_false]
    constructor
    · intro h
      split at h
      · split at h <;> simp at h
      · split at h <;> simp at h
      · simp at h
      · simp at h
      · simp at h
    · rintro ⟨_, _, _, h4⟩
      exact absurd h4 (by simp)

theorem parse_token_ok_match (st st1 : parser_state) (n : Nat) (g : data.token)
    (h : parse_token st n g = .ok st1) :
    match_expectation st.expected_token_type g = true := by
  unfold parse_token at h
  cases hm : match_expectation st.expected_token_type g
  · simp [hm] at h
  · rfl

theorem parse_loop_error_iff (l : List data.token) (n : Nat) (st : parser_state) (j : Nat)
    (t : data.token) (e : data.expected_token) :
    parse_loop l n st = .unexpected_token j t e ↔
      ∃ k st1, j = n + k ∧ parse_loop (l.take k) n st = .ok st1 ∧ l[k]? = some t ∧
        e = st1.expected_token_type ∧ match_expectation st1.expected_token_type t = false := by
  induction l generalizing n st with
  | nil => simp [parse_loop]
  | cons g rest ih =>
    rw [parse_loop]
    constructor
    · intro h
      cases ht : parse_token st n g with
      | ok st2 =>
        rw [ht] at h
        obtain ⟨k, st1, h1, h2, h3, h4, h5⟩ := (ih (n + 1) st2).1 h
        refine ⟨k + 1, st1, by omega, ?_, by simpa using h3, h4, h5⟩
        simp [parse_loop, ht, h2]
      | unexpected_token j1 t1 e1 =>
        rw [ht] at h
        simp only [parse_result.unexpected_token.injEq] at h
        obtain ⟨h1, h2, h3⟩ := h
        subst h1 h2 h3
        obtain ⟨h1, h2, h3, h4⟩ := (parse_token_unexpected st n j1 g t1 e1).1 ht
        subst h1 h2 h3
        exact ⟨0, st, rfl, by simp [parse_loop], by simp, rfl, h4⟩
      | unknown_parser_error =>
        rw [ht] at h
        simp at h
    · rintro ⟨k, st1, h1, h2, h3, h4, h5⟩
      cases k with
      | zero =>
        simp only [List.take_zero, parse_loop, parse_result.ok.injEq] at h2
        subst h2
        simp only [List.getElem?_cons_zero, Option.some.injEq] at h3
        subst h3 h4
        have := (parse_token_unexpected st n n g g st.expected_token_type).2 ⟨rfl, rfl, rfl, h5⟩
        rw [this, h1]
        rfl
      | succ k1 =>
        simp only [List.take_succ_cons, parse_loop] at h2
        cases ht : parse_token st n g with
        | ok st2 =>
          rw [ht] at h2
          simp only [List.getElem?_cons_succ] at h3
          simp only []
          exact (ih (n + 1) st2).2 ⟨k1, st1, by omega, h2, h3, h4, h5⟩
        | unexpected_token j1 t1 e1 => simp [ht] at h2
        | unknown_parser_error => simp [ht] at h2

theorem parse_loop_initial_ok (l : List data.token) (n : Nat) (st st1 : parser_state)
    (h : parse_loop l n st = .ok st1) (k : Nat) (g : data.token) (hk : l[k]? = some g) :
    ∃ st2, parse_loop (l.take k) n st = .ok st2 ∧
      match_expectation st2.expected_token_type g = true := by
  induction l generalizing n st k with
  | nil => simp at hk
  | cons g0 rest ih =>
    rw [parse_loop] at h
    cases ht : parse_token st n g0 with
    | ok st3 =>
      rw [ht] at h
      cases k with
      | zero =>
        simp only [List.getElem?_cons_zero, Option.some.injEq] at hk
        subst hk
        exact ⟨st, by simp [parse_loop], parse_token_ok_match st st3 n g0 ht⟩
      | succ k1 =>
        simp only [List.getElem?_cons_succ] at hk
        obtain ⟨st2, h1, h2⟩ := ih (n + 1) st3 h k1 hk
        exact ⟨st2, by simp [parse_loop, ht, h1], h2⟩
    | unexpected_token j1 t1 e1 => simp [ht] at h
    | unknown_parser_error => simp [ht] at h

theorem parse_error_cases (tokens : List data.token) (i : Nat) (tok : data.token)
    (e : data.expected_token) :
    parse tokens = .unexpected_token i tok e ↔
      parse_loop tokens 0 parser_start = .unexpected_token i tok e := by
  unfold parse
  cases parse_loop tokens 0 parser_start <;> simp

/-- C14: `parse` ends with the `exit(1)` of an unexpected token, reporting the index `i`,
the token and the expectation, exactly when the tokens before index `i` are consumed
without error (each one meets the expectation of the state reached before it), leaving
the parser in a state whose expectation the token at index `i` does not meet; nothing is
returned then.  The expectation `ET_OPCODE` of the initial state is met exactly by the
Identifier tokens whose text is in the opcodes list, so any other first token is an error
at index 0, `MOV` included; and after an opcode of arity 2 and its first argument a token
that is not a Comma is an error at index 2, as in `mov a 5`. -/
theorem parse_error_iff (tokens : List data.token) :
    (∀ i tok e, parse tokens = .unexpected_token i tok e ↔
      ∃ st, parse_loop (tokens.take i) 0 parser_start = .ok st ∧ tokens[i]? = some tok ∧
        e = st.expected_token_type ∧ match_expectation st.expected_token_type tok = false ∧
        ∀ k, k < i → ∃ st_k g, parse_loop (tokens.take k) 0 parser_start = .ok st_k ∧
          tokens[k]? = some g ∧ match_expectation st_k.expected_token_type g = true) ∧
    ((parse tokens).exit_status = some 1 ↔
      ∃ i tok e, parse tokens = .unexpected_token i tok e) ∧
    (∀ tok : data.token, match_expectation parser_start.expected_token_type tok = true ↔
      tok.type = TT_IDENTIFIER ∧ tok.value ∈ data.opcodes) ∧
    (∀ (tok : data.token) (rest : List data.token),
      tok.type ≠ TT_IDENTIFIER ∨ tok.value ∉ data.opcodes →
      parse (tok :: rest) = .unexpected_token 0 tok ET_OPCODE) ∧
    parse [identifier "MOV", identifier "a", ⟨TT_COMA, ","⟩, numeric "5"] =
      .unexpected_token 0 (identifier "MOV") ET_OPCODE ∧
    (∀ x ∈ ["mov", "add", "mul", "cmp_eq", "cmp_gt", "cmp_lt"],
      ∀ (a tok : data.token) (rest : List data.token),
        a.type = TT_IDENTIFIER → tok.type ≠ TT_COMA →
        parse (identifier x :: a :: tok :: rest) = .unexpected_token 2 tok ET_COMA) ∧
    parse [identifier "mov", identifier "a", numeric "5"] =
      .unexpected_token 2 (numeric "5") ET_COMA := by
  refine ⟨?_, ?_, ?_, ?_, by decide, ?_, by decide⟩
  · intro i tok e
    rw [parse_error_cases, parse_loop_error_iff]
    constructor
    · rintro ⟨k, st, h1, h2, h3, h4, h5⟩
      simp only [Nat.zero_add] at h1
      subst h1
      refine ⟨st, h2, h3, h4, h5, ?_⟩
      intro k hk
      have hlen : i < tokens.length := by
        obtain ⟨hl, _⟩ := List.getElem?_eq_some.1 h3
        exact hl
      have hklen : k < tokens.length := by omega
      have hg0 : tokens[k]? = some tokens[k] := List.getElem?_eq_getElem hklen
      have hg : (tokens.take i)[k]? = some tokens[k] := by
        rw [List.getElem?_take_of_lt hk]
        exact hg0
      obtain ⟨st_k, hst, hmk⟩ := parse_loop_initial_ok (tokens.take i) 0 parser_start st h2 k _ hg
      rw [List.take_take, Nat.min_eq_left (Nat.le_of_lt hk)] at hst
      exact ⟨st_k, _, hst, hg0, hmk⟩
    · rintro ⟨st, h2, h3, h4, h5, _⟩
      exact ⟨i, st, by simp, h2, h3, h4, h5⟩
  · constructor
    · intro h
      cases hp : parse tokens with
      | ok v => simp [hp, parse_result.exit_status] at h
      | unexpected_token i tok e => exact ⟨i, tok, e, rfl⟩
      | unknown_parser_error => simp [hp, parse_result.exit_status] at h
    · rintro ⟨i, tok, e, h⟩
      simp [h, parse_result.exit_status]
  · intro tok
    simp [parser_start, match_expectation, is_opcode]
  · intro tok rest h
    have hm : match_expectation ET_OPCODE tok = false := by
      rcases h with h | h
      · simp [match_expectation, h]
      · simp [match_expectation, is_opcode, h]
    simp [parse, parse_loop, parse_token, parser_start, hm]
  · intro x hx a tok rest ha htok
    have hm : match_expectation ET_COMA tok = false := by
      simp [match_expectation, htok]
    have ha1 : match_expectation ET_IDENTIFIER a = true := by
      simp [match_expectation, ha]
    obtain ⟨h1, h2, h3, h4, h5, h6, _⟩ := get_opcode_names
    simp only [List.mem_cons, List.mem_singleton, List.not_mem_nil, or_false] at hx
    have o1 : match_expectation ET_OPCODE ⟨TT_IDENTIFIER, "mov"⟩ = true := by decide
    have o2 : match_expectation ET_OPCODE ⟨TT_IDENTIFIER, "add"⟩ = true := by decide
    have o3 : match_expectation ET_OPCODE ⟨TT_IDENTIFIER, "mul"⟩ = true := by decide
    have o4 : match_expectation ET_OPCODE ⟨TT_IDENTIFIER, "cmp_eq"⟩ = true := by decide
    have o5 : match_expectation ET_OPCODE ⟨TT_IDENTIFIER, "cmp_gt"⟩ = true := by decide
    have o6 : match_expectation ET_OPCODE ⟨TT_IDENTIFIER, "cmp_lt"⟩ = true := by decide
    rcases hx with h | h | h | h | h | h <;> subst h <;>
      simp [parse, parse_loop, parse_token, parser_start, identifier, o1, o2, o3, o4, o5, o6,
        h1, h2, h3, h4, h5, h6, get_number_of_args_needed, get_expected_argument_type,
        IE_OPCODE, IE_FARG, IE_COMA, ha1, hm]

/-- The tokens of `mov a 5`: the error is at index 2. -/
theorem parse_error_iff_witness :
    parse [identifier "mov", identifier "a", numeric "5"] =
        .unexpected_token 2 (numeric "5") ET_COMA ↔
      ∃ st, parse_loop ([identifier "mov", identifier "a", numeric "5"].take 2) 0
            parser_start = .ok st ∧
        [identifier "mov", identifier "a", numeric "5"][2]? = some (numeric "5") ∧
        ET_COMA = st.expected_token_type ∧
        match_expectation st.expected_token_type (numeric "5") = false ∧
        ∀ k, k < 2 → ∃ st_k g,
          parse_loop ([identifier "mov", identifier "a", numeric "5"].take k) 0
            parser_start = .ok st_k ∧
          [identifier "mov", identifier "a", numeric "5"][k]? = some g ∧
          match_expectation st_k.expected_token_type g = true :=
  (parse_error_iff [identifier "mov", identifier "a", numeric "5"]).1 2 (numeric "5") ET_COMA

/-! ## The status returned by `run` -/

/-- An instruction returns from `run` either as `stop`, with status 0 and the state as it
is, or with status 3 and a diagnostic on `std::cerr`. -/
theorem exec_returned_cases (env : Stdlib) (i : instruction) (s s1 : State) (code : Nat)
    (h : exec env i s = .returned code s1) :
    (code = 0 ∧ i.op = STOP ∧ s1 = s) ∨
      (code = 3 ∧ i.op ≠ STOP ∧ ∃ e, s1 = { s with cerr := e }) := by
  obtain ⟨op, f_arg, s_arg⟩ := i
  cases op <;> simp only [exec, compare, set_cmp_register, unknown_variable, unknown_label] at h <;>
    (repeat' split at h) <;>
    simp only [Outcome.returned.injEq, reduceCtorEq] at h <;>
    obtain ⟨h1, h2⟩ := h <;>
    subst h1 h2 <;>
    first
      | exact Or.inl ⟨rfl, rfl, rfl⟩
      | exact Or.inr ⟨rfl, by simp, _, rfl⟩

theorem step_none_iff (env : Stdlib) (instructions : List instruction) (s : State) :
    step env instructions s = none ↔ instructions[s.cip]? = none := by
  unfold step
  cases hi : instructions[s.cip]? with
  | none => simp
  | some i => cases he : exec env i s <;> simp [he]

theorem step_returned_cases (env : Stdlib) (instructions : List instruction) (s s1 : State)
    (code : Nat) (h : step env instructions s = some (.returned code s1)) :
    ∃ i, instructions[s.cip]? = some i ∧ exec env i s = .returned code s1 := by
  unfold step at h
  cases hi : instructions[s.cip]? with
  | none => simp [hi] at h
  | some i =>
    cases he : exec env i s with
    | next s2 => simp [hi, he] at h
    | returned c s2 =>
      simp [hi, he] at h
      obtain ⟨h1, h2⟩ := h
      subst h1 h2
      exact ⟨i, rfl, he⟩
    | undefined => simp [hi, he] at h

theorem run_loop_returned_cases (env : Stdlib) (instructions : List instruction)
    (rand : List Nat) (cin : List Char) (fuel : Nat) (s sf : State) (code : Nat)
    (hs : Reachable env instructions rand cin s)
    (h : run_loop env instructions fuel s = some (.returned code sf)) :
    ∃ s1, Reachable env instructions rand cin s1 ∧
      ((code = 0 ∧ sf = s1 ∧
          (instructions[s1.cip]? = none ∨
            ∃ i, instructions[s1.cip]? = some i ∧ i.op = STOP)) ∨
       (code = 3 ∧ (∃ i, instructions[s1.cip]? = some i ∧ i.op ≠ STOP) ∧
          ∃ e, sf = { s1 with cerr := e })) := by
  induction fuel generalizing s with
  | zero =>
    rw [run_loop] at h
    cases hst : step env instructions s with
    | none =>
      simp only [hst, Option.some.injEq, Outcome.returned.injEq] at h
      exact ⟨s, hs, Or.inl ⟨h.1.symm, h.2.symm, Or.inl ((step_none_iff _ _ _).1 hst)⟩⟩
    | some o =>
      cases o with
      | next s2 => simp [hst] at h
      | returned c s2 =>
        simp only [hst, Option.some.injEq, Outcome.returned.injEq] at h
        obtain ⟨h1, h2⟩ := h
        subst h1 h2
        obtain ⟨i, hi, he⟩ := step_returned_cases env instructions s _ _ hst
        rcases exec_returned_cases env i s _ _ he with ⟨h1, h2, h3⟩ | ⟨h1, h2, h3⟩
        · exact ⟨s, hs, Or.inl ⟨h1, h3, Or.inr ⟨i, hi, h2⟩⟩⟩
        · exact ⟨s, hs, Or.inr ⟨h1, ⟨i, hi, h2⟩, h3⟩⟩
      | undefined => simp [hst] at h
  | succ n ih =>
    rw [run_loop] at h
    cases hst : step env instructions s with
    | none =>
      simp only [hst, Option.some.injEq, Outcome.returned.injEq] at h
      exact ⟨s, hs, Or.inl ⟨h.1.symm, h.2.symm, Or.inl ((step_none_iff _ _ _).1 hst)⟩⟩
    | some o =>
      cases o with
      | next s2 =>
        simp only [hst] at h
        exact ih s2 (Reachable.step s s2 hs hst) h
      | returned c s2 =>
        simp only [hst, Option.some.injEq, Outcome.returned.injEq] at h
        obtain ⟨h1, h2⟩ := h
        subst h1 h2
        obtain ⟨i, hi, he⟩ := step_returned_cases env instructions s _ _ hst
        rcases exec_returned_cases env i s _ _ he with ⟨h1, h2, h3⟩ | ⟨h1, h2, h3⟩
        · exact ⟨s, hs, Or.inl ⟨h1, h3, Or.inr ⟨i, hi, h2⟩⟩⟩
        · exact ⟨s, hs, Or.inr ⟨h1, ⟨i, hi, h2⟩, h3⟩⟩
      | undefined => simp [hst] at h

/-- C11: whenever `run` returns, the status is 0 or 3.  It is 0 exactly at a state reached
by the loop in which the instruction pointer is past the end of the instructions or at a
`stop` instruction, and the final state is that state (nothing is executed after a `stop`);
it is 3 at an instruction other than `stop`, with only a diagnostic added.  Conversely,
from every reached state whose instruction pointer is past the end or at a `stop`, `run`
returns 0 with that state.  So when `load_from_file` ends with an exit status, the status
is one of 0, 1, 2, 3. -/
theorem run_exit_status (env : Stdlib) (instructions : List instruction) (rand : List Nat)
    (cin : List Char) :
    (∀ fuel code sf, run env instructions rand cin fuel = some (.returned code sf) →
      ∃ s1, Reachable env instructions rand cin s1 ∧
        ((code = 0 ∧ sf = s1 ∧
            (instructions[s1.cip]? = none ∨
              ∃ i, instructions[s1.cip]? = some i ∧ i.op = STOP)) ∨
         (code = 3 ∧ (∃ i, instructions[s1.cip]? = some i ∧ i.op ≠ STOP) ∧
            ∃ e, sf = { s1 with cerr := e }))) ∧
    (∀ s, Reachable env instructions rand cin s →
      (instructions[s.cip]? = none ∨ ∃ i, instructions[s.cip]? = some i ∧ i.op = STOP) →
      ∃ n, ∀ fuel, run env instructions rand cin (n + fuel) = some (.returned 0 s)) ∧
    (∀ inputfile fuel status,
      load_from_file env inputfile rand cin fuel = some (.exit status) →
      status = 0 ∨ status = 1 ∨ status = 2 ∨ status = 3) := by
  have hrun : ∀ (is : List instruction) fuel code sf,
      run env is rand cin fuel = some (.returned code sf) →
      ∃ s1, Reachable env is rand cin s1 ∧
        ((code = 0 ∧ sf = s1 ∧
            (is[s1.cip]? = none ∨ ∃ i, is[s1.cip]? = some i ∧ i.op = STOP)) ∨
         (code = 3 ∧ (∃ i, is[s1.cip]? = some i ∧ i.op ≠ STOP) ∧
            ∃ e, sf = { s1 with cerr := e })) := by
    intro is fuel code sf h
    unfold run at h
    cases hb : build_labels is 0 [] with
    | none => simp [hb] at h
    | some labels =>
      simp only [hb] at h
      exact run_loop_returned_cases env is rand cin fuel _ sf code (Reachable.start labels hb) h
  refine ⟨hrun instructions, ?_, ?_⟩
  · intro s hs hend
    obtain ⟨n, hn⟩ := run_of_reachable env instructions rand cin s hs
    refine ⟨n, fun fuel => ?_⟩
    rw [hn fuel]
    rcases hend with hnone | ⟨i, hi, hop⟩
    · exact run_loop_end env instructions fuel s ((step_none_iff _ _ _).2 hnone)
    · obtain ⟨op, f_arg, s_arg⟩ := i
      simp only at hop
      subst hop
      exact run_loop_returned env instructions fuel s s 0
        (step_of_exec_returned env instructions s s _ 0 hi rfl)
  · intro inputfile fuel status h
    unfold load_from_file at h
    cases hp : parse (lex inputfile) with
    | unexpected_token j t e =>
      simp only [hp, Option.some.injEq, Termination.exit.injEq] at h
      omega
    | unknown_parser_error =>
      simp only [hp, Option.some.injEq, Termination.exit.injEq] at h
      omega
    | ok is =>
      simp only [hp] at h
      cases hr : run env is rand cin fuel with
      | none => simp [hr] at h
      | some o =>
        cases o with
        | next s2 => simp [hr] at h
        | undefined => simp [hr] at h
        | returned code sf =>
          simp only [hr, Option.some.injEq, Termination.exit.injEq] at h
          subst h
          obtain ⟨s1, _, hc | hc⟩ := hrun is fuel code sf hr
          · exact Or.inl hc.1
          · exact Or.inr (Or.inr (Or.inr hc.1))

/-- The program `stop` / `out "x"`: `run` returns 0 at the `stop` with nothing printed. -/
theorem run_exit_status_witness :
    ∃ n, ∀ fuel,
      run integer_stdlib [⟨STOP, none, none⟩, ⟨OUT, some (string_literal "x"), none⟩] [] []
        (n + fuel) = some (.returned 0 (initial_state integer_stdlib [] [] [])) :=
  (run_exit_status integer_stdlib [⟨STOP, none, none⟩, ⟨OUT, some (string_literal "x"), none⟩]
    [] []).2.1 (initial_state integer_stdlib [] [] []) (Reachable.start [] rfl)
    (Or.inr ⟨⟨STOP, none, none⟩, rfl, rfl⟩)

/-! ## Lines -/

theorem getlines_no_newline (line cs : List Char) (h : ∀ c ∈ cs, c ≠ '\n') :
    getlines line cs = if line ++ cs = [] then [] else [line ++ cs] := by
  induction cs generalizing line with
  | nil => simp [getlines]
  | cons c rest ih =>
    have hc : c ≠ '\n' := h c (List.mem_cons_self _ _)
    rw [getlines, if_neg hc, ih (line ++ [c]) (fun d hd => h d (List.mem_cons_of_mem _ hd))]
    simp

theorem dropWhile_isspace_self (l : List Char)
    (h : ∀ c, l.head? = some c → isspace c = false) : l.dropWhile isspace = l := by
  cases l with
  | nil => rfl
  | cons c rest => simp [List.dropWhile, h c rfl]

theorem trim_self (l : List Char) (h1 : ∀ c, l.head? = some c → isspace c = false)
    (h2 : ∀ c, l.getLast? = some c → isspace c = false) : trim l = l := by
  unfold trim
  rw [dropWhile_isspace_self l h1, dropWhile_isspace_self l.reverse, List.reverse_reverse]
  intro c hc
  rw [List.head?_reverse] at hc
  exact h2 c hc

/-- On a text that is one line, not empty and without `\n`, `lex` is `lex_line`. -/
theorem lex_one_line (cs : List Char) (hne : cs ≠ []) (h : ∀ c ∈ cs, c ≠ '\n') :
    lex (String.mk cs) = lex_line [] cs := by
  unfold lex
  have := getlines_no_newline [] cs h
  simp only [List.nil_append, hne, if_false] at this
  simp [this]

/-- A line that starts and ends with a character that is no whitespace, and does not
start with `;`, is scanned as it is. -/
theorem lex_line_scan (cs : List Char) (c1 c2 : Char) (hhead : cs.head? = some c1)
    (hlast : cs.getLast? = some c2) (h1 : isspace c1 = false) (h2 : isspace c2 = false)
    (h3 : c1 ≠ ';') : lex_line [] cs = scan cs := by
  have ht : trim cs = cs := by
    apply trim_self
    · intro c hc
      rw [hhead] at hc
      simp only [Option.some.injEq] at hc
      rw [← hc]
      exact h1
    · intro c hc
      rw [hlast] at hc
      simp only [Option.some.injEq] at hc
      rw [← hc]
      exact h2
  have hlen : ¬ cs.length < 1 := by
    cases cs with
    | nil => simp at hhead
    | cons c rest => simp
  simp only [lex_line, ht, hlen, hhead, Option.some.injEq, false_or, h3, if_false, scan]

/-! ## Characters inside and outside a string -/

theorem foldl_lex_char_in_string (s : List Char) (tokens : List data.token) (word : List Char)
    (h : ∀ c ∈ s, c ≠ '"' ∧ c ≠ '\\') :
    s.foldl lex_char ⟨tokens, word, true, false⟩ = ⟨tokens, word ++ s, true, false⟩ := by
  induction s generalizing word with
  | nil => simp
  | cons c rest ih =>
    obtain ⟨hq, hb⟩ := h c (List.mem_cons_self _ _)
    have hstep : lex_char ⟨tokens, word, true, false⟩ c = ⟨tokens, word ++ [c], true, false⟩ := by
      simp [lex_char, hq, hb]
    rw [List.foldl_cons, hstep, ih _ (fun d hd => h d (List.mem_cons_of_mem _ hd))]
    simp

theorem foldl_lex_char_word (w : List Char) (tokens : List data.token) (word : List Char)
    (h : ∀ c ∈ w, c ≠ ',' ∧ c ≠ '"' ∧ isspace c = false) :
    w.foldl lex_char ⟨tokens, word, false, false⟩ = ⟨tokens, word ++ w, false, false⟩ := by
  induction w generalizing word with
  | nil => simp
  | cons c rest ih =>
    obtain ⟨hc, hq, hsp⟩ := h c (List.mem_cons_self _ _)
    have hstep : lex_char ⟨tokens, word, false, false⟩ c =
        ⟨tokens, word ++ [c], false, false⟩ := by
      simp [lex_char, hc, hq, hsp]
    rw [List.foldl_cons, hstep, ih _ (fun d hd => h d (List.mem_cons_of_mem _ hd))]
    simp

/-! ## String literals -/

theorem scan_quoted (s : List Char) (h : ∀ c ∈ s, c ≠ '"' ∧ c ≠ '\\') :
    scan ('"' :: s ++ ['"']) = [⟨TT_STRING, String.mk s⟩] := by
  have h0 : lex_char ⟨[], [], false, false⟩ '"' = ⟨[], [], true, false⟩ := by
    simp [lex_char]
  have h1 : lex_char ⟨[], s, true, false⟩ '"' = ⟨[⟨TT_STRING, String.mk s⟩], [], false, false⟩ := by
    simp [lex_char]
  simp only [scan, List.foldl_cons, List.foldl_append, List.foldl_nil, h0,
    foldl_lex_char_in_string s [] [] h, List.nil_append, h1]
  simp [lex_flush]

theorem getLast?_append_singleton (l : List Char) (c : Char) :
    (l ++ [c]).getLast? = some c := by
  simp

/-- C18: for every `s` without double quote, backslash and newline, the text made of a
double quote, `s` and a double quote is lexed as exactly one token, a String whose text
is `s`; so it is when `s` is empty, is `123`, or is `;a, b`. -/
theorem lex_quoted (s : List Char) (h : ∀ c ∈ s, c ≠ '"' ∧ c ≠ '\\' ∧ c ≠ '\n') :
    lex (String.mk ('"' :: s ++ ['"'])) = [⟨TT_STRING, String.mk s⟩] ∧
    lex "\"\"" = [⟨TT_STRING, ""⟩] ∧ lex "\"123\"" = [⟨TT_STRING, "123"⟩] ∧
    lex "\";a, b\"" = [⟨TT_STRING, ";a, b"⟩] := by
  refine ⟨?_, by decide, by decide, by decide⟩
  have hnl : ∀ c ∈ '"' :: s ++ ['"'], c ≠ '\n' := by
    intro c hc hcn
    subst hcn
    simp at hc
    exact (h _ hc).2.2 rfl
  rw [lex_one_line _ (by simp) hnl,
    lex_line_scan ('"' :: s ++ ['"']) '"' '"' rfl (getLast?_append_singleton _ _)
      (by decide) (by decide) (by decide)]
  exact scan_quoted s (fun c hc => ⟨(h c hc).1, (h c hc).2.1⟩)

/-- The text `"12, ;x y"`, quotes included. -/
theorem lex_quoted_witness :
    lex (String.mk ('"' :: "12, ;x y".data ++ ['"'])) =
      [⟨TT_STRING, String.mk "12, ;x y".data⟩] :=
  (lex_quoted "12, ;x y".data (by decide)).1

theorem scan_escaped_quote (s t : List Char) (hs : ∀ c ∈ s, c ≠ '"' ∧ c ≠ '\\')
    (ht : ∀ c ∈ t, c ≠ '"' ∧ c ≠ '\\') :
    scan ('"' :: s ++ '\\' :: '"' :: t ++ ['"']) = [⟨TT_STRING, String.mk (s ++ '"' :: t)⟩] := by
  have h0 : lex_char ⟨[], [], false, false⟩ '"' = ⟨[], [], true, false⟩ := by
    simp [lex_char]
  have h1 : lex_char ⟨[], s, true, false⟩ '\\' = ⟨[], s, true, true⟩ := by
    simp [lex_char]
  have h2 : lex_char ⟨[], s, true, true⟩ '"' = ⟨[], s ++ ['"'], true, false⟩ := by
    simp [lex_char]
  have h3 : lex_char ⟨[], s ++ ['"'] ++ t, true, false⟩ '"' =
      ⟨[⟨TT_STRING, String.mk (s ++ ['"'] ++ t)⟩], [], false, false⟩ := by
    simp [lex_char]
  simp only [scan, List.foldl_cons, List.foldl_append, List.foldl_nil, h0,
    foldl_lex_char_in_string s [] [] hs, List.nil_append, h1, h2,
    foldl_lex_char_in_string t [] (s ++ ['"']) ht, h3]
  simp [lex_flush]

/-- C20: for all `s` and `t` without double quote and backslash, the line made of a
double quote, `s`, a backslash, a double quote, `t` and a double quote is lexed as exactly
one token, a String whose text is `s`, a double quote, then `t`: the escaped quote does
not end the string and the backslash is not in the text.  The same holds of `lex` on the
text that consists of this line, when `s` and `t` hold no newline. -/
theorem lex_escaped_quote (s t : List Char) (hs : ∀ c ∈ s, c ≠ '"' ∧ c ≠ '\\')
    (ht : ∀ c ∈ t, c ≠ '"' ∧ c ≠ '\\') :
    lex_line [] ('"' :: s ++ '\\' :: '"' :: t ++ ['"']) =
      [⟨TT_STRING, String.mk (s ++ '"' :: t)⟩] ∧
    ((∀ c ∈ s ++ t, c ≠ '\n') →
      lex (String.mk ('"' :: s ++ '\\' :: '"' :: t ++ ['"'])) =
        [⟨TT_STRING, String.mk (s ++ '"' :: t)⟩]) := by
  have hline : lex_line [] ('"' :: s ++ '\\' :: '"' :: t ++ ['"']) =
      [⟨TT_STRING, String.mk (s ++ '"' :: t)⟩] := by
    rw [lex_line_scan ('"' :: s ++ '\\' :: '"' :: t ++ ['"']) '"' '"' rfl
      (getLast?_append_singleton _ _) (by decide) (by decide) (by decide)]
    exact scan_escaped_quote s t hs ht
  refine ⟨hline, fun hnl => ?_⟩
  rw [lex_one_line _ (by simp), hline]
  intro c hc hcn
  subst hcn
  simp at hc
  rcases hc with hc | hc
  · exact hnl _ (List.mem_append_left _ hc) rfl
  · exact hnl _ (List.mem_append_right _ hc) rfl

/-- The line `"say \"hi"`, quotes and backslash included. -/
theorem lex_escaped_quote_witness :
    lex_line [] ('"' :: "say ".data ++ '\\' :: '"' :: "hi".data ++ ['"']) =
      [⟨TT_STRING, String.mk ("say ".data ++ '"' :: "hi".data)⟩] :=
  (lex_escaped_quote "say ".data "hi".data (by decide) (by decide)).1

/-! ## Words -/

theorem is_number_iff (w : String) : is_number w = true ↔ w ≠ "" ∧ matches_star w.data := by
  obtain ⟨l⟩ := w
  have hne : (String.mk l ≠ "") ↔ l ≠ [] := by
    constructor
    · intro h hl
      exact h (by rw [hl])
    · intro h hw
      exact h (by simpa using congrArg String.data hw)
  rw [hne]
  cases l with
  | nil => simp [is_number]
  | cons c r =>
    have hminus : digit_or_dot '-' = false := by decide
    by_cases hc : c = '-'
    · subst hc
      simp only [is_number, List.length_cons, Nat.zero_lt_succ, if_true, List.head?_cons,
        List.drop_succ_cons, List.drop_zero, List.all_eq_true, ne_eq, reduceCtorEq,
        not_false_eq_true, true_and, matches_star]
      constructor
      · intro h
        exact ⟨r, Or.inr rfl, fun d hd => by simpa [digit_or_dot] using h d hd⟩
      · rintro ⟨body, hb | hb, hall⟩
        · have := hall '-' (by rw [← hb]; exact List.mem_cons_self _ _)
          rw [hminus] at this
          exact absurd this (by decide)
        · simp only [List.cons.injEq, true_and] at hb
          subst hb
          intro d hd
          simpa [digit_or_dot] using hall d hd
    · have hh : ¬ (some c = some '-') := by simpa using hc
      simp only [is_number, List.length_cons, Nat.zero_lt_succ, if_true, List.head?_cons, hh,
        if_false, List.drop_zero, List.all_eq_true, ne_eq, reduceCtorEq, not_false_eq_true,
        true_and, matches_star]
      constructor
      · intro h
        exact ⟨c :: r, Or.inl rfl, fun d hd => by simpa [digit_or_dot] using h d hd⟩
      · rintro ⟨body, hb | hb, hall⟩
        · subst hb
          intro d hd
          simpa [digit_or_dot] using hall d hd
        · simp only [List.cons.injEq] at hb
          exact absurd hb.1 hc

theorem scan_word (w : List Char) (h : unquoted_word w) :
    scan w = [word_token w] ∧ scan (w ++ [',']) = [word_token w, ⟨TT_COMA, ","⟩] ∧
      ∀ sp, isspace sp = true → scan (w ++ [sp]) = [word_token w] := by
  obtain ⟨hne, hall⟩ := h
  have hcomma : w ≠ [','] := by
    intro hw
    exact (hall ',' (by rw [hw]; exact List.mem_singleton_self _)).1 rfl
  refine ⟨?_, ?_, ?_⟩
  · simp [scan, foldl_lex_char_word w [] [] hall, lex_flush, hne, hcomma, word_token]
  · simp [scan, List.foldl_append, foldl_lex_char_word w [] [] hall, lex_char, push_word,
      lex_flush, hne]
  · intro sp hsp
    have h1 : sp ≠ ',' := by
      intro hc
      subst hc
      exact absurd hsp (by decide)
    have h2 : sp ≠ '"' := by
      intro hc
      subst hc
      exact absurd hsp (by decide)
    simp [scan, List.foldl_append, foldl_lex_char_word w [] [] hall, lex_char, push_word,
      lex_flush, hne, h1, h2, hsp]

theorem lex_word (w : List Char) (h : unquoted_word w) (hsemi : w.head? ≠ some ';') :
    lex (String.mk w) = [word_token w] := by
  obtain ⟨hne, hall⟩ := h
  have hnl : ∀ c ∈ w, c ≠ '\n' := by
    intro c hc hcn
    subst hcn
    exact absurd (hall _ hc).2.2 (by decide)
  cases hh : w.head? with
  | none => exact absurd (List.head?_eq_none_iff.1 hh) hne
  | some c1 =>
    cases hl : w.getLast? with
    | none => exact absurd (List.getLast?_eq_none_iff.1 hl) hne
    | some c2 =>
      have hc1 : c1 ∈ w := List.mem_of_mem_head? (by rw [hh]; rfl)
      have hc2 : c2 ∈ w := List.mem_of_getLast?_eq_some hl
      rw [lex_one_line w hne hnl,
        lex_line_scan w c1 c2 hh hl (hall c1 hc1).2.2 (hall c2 hc2).2.2
          (fun hc => hsemi (by rw [hh, hc]))]
      exact (scan_word w ⟨hne, hall⟩).1

theorem word_token_type (w : List Char) (hne : w ≠ []) :
    (matches_star w → word_token w = ⟨TT_NUMERIC, String.mk w⟩) ∧
      (¬ matches_star w → word_token w = ⟨TT_IDENTIFIER, String.mk w⟩) := by
  have hw : String.mk w ≠ "" := by
    intro h
    exact hne (by simpa using congrArg String.data h)
  have hiff := is_number_iff (String.mk w)
  constructor
  · intro hm
    simp [word_token, hiff.2 ⟨hw, hm⟩]
  · intro hm
    have : is_number (String.mk w) = false := by
      cases hn : is_number (String.mk w)
      · rfl
      · exact absurd (hiff.1 hn).2 hm
    simp [word_token, this]

/-- C16: `is_number(w)` is true if and only if `w` is not empty and matches `-?[0-9.]*`;
and every unquoted word that does not match is made an Identifier token by the lexer,
whether the end of the line, a comma or a whitespace ends it. -/
theorem is_number_spec :
    (∀ w : String, is_number w = true ↔ w ≠ "" ∧ matches_star w.data) ∧
    (∀ w : List Char, unquoted_word w → ¬ matches_star w →
      scan w = [⟨TT_IDENTIFIER, String.mk w⟩] ∧
      scan (w ++ [',']) = [⟨TT_IDENTIFIER, String.mk w⟩, ⟨TT_COMA, ","⟩] ∧
      (∀ sp, isspace sp = true → scan (w ++ [sp]) = [⟨TT_IDENTIFIER, String.mk w⟩]) ∧
      (w.head? ≠ some ';' → lex (String.mk w) = [⟨TT_IDENTIFIER, String.mk w⟩])) := by
  refine ⟨is_number_iff, ?_⟩
  intro w hw hm
  have ht := (word_token_type w hw.1).2 hm
  obtain ⟨h1, h2, h3⟩ := scan_word w hw
  rw [ht] at h1 h2 h3
  exact ⟨h1, h2, h3, fun hsemi => by rw [lex_word w hw hsemi, ht]⟩

/-- The word `a-1`, which is no number. -/
theorem is_number_spec_witness :
    scan "a-1".data = [⟨TT_IDENTIFIER, String.mk "a-1".data⟩] ∧
      scan ("a-1".data ++ [',']) = [⟨TT_IDENTIFIER, String.mk "a-1".data⟩, ⟨TT_COMA, ","⟩] ∧
      (∀ sp, isspace sp = true →
        scan ("a-1".data ++ [sp]) = [⟨TT_IDENTIFIER, String.mk "a-1".data⟩]) ∧
      ("a-1".data.head? ≠ some ';' →
        lex (String.mk "a-1".data) = [⟨TT_IDENTIFIER, String.mk "a-1".data⟩]) :=
  is_number_spec.2 "a-1".data ⟨by decide, by decide⟩
    (fun hm => absurd ((is_number_iff "a-1").2 ⟨by decide, hm⟩) (by decide))

/-- C17 (counterexample): the unquoted word `-` is made a Numeric token, and it does not
match `-?[0-9.]+`. -/
theorem lone_minus_is_numeric :
    unquoted_word ['-'] ∧ lex "-" = [⟨TT_NUMERIC, "-"⟩] ∧ ¬ matches_plus ['-'] := by
  refine ⟨⟨by decide, by decide⟩, by decide, ?_⟩
  rintro ⟨body, hb | hb, hne, hall⟩
  · have := hall '-' (by rw [← hb]; exact List.mem_singleton_self _)
    exact absurd this (by decide)
  · simp only [List.cons.injEq, true_and] at hb
    exact hne hb.symm

/-- C17 (amended): an unquoted word `w` finalized by the lexer (by the end of the line, a
comma or a whitespace) is made a Numeric token if and only if it matches `-?[0-9.]*` (an
optional minus followed by any number of digits and dots, so that the lone `-` is
Numeric), and an Identifier token otherwise. -/
theorem word_classification (w : List Char) (h : unquoted_word w) :
    ∃ ty, (ty = TT_NUMERIC ↔ matches_star w) ∧ (ty = TT_IDENTIFIER ↔ ¬ matches_star w) ∧
      scan w = [⟨ty, String.mk w⟩] ∧
      scan (w ++ [',']) = [⟨ty, String.mk w⟩, ⟨TT_COMA, ","⟩] ∧
      (∀ sp, isspace sp = true → scan (w ++ [sp]) = [⟨ty, String.mk w⟩]) ∧
      (w.head? ≠ some ';' → lex (String.mk w) = [⟨ty, String.mk w⟩]) := by
  obtain ⟨h1, h2, h3⟩ := scan_word w h
  obtain ⟨hnum, hid⟩ := word_token_type w h.1
  by_cases hm : matches_star w
  · have ht := hnum hm
    rw [ht] at h1 h2 h3
    exact ⟨TT_NUMERIC, by simp [hm], by simp [hm], h1, h2, h3,
      fun hsemi => by rw [lex_word w h hsemi, ht]⟩
  · have ht := hid hm
    rw [ht] at h1 h2 h3
    exact ⟨TT_IDENTIFIER, by simp [hm], by simp [hm], h1, h2, h3,
      fun hsemi => by rw [lex_word w h hsemi, ht]⟩

/-- The word `-.5`. -/
theorem word_classification_witness :
    ∃ ty, (ty = TT_NUMERIC ↔ matches_star "-.5".data) ∧
      (ty = TT_IDENTIFIER ↔ ¬ matches_star "-.5".data) ∧
      scan "-.5".data = [⟨ty, String.mk "-.5".data⟩] ∧
      scan ("-.5".data ++ [',']) = [⟨ty, String.mk "-.5".data⟩, ⟨TT_COMA, ","⟩] ∧
      (∀ sp, isspace sp = true → scan ("-.5".data ++ [sp]) = [⟨ty, String.mk "-.5".data⟩]) ∧
      ("-.5".data.head? ≠ some ';' → lex (String.mk "-.5".data) = [⟨ty, String.mk "-.5".data⟩]) :=
  word_classification "-.5".data ⟨by decide, by decide⟩

/-! ## Commas -/

theorem lex_char_tokens_prepend (tokens : List data.token) (word : List Char) (b1 b2 : Bool)
    (c : Char) :
    lex_char ⟨tokens, word, b1, b2⟩ c =
      ⟨tokens ++ (lex_char ⟨[], word, b1, b2⟩ c).tokens, (lex_char ⟨[], word, b1, b2⟩ c).word,
        (lex_char ⟨[], word, b1, b2⟩ c).is_string, (lex_char ⟨[], word, b1, b2⟩ c).is_escaped⟩ := by
  unfold lex_char push_word
  by_cases hw : word = [] <;> (repeat' split) <;> simp_all

theorem foldl_tokens_prepend (cs : List Char) (tokens : List data.token) (word : List Char)
    (b1 b2 : Bool) :
    cs.foldl lex_char ⟨tokens, word, b1, b2⟩ =
      ⟨tokens ++ (cs.foldl lex_char ⟨[], word, b1, b2⟩).tokens,
        (cs.foldl lex_char ⟨[], word, b1, b2⟩).word,
        (cs.foldl lex_char ⟨[], word, b1, b2⟩).is_string,
        (cs.foldl lex_char ⟨[], word, b1, b2⟩).is_escaped⟩ := by
  induction cs generalizing tokens word b1 b2 with
  | nil => simp
  | cons c rest ih =>
    rw [List.foldl_cons, List.foldl_cons, lex_char_tokens_prepend tokens word b1 b2 c, ih,
      ih (lex_char ⟨[], word, b1, b2⟩ c).tokens]
    simp

theorem lex_flush_prepend (t1 t2 : List data.token) (word : List Char) (b1 b2 : Bool) :
    lex_flush ⟨t1 ++ t2, word, b1, b2⟩ = t1 ++ lex_flush ⟨t2, word, b1, b2⟩ := by
  unfold lex_flush
  by_cases hw : word = [] <;> simp [hw]

/-- Outside a string a character other than the double quote leaves both flags false and
brings no comma into the word. -/
theorem lex_char_outside (tokens : List data.token) (word : List Char) (c : Char)
    (hq : c ≠ '"') (hw : ',' ∉ word) :
    ∃ tokens1 word1, lex_char ⟨tokens, word, false, false⟩ c = ⟨tokens1, word1, false, false⟩ ∧
      ',' ∉ word1 := by
  by_cases hc : c = ','
  · subst hc
    by_cases hne : word = []
    · exact ⟨tokens ++ [⟨TT_COMA, ","⟩], [], by simp [lex_char, push_word, hne], by simp⟩
    · exact ⟨tokens ++ [word_token word, ⟨TT_COMA, ","⟩], [],
        by simp [lex_char, push_word, hne], by simp⟩
  · by_cases hsp : isspace c = true
    · by_cases hne : word = []
      · exact ⟨tokens, word, by simp [lex_char, push_word, hc, hq, hsp, hne], hw⟩
      · exact ⟨tokens ++ [word_token word], [], by simp [lex_char, push_word, hc, hq, hsp, hne],
          by simp⟩
    · refine ⟨tokens, word ++ [c], by simp [lex_char, hc, hq, hsp], ?_⟩
      simp only [List.mem_append, List.mem_singleton, not_or]
      exact ⟨hw, fun h => hc h.symm⟩

theorem foldl_outside (cs : List Char) (tokens : List data.token) (word : List Char)
    (hq : ∀ c ∈ cs, c ≠ '"') (hw : ',' ∉ word) :
    ∃ tokens1 word1, cs.foldl lex_char ⟨tokens, word, false, false⟩ =
        ⟨tokens1, word1, false, false⟩ ∧ ',' ∉ word1 := by
  induction cs generalizing tokens word with
  | nil => exact ⟨tokens, word, rfl, hw⟩
  | cons c rest ih =>
    obtain ⟨t1, w1, h1, hw1⟩ := lex_char_outside tokens word c (hq c (List.mem_cons_self _ _)) hw
    rw [List.foldl_cons, h1]
    exact ih t1 w1 (fun d hd => hq d (List.mem_cons_of_mem _ hd)) hw1

/-- A comma outside a string cuts the line in two: the tokens are the tokens of what
precedes the comma, its pending word included, then the Comma token, then the tokens of
what follows. -/
theorem scan_comma (l1 l2 : List Char) (h1 : ∀ c ∈ l1, c ≠ '"') :
    scan (l1 ++ ',' :: l2) = scan l1 ++ ⟨TT_COMA, ","⟩ :: scan l2 := by
  obtain ⟨t1, w1, hf, hw1⟩ := foldl_outside l1 [] [] h1 (by simp)
  have hne : w1 ≠ [','] := by
    intro h
    rw [h] at hw1
    exact hw1 (List.mem_singleton_self _)
  have hstep : lex_char ⟨t1, w1, false, false⟩ ',' =
      ⟨lex_flush ⟨t1, w1, false, false⟩ ++ [⟨TT_COMA, ","⟩], [], false, false⟩ := by
    by_cases hw : w1 = [] <;> simp [lex_char, push_word, lex_flush, hw, hne, word_token]
  simp only [scan, List.foldl_append, List.foldl_cons, hf, hstep]
  rw [foldl_tokens_prepend, lex_flush_prepend]
  simp

theorem word_token_kind (w : List Char) :
    (word_token w).type = TT_NUMERIC ∨ (word_token w).type = TT_IDENTIFIER := by
  unfold word_token
  by_cases h : is_number (String.mk w) = true <;> simp [h]

theorem word_token_ne_comma (w : List Char) : word_token w ≠ ⟨TT_COMA, ","⟩ := by
  intro h
  have := word_token_kind w
  rw [h] at this
  simp at this

/-- What one character outside a string adds to the tokens: one Comma token for a comma,
preceded by the token of the pending word if there is one, and no Comma token for any
other character. -/
theorem lex_char_outside_tokens (tokens : List data.token) (word : List Char) (c : Char)
    (hq : c ≠ '"') (hw : ',' ∉ word) :
    ∃ added word1, lex_char ⟨tokens, word, false, false⟩ c =
        ⟨tokens ++ added, word1, false, false⟩ ∧ ',' ∉ word1 ∧
      added.count ⟨TT_COMA, ","⟩ = [c].count ',' ∧
      ∀ t ∈ added, t = ⟨TT_COMA, ","⟩ ∨ t.type = TT_NUMERIC ∨ t.type = TT_IDENTIFIER := by
  by_cases hc : c = ','
  · subst hc
    by_cases hne : word = []
    · exact ⟨[⟨TT_COMA, ","⟩], [], by simp [lex_char, push_word, hne], by simp, by simp,
        by simp⟩
    · refine ⟨[word_token word, ⟨TT_COMA, ","⟩], [], by simp [lex_char, push_word, hne],
        by simp, ?_, ?_⟩
      · simp [List.count_cons, word_token_ne_comma]
      · intro t ht
        simp only [List.mem_cons, List.mem_singleton, List.not_mem_nil, or_false] at ht
        rcases ht with ht | ht
        · subst ht
          exact Or.inr (word_token_kind word)
        · exact Or.inl ht
  · have hcount : [c].count ',' = 0 := by
      simp [List.count_cons, hc]
    by_cases hsp : isspace c = true
    · by_cases hne : word = []
      · exact ⟨[], word, by simp [lex_char, push_word, hc, hq, hsp, hne], hw, by simp [hcount],
          by simp⟩
      · refine ⟨[word_token word], [], by simp [lex_char, push_word, hc, hq, hsp, hne],
          by simp, ?_, ?_⟩
        · rw [hcount]
          simp [List.count_cons, word_token_ne_comma]
        · intro t ht
          simp only [List.mem_singleton] at ht
          subst ht
          exact Or.inr (word_token_kind word)
    · refine ⟨[], word ++ [c], by simp [lex_char, hc, hq, hsp], ?_, by simp [hcount], by simp⟩
      simp only [List.mem_append, List.mem_singleton, not_or]
      exact ⟨hw, fun h => hc h.symm⟩

theorem foldl_outside_tokens (cs : List Char) (tokens : List data.token) (word : List Char)
    (hq : ∀ c ∈ cs, c ≠ '"') (hw : ',' ∉ word) :
    ∃ added word1, cs.foldl lex_char ⟨tokens, word, false, false⟩ =
        ⟨tokens ++ added, word1, false, false⟩ ∧ ',' ∉ word1 ∧
      added.count ⟨TT_COMA, ","⟩ = cs.count ',' ∧
      ∀ t ∈ added, t = ⟨TT_COMA, ","⟩ ∨ t.type = TT_NUMERIC ∨ t.type = TT_IDENTIFIER := by
  induction cs generalizing tokens word with
  | nil => exact ⟨[], word, by simp, hw, by simp, by simp⟩
  | cons c rest ih =>
    obtain ⟨a1, w1, h1, hw1, hc1, hk1⟩ :=
      lex_char_outside_tokens tokens word c (hq c (List.mem_cons_self _ _)) hw
    obtain ⟨a2, w2, h2, hw2, hc2, hk2⟩ :=
      ih (tokens ++ a1) w1 (fun d hd => hq d (List.mem_cons_of_mem _ hd)) hw1
    refine ⟨a1 ++ a2, w2, ?_, hw2, ?_, ?_⟩
    · rw [List.foldl_cons, h1, h2]
      simp
    · have : (c :: rest).count ',' = [c].count ',' + rest.count ',' := by
        rw [← List.count_append]
        rfl
      rw [List.count_append, hc1, hc2, this]
    · intro t ht
      rcases List.mem_append.1 ht with ht | ht
      · exact hk1 t ht
      · exact hk2 t ht

/-- The tokens of a line without double quote: as many Comma tokens as the line has
commas, every other token being a Numeric or an Identifier. -/
theorem scan_outside (l : List Char) (hq : ∀ c ∈ l, c ≠ '"') :
    (scan l).count ⟨TT_COMA, ","⟩ = l.count ',' ∧
      ∀ t ∈ scan l, t = ⟨TT_COMA, ","⟩ ∨ t.type = TT_NUMERIC ∨ t.type = TT_IDENTIFIER := by
  obtain ⟨added, w1, hf, hw1, hc, hk⟩ := foldl_outside_tokens l [] [] hq (by simp)
  have hne : w1 ≠ [','] := by
    intro h
    rw [h] at hw1
    exact hw1 (List.mem_singleton_self _)
  simp only [List.nil_append] at hf
  by_cases hw : w1 = []
  · have hs : scan l = added := by
      simp [scan, hf, lex_flush, hw]
    rw [hs]
    exact ⟨hc, hk⟩
  · have hs : scan l = added ++ [word_token w1] := by
      simp [scan, hf, lex_flush, hw, hne, word_token]
    rw [hs]
    refine ⟨?_, ?_⟩
    · rw [List.count_append, hc]
      simp [List.count_cons, word_token_ne_comma]
    · intro t ht
      rcases List.mem_append.1 ht with ht | ht
      · exact hk t ht
      · simp only [List.mem_singleton] at ht
        subst ht
        exact Or.inr (word_token_kind w1)

theorem count_comma_dropWhile (l : List Char) :
    (l.dropWhile isspace).count ',' = l.count ',' := by
  induction l with
  | nil => rfl
  | cons c rest ih =>
    by_cases hsp : isspace c = true
    · have hc : c ≠ ',' := by
        intro h
        subst h
        exact absurd hsp (by decide)
      simp [List.dropWhile, hsp, ih, List.count_cons, hc]
    · simp [List.dropWhile, hsp]

theorem count_comma_trim (l : List Char) : (trim l).count ',' = l.count ',' := by
  unfold trim
  rw [List.count_reverse, count_comma_dropWhile, List.count_reverse, count_comma_dropWhile]

theorem mem_of_mem_trim (l : List Char) (c : Char) (h : c ∈ trim l) : c ∈ l := by
  unfold trim at h
  rw [List.mem_reverse] at h
  have h1 := (List.dropWhile_sublist isspace).subset h
  rw [List.mem_reverse] at h1
  exact (List.dropWhile_sublist isspace).subset h1

theorem scan_replicate_comma (n : Nat) :
    scan (List.replicate n ',') = List.replicate n ⟨TT_COMA, ","⟩ := by
  induction n with
  | zero => rfl
  | succ k ih =>
    have h := scan_comma [] (List.replicate k ',') (by simp)
    have h0 : scan [] = [] := rfl
    rw [List.nil_append, h0, List.nil_append, ih] at h
    rw [List.replicate_succ, h, List.replicate_succ]

/-- C19: on a line without double quote, (1) a comma cuts the line in two, the tokens
being those of what precedes it, then the Comma token, then those of what follows; (2)
the Comma tokens are as many as the commas of the line and every other token is a
Numeric or an Identifier; (3) a word pending when the comma is read is emitted, classified
by `is_number`, immediately before the Comma token; (4) for a text that is one such line
and no comment, `lex` gives these tokens.  A text of `n` commas gives `n` Comma tokens and
`a,b` gives the Identifier `a`, a Comma and the Identifier `b`. -/
theorem lex_commas :
    (∀ l1 l2 : List Char, (∀ c ∈ l1, c ≠ '"') →
      scan (l1 ++ ',' :: l2) = scan l1 ++ ⟨TT_COMA, ","⟩ :: scan l2) ∧
    (∀ l : List Char, (∀ c ∈ l, c ≠ '"') →
      (scan l).count ⟨TT_COMA, ","⟩ = l.count ',' ∧
      ∀ t ∈ scan l, t = ⟨TT_COMA, ","⟩ ∨ t.type = TT_NUMERIC ∨ t.type = TT_IDENTIFIER) ∧
    (∀ w l2 : List Char, unquoted_word w →
      scan (w ++ ',' :: l2) =
        ⟨if is_number (String.mk w) then TT_NUMERIC else TT_IDENTIFIER, String.mk w⟩ ::
          ⟨TT_COMA, ","⟩ :: scan l2) ∧
    (∀ line : List Char, (∀ c ∈ line, c ≠ '"' ∧ c ≠ '\n') → trim line ≠ [] →
      (trim line).head? ≠ some ';' →
      lex (String.mk line) = scan (trim line) ∧
      (lex (String.mk line)).count ⟨TT_COMA, ","⟩ = line.count ',') ∧
    (∀ n : Nat, lex (String.mk (List.replicate n ',')) = List.replicate n ⟨TT_COMA, ","⟩) ∧
    lex "a,b" = [⟨TT_IDENTIFIER, "a"⟩, ⟨TT_COMA, ","⟩, ⟨TT_IDENTIFIER, "b"⟩] := by
  refine ⟨scan_comma, scan_outside, ?_, ?_, ?_, by decide⟩
  · intro w l2 hw
    rw [scan_comma w l2 (fun c hc => (hw.2 c hc).2.1), (scan_word w hw).1]
    rfl
  · intro line hline htrim hsemi
    have hne : line ≠ [] := by
      intro h
      rw [h] at htrim
      exact htrim rfl
    have hlen : ¬ (trim line).length < 1 := by
      cases ht : trim line with
      | nil => exact absurd ht htrim
      | cons c rest => simp
    have hlex : lex (String.mk line) = scan (trim line) := by
      rw [lex_one_line line hne (fun c hc => (hline c hc).2)]
      simp only [lex_line, hlen, hsemi, or_self, if_false, scan]
    refine ⟨hlex, ?_⟩
    rw [hlex, (scan_outside (trim line)
      (fun c hc => (hline c (mem_of_mem_trim line c hc)).1)).1, count_comma_trim]
  · intro n
    cases n with
    | zero => rfl
    | succ k =>
      have hlast : (List.replicate (k + 1) ',').getLast? = some ',' := by
        rw [List.replicate_succ']
        exact getLast?_append_singleton _ _
      rw [lex_one_line _ (by simp) (fun c hc => by
          rw [List.eq_of_mem_replicate hc]
          decide),
        lex_line_scan (List.replicate (k + 1) ',') ',' ',' rfl hlast (by decide) (by decide)
          (by decide)]
      exact scan_replicate_comma (k + 1)

/-- The line `mov a,-5`: the word `a` is pending at the comma. -/
theorem lex_commas_witness :
    lex (String.mk "mov a,-5".data) = scan (trim "mov a,-5".data) ∧
      (lex (String.mk "mov a,-5".data)).count ⟨TT_COMA, ","⟩ = "mov a,-5".data.count ',' :=
  lex_commas.2.2.2.1 "mov a,-5".data (by decide) (by decide) (by decide)

/-! ## `mul` with a literal source -/

/-- C22: the memory prepared by `run` holds exactly the four reserved entries, in which
`cmp_register` is `(Numeric, 0)`, `random_max` is `(Numeric, 10000)` and `random_int` and
`random_num` are Numeric; in every state reached by `run` the four names are in memory;
and an instruction that continues keeps every name that memory holds. -/
theorem reserved_variables (env : Stdlib) (instructions : List instruction)
    (rand : List Nat) (cin : List Char) :
    (∀ labels, (initial_state env labels rand cin).memory =
      [("cmp_register", ⟨DVT_NUMERIC, "0"⟩), ("random_max", ⟨DVT_NUMERIC, "10000"⟩),
       ("random_int", ⟨DVT_NUMERIC, from_int (((draw rand).1 : Int) % 1000)⟩),
       ("random_num", ⟨DVT_NUMERIC,
          env.from_double (env.of_int (((draw (draw rand).2).1 : Int) % 10000))⟩)]) ∧
    (∀ s, Reachable env instructions rand cin s →
      ∀ key ∈ ["cmp_register", "random_max", "random_int", "random_num"],
        (map_at s.memory key).isSome = true) ∧
    (∀ i s s1, exec env i s = .next s1 →
      ∀ key, (map_at s.memory key).isSome = true → (map_at s1.memory key).isSome = true) := by
  have h10000 : from_int 10000 = "10000" := by decide
  refine ⟨fun labels => by simp [initial_state, initial_memory, h10000], ?_,
    fun i s s1 h => (exec_next_keeps env i s s1 h).1⟩
  intro s hs
  induction hs with
  | start labels hl =>
    intro key hkey
    simp only [List.mem_cons, List.mem_singleton, List.not_mem_nil, or_false] at hkey
    rcases hkey with h | h | h | h <;> subst h <;> rfl
  | step s s1 _ hstep ih =>
    obtain ⟨i, s2, _, he, h1⟩ := step_next_cases env instructions s s1 hstep
    subst h1
    intro key hkey
    exact (exec_next_keeps env i s s2 he).1 key (ih key hkey)

/-- The state reached by `mov random_max, 5` from the state prepared by `run`. -/
theorem reserved_variables_witness :
    ∃ s1, step integer_stdlib [⟨MOV, some (identifier "random_max"), some (numeric "5")⟩]
        (initial_state integer_stdlib [] [] []) = some (.next s1) ∧
      (map_at s1.memory "random_int").isSome = true :=
  ⟨_, rfl, (reserved_variables integer_stdlib
    [⟨MOV, some (identifier "random_max"), some (numeric "5")⟩] [] []).2.1 _
    (Reachable.step _ _ (Reachable.start [] rfl) rfl) "random_int" (by decide)⟩

/-! ## The internal parser error -/

theorem parser_invariant_element (st : parser_state) (hinv : parser_invariant st) :
    st.instruction_element < 4 := by
  rcases hinv.2 with h | h | h | h <;> rw [h.1] <;> decide

theorem parse_token_known (st : parser_state) (i : Nat) (g_token : data.token)
    (h : st.instruction_element < 4) : parse_token st i g_token ≠ .unknown_parser_error := by
  unfold parse_token
  split
  · simp
  · have hc : st.instruction_element = 0 ∨ st.instruction_element = 1 ∨
        st.instruction_element = 2 ∨ st.instruction_element = 3 := by omega
    rcases hc with hc | hc | hc | hc <;> rw [hc] <;> simp only [] <;> (try split) <;> simp

theorem parse_loop_known (tokens : List data.token) (i : Nat) (st : parser_state)
    (hinv : parser_invariant st) : parse_loop tokens i st ≠ .unknown_parser_error := by
  induction tokens generalizing i st with
  | nil => simp [parse_loop]
  | cons g_token rest ih =>
    rw [parse_loop]
    cases ht : parse_token st i g_token with
    | ok st1 => exact ih (i + 1) st1 (parse_token_invariant st st1 i g_token hinv ht)
    | unexpected_token j t e => simp
    | unknown_parser_error =>
      exact absurd ht (parse_token_known st i g_token (parser_invariant_element st hinv))

/-- C28: for every token sequence `parse` either returns its instructions or ends with the
`exit(1)` of an unexpected token, never with the `exit(2)` of the `default` branch: in
every state the loop of `parse` reaches, `instruction_element` is one of the four
enumerators, so a turn of the loop from that state does not take the `default` branch. -/
theorem parse_never_internal_error (tokens : List data.token) :
    parse tokens ≠ .unknown_parser_error ∧
    ((∃ instructions, parse tokens = .ok instructions) ∨
      (parse tokens).exit_status = some 1) ∧
    (parse tokens).exit_status ≠ some 2 ∧
    (∀ k st, parse_loop (tokens.take k) 0 parser_start = .ok st →
      st.instruction_element ∈ [IE_OPCODE, IE_FARG, IE_COMA, IE_SARG] ∧
      ∀ i g_token, parse_token st i g_token ≠ .unknown_parser_error) := by
  have hk := parse_loop_known tokens 0 parser_start parser_start_invariant
  refine ⟨?_, ?_, ?_, ?_⟩
  · unfold parse
    cases hl : parse_loop tokens 0 parser_start with
    | ok st => simp
    | unexpected_token j t e => simp
    | unknown_parser_error => exact absurd hl hk
  · unfold parse
    cases hl : parse_loop tokens 0 parser_start with
    | ok st => exact Or.inl ⟨_, rfl⟩
    | unexpected_token j t e => exact Or.inr rfl
    | unknown_parser_error => exact absurd hl hk
  · unfold parse
    cases hl : parse_loop tokens 0 parser_start with
    | ok st => simp [parse_result.exit_status]
    | unexpected_token j t e => simp [parse_result.exit_status]
    | unknown_parser_error => exact absurd hl hk
  · intro k st h
    have hinv := parse_loop_invariant (tokens.take k) 0 parser_start st parser_start_invariant h
    have hlt := parser_invariant_element st hinv
    refine ⟨?_, fun i g_token => parse_token_known st i g_token hlt⟩
    simp only [IE_OPCODE, IE_FARG, IE_COMA, IE_SARG, List.mem_cons, List.mem_singleton,
      List.not_mem_nil, or_false]
    omega

/-- The state the loop of `parse` reaches after the token `mov`: a turn from it does not
take the `default` branch. -/
theorem parse_never_internal_error_witness :
    parse_token
      { instructions := [], current_instruction := ⟨MOV, none, none⟩,
        expected_token_type := ET_IDENTIFIER, instruction_element := IE_FARG }
      1 ⟨TT_IDENTIFIER, "a"⟩ ≠ .unknown_parser_error :=
  ((parse_never_internal_error [⟨TT_IDENTIFIER, "mov"⟩, ⟨TT_IDENTIFIER, "a"⟩]).2.2.2 1
    { instructions := [], current_instruction := ⟨MOV, none, none⟩,
      expected_token_type := ET_IDENTIFIER, instruction_element := IE_FARG }
    (by decide)).2 1 ⟨TT_IDENTIFIER, "a"⟩

/-! ## Comment lines -/

theorem dropWhile_append_singleton (p : Char → Bool) (l : List Char) (a : Char)
    (ha : p a = false) : (l ++ [a]).dropWhile p = l.dropWhile p ++ [a] := by
  induction l with
  | nil => simp [List.dropWhile, ha]
  | cons c rest ih =>
    by_cases hc : p c = true
    · simp [List.dropWhile, hc, ih]
    · simp [List.dropWhile, hc]

theorem dropWhile_head_false (p : Char → Bool) (l : List Char) (c : Char)
    (h : (l.dropWhile p).head? = some c) : p c = false := by
  induction l with
  | nil => simp at h
  | cons a rest ih =>
    by_cases ha : p a = true
    · simp only [List.dropWhile, ha] at h
      exact ih h
    · simp only [List.dropWhile, ha] at h
      simp only [List.head?_cons, Option.some.injEq] at h
      rw [← h]
      simpa using ha

/-- The first character of the trimmed line is the first character of the line that is no
whitespace. -/
theorem trim_head (line : List Char) :
    (trim line).head? = (line.dropWhile isspace).head? := by
  unfold trim
  cases hl : line.dropWhile isspace with
  | nil => simp
  | cons c rest =>
    have hc : isspace c = false := dropWhile_head_false isspace line c (by rw [hl]; rfl)
    rw [List.reverse_cons, dropWhile_append_singleton isspace _ c hc]
    simp

theorem lex_line_comment (tokens : List data.token) (line : List Char)
    (h : trim line = [] ∨ (trim line).head? = some ';') : lex_line tokens line = tokens := by
  unfold lex_line
  rcases h with h | h
  · simp [h]
  · simp [h]

theorem lex_line_append_scan (tokens : List data.token) (line : List Char)
    (h1 : trim line ≠ []) (h2 : (trim line).head? ≠ some ';') :
    lex_line tokens line = tokens ++ scan (trim line) := by
  unfold lex_line scan
  have hlen : ¬ (trim line).length < 1 := by
    cases ht : trim line with
    | nil => exact absurd ht h1
    | cons c rest => simp
  simp only [hlen, h2, or_self, if_false]
  rw [foldl_tokens_prepend]
  exact lex_flush_prepend tokens _ _ _ _

/-- C21: a line whose trimmed form is empty or starts with `;` leaves the vector of tokens
as it was, whatever the rest of the line is; the first character of the trimmed form is the
first character of the line that is no whitespace, so this holds for any whitespace, then
`;`, then any characters; a text all of whose lines are such lines has no tokens.  A line
whose trimmed form starts with another character is scanned whole, and in the scan a `;`
takes the branch of the ordinary characters: it is appended to the current word. -/
theorem lex_comment (tokens : List data.token) (line : List Char) :
    (trim line = [] ∨ (trim line).head? = some ';' → lex_line tokens line = tokens) ∧
    (trim line).head? = (line.dropWhile isspace).head? ∧
    (∀ ws rest, (∀ c ∈ ws, isspace c = true) → lex_line tokens (ws ++ ';' :: rest) = tokens) ∧
    (∀ text : String,
      (∀ l ∈ getlines [] text.data, trim l = [] ∨ (trim l).head? = some ';') →
      lex text = []) ∧
    (trim line ≠ [] → (trim line).head? ≠ some ';' →
      lex_line tokens line = tokens ++ scan (trim line)) ∧
    (∀ st, lex_char st ';' = { st with word := st.word ++ [';'], is_escaped := false }) := by
  refine ⟨lex_line_comment tokens line, trim_head line, ?_, ?_,
    lex_line_append_scan tokens line, ?_⟩
  · intro ws rest hws
    apply lex_line_comment
    right
    rw [trim_head]
    have : (ws ++ ';' :: rest).dropWhile isspace = ';' :: rest := by
      induction ws with
      | nil => simp [List.dropWhile, isspace]
      | cons c r ih =>
        simp only [List.cons_append, List.dropWhile, hws c (List.mem_cons_self _ _)]
        exact ih (fun d hd => hws d (List.mem_cons_of_mem _ hd))
    rw [this]
    rfl
  · intro text h
    unfold lex
    generalize getlines [] text.data = lines at h
    induction lines with
    | nil => rfl
    | cons l rest ih =>
      rw [List.foldl_cons, lex_line_comment [] l (h l (List.mem_cons_self _ _))]
      exact ih (fun d hd => h d (List.mem_cons_of_mem _ hd))
  · intro st
    unfold lex_char
    simp [isspace]

/-- The line `  ; "a, b`, after the token `x`; and the line `out ;x`, in which the `;` is
part of the second word. -/
theorem lex_comment_witness :
    lex_line [⟨TT_IDENTIFIER, "x"⟩] "  ; \"a, b".data = [⟨TT_IDENTIFIER, "x"⟩] ∧
    lex_line [⟨TT_IDENTIFIER, "x"⟩] "out ;x".data =
      [⟨TT_IDENTIFIER, "x"⟩, ⟨TT_IDENTIFIER, "out"⟩, ⟨TT_IDENTIFIER, ";x"⟩] :=
  ⟨(lex_comment [⟨TT_IDENTIFIER, "x"⟩] "  ; \"a, b".data).1 (by decide),
   ((lex_comment [⟨TT_IDENTIFIER, "x"⟩] "out ;x".data).2.2.2.2.1 (by decide) (by decide)).trans
     (by decide)⟩

/-! ## The backslash inside a string -/

theorem lex_char_backslash (tokens : List data.token) (word : List Char) :
    lex_char ⟨tokens, word, true, false⟩ '\\' = ⟨tokens, word, true, true⟩ := by
  simp [lex_char]

theorem lex_char_escaped (tokens : List data.token) (word : List Char) (c : Char) :
    lex_char ⟨tokens, word, true, true⟩ c = ⟨tokens, word ++ [c], true, false⟩ := by
  simp [lex_char]

theorem scan_escaped (s t : List Char) (c : Char) (hs : ∀ d ∈ s, d ≠ '"' ∧ d ≠ '\\')
    (ht : ∀ d ∈ t, d ≠ '"' ∧ d ≠ '\\') :
    scan ('"' :: s ++ '\\' :: c :: t ++ ['"']) = [⟨TT_STRING, String.mk (s ++ c :: t)⟩] := by
  have h0 : lex_char ⟨[], [], false, false⟩ '"' = ⟨[], [], true, false⟩ := by
    simp [lex_char]
  have h3 : lex_char ⟨[], s ++ [c] ++ t, true, false⟩ '"' =
      ⟨[⟨TT_STRING, String.mk (s ++ [c] ++ t)⟩], [], false, false⟩ := by
    simp [lex_char]
  simp only [scan, List.foldl_cons, List.foldl_append, List.foldl_nil, h0,
    foldl_lex_char_in_string s [] [] hs, List.nil_append, lex_char_backslash, lex_char_escaped,
    foldl_lex_char_in_string t [] (s ++ [c]) ht, h3]
  simp [lex_flush]

/-- C27, as the claim states it, fails: the text made of a double quote, `a`, a backslash,
`n`, `b` and a double quote is lexed as one String whose text is the three characters
`anb`, not the four characters `a`, backslash, `n`, `b`. -/
theorem lex_backslash_dropped :
    lex "\"a\\nb\"" = [⟨TT_STRING, "anb"⟩] ∧ lex "\"a\\nb\"" ≠ [⟨TT_STRING, "a\\nb"⟩] := by
  decide

/-- C27, amended: inside a string a backslash that is not itself escaped is not appended to
the word; it sets `is_escaped`, and the character that follows, whatever it is, is appended
to the word and clears `is_escaped`.  So for all `s` and `t` without double quote and
backslash and every character `c`, the line made of a double quote, `s`, a backslash, `c`,
`t` and a double quote is lexed as exactly one token, a String whose text is `s`, `c`, then
`t`; the same holds of `lex` on the text that consists of this line, when `s`, `c` and `t`
hold no newline. -/
theorem lex_backslash (s t : List Char) (c : Char) (hs : ∀ d ∈ s, d ≠ '"' ∧ d ≠ '\\')
    (ht : ∀ d ∈ t, d ≠ '"' ∧ d ≠ '\\') :
    (∀ tokens word, lex_char ⟨tokens, word, true, false⟩ '\\' = ⟨tokens, word, true, true⟩) ∧
    (∀ tokens word, lex_char ⟨tokens, word, true, true⟩ c = ⟨tokens, word ++ [c], true, false⟩) ∧
    lex_line [] ('"' :: s ++ '\\' :: c :: t ++ ['"']) =
      [⟨TT_STRING, String.mk (s ++ c :: t)⟩] ∧
    ((∀ d ∈ s ++ c :: t, d ≠ '\n') →
      lex (String.mk ('"' :: s ++ '\\' :: c :: t ++ ['"'])) =
        [⟨TT_STRING, String.mk (s ++ c :: t)⟩]) := by
  have hline : lex_line [] ('"' :: s ++ '\\' :: c :: t ++ ['"']) =
      [⟨TT_STRING, String.mk (s ++ c :: t)⟩] := by
    rw [lex_line_scan ('"' :: s ++ '\\' :: c :: t ++ ['"']) '"' '"' rfl
      (getLast?_append_singleton _ _) (by decide) (by decide) (by decide)]
    exact scan_escaped s t c hs ht
  refine ⟨lex_char_backslash, fun tokens word => lex_char_escaped tokens word c, hline,
    fun hnl => ?_⟩
  rw [lex_one_line _ (by simp), hline]
  intro d hd hdn
  subst hdn
  simp at hd
  rcases hd with hd | hd | hd
  · exact hnl _ (List.mem_append_left _ hd) rfl
  · exact hnl '\n' (List.mem_append_right _ (by rw [← hd]; exact List.mem_cons_self _ _)) rfl
  · exact hnl _ (List.mem_append_right _ (List.mem_cons_of_mem _ hd)) rfl

/-- The line `"a\nb"`, quotes and backslash included. -/
theorem lex_backslash_witness :
    lex_line [] ('"' :: "a".data ++ '\\' :: 'n' :: "b".data ++ ['"']) =
      [⟨TT_STRING, String.mk ("a".data ++ 'n' :: "b".data)⟩] :=
  (lex_backslash "a".data "b".data 'n' (by decide) (by decide)).2.2.1

/-! ## The instruction fetched after a jump -/

theorem exec_label (env : Stdlib) (s : State) (i : instruction) (L : String)
    (h : is_label L i = true) : exec env i s = .next s := by
  obtain ⟨op, f_arg, s_arg⟩ := i
  simp only [is_label, Bool.and_eq_true, decide_eq_true_eq] at h
  obtain ⟨hop, _⟩ := h
  have hop1 : op = LABEL := hop
  subst hop1
  rfl

/-- C26, as the claim states it, fails: in the program `jmp skip` / `out "no"` /
`label skip` / `stop`, from the state prepared by `run`, the turn of the loop that executes
`jmp skip` ends with `cip` at 3, so the instruction fetched next is the `stop` at index 3,
not the `label skip` at index 2. -/
theorem jump_fetches_index_after_label :
    ∃ s1, step integer_stdlib
        [⟨JMP, some (identifier "skip"), none⟩, ⟨OUT, some (string_literal "no"), none⟩,
          ⟨LABEL, some (identifier "skip"), none⟩, ⟨STOP, none, none⟩]
        (initial_state integer_stdlib [("skip", 2)] [] []) = some (.next s1) ∧
      s1.cip = 3 ∧ s1.cip ≠ 2 ∧
      [(⟨JMP, some (identifier "skip"), none⟩ : instruction),
        ⟨OUT, some (string_literal "no"), none⟩,
        ⟨LABEL, some (identifier "skip"), none⟩, ⟨STOP, none, none⟩][s1.cip]? =
        some ⟨STOP, none, none⟩ :=
  ⟨_, rfl, rfl, by decide, rfl⟩

/-- C26, amended: let `k` be the index of the last `label L` instruction.  In every state
reached by `run` in which the instruction fetched is a `jmp L`, a `jnz L` with
`cmp_register` not 0 or a `jz L` with `cmp_register` 0, the body of the loop sets `cip` to
`k` itself and changes nothing else, and the `++cip` of the loop then applies: the next
instruction fetched is the one at index `k + 1`.  The instruction at index `k` is the
`label L` instruction, whose body does nothing: a turn of the loop at index `k` would end
in the same state. -/
theorem jump_target (env : Stdlib) (instructions : List instruction)
    (rand : List Nat) (cin : List Char) (s : State) (L : String) (k : Nat) (i : instruction)
    (hr : Reachable env instructions rand cin s)
    (hk : last_label L instructions = some k)
    (hi : instructions[s.cip]? = some i)
    (hj : (∃ t sa, i = ⟨JMP, some ⟨t, L⟩, sa⟩) ∨
      (∃ t sa r, i = ⟨JNZ, some ⟨t, L⟩, sa⟩ ∧ map_at s.memory "cmp_register" = some r ∧
        to_int r.value ≠ 0) ∨
      (∃ t sa r, i = ⟨JZ, some ⟨t, L⟩, sa⟩ ∧ map_at s.memory "cmp_register" = some r ∧
        to_int r.value = 0)) :
    exec env i s = .next { s with cip := k } ∧
    step env instructions s = some (.next { s with cip := k + 1 }) ∧
    (∃ il, instructions[k]? = some il ∧ is_label L il = true) ∧
    step env instructions { s with cip := k } = some (.next { s with cip := k + 1 }) := by
  obtain ⟨_, hl⟩ := reachable_invariant env instructions rand cin s hr
  have hlk := hl L k hk
  obtain ⟨il, hil, hlab⟩ := last_label_is_label L instructions k hk
  have he : exec env i s = .next { s with cip := k } := by
    rcases hj with ⟨t, sa, h⟩ | ⟨t, sa, r, h, hreg, hc⟩ | ⟨t, sa, r, h, hreg, hc⟩
    · rw [h]
      exact exec_jmp env s t L sa k hlk
    · rw [h, exec_jnz env s t L sa k r hreg hlk]
      simp [hc]
    · rw [h, exec_jz env s t L sa k r hreg hlk]
      simp [hc]
  refine ⟨he, step_of_exec_next env instructions s _ i hi he, ⟨il, hil, hlab⟩, ?_⟩
  exact step_of_exec_next env instructions { s with cip := k } _ il hil
    (exec_label env _ il L hlab)

/-- The program `jmp skip` / `out "no"` / `label skip` / `stop` in the state prepared by
`run`. -/
theorem jump_target_witness :
    step integer_stdlib
      [⟨JMP, some (identifier "skip"), none⟩, ⟨OUT, some (string_literal "no"), none⟩,
        ⟨LABEL, some (identifier "skip"), none⟩, ⟨STOP, none, none⟩]
      (initial_state integer_stdlib [("skip", 2)] [] []) =
      some (.next { initial_state integer_stdlib [("skip", 2)] [] [] with cip := 2 + 1 }) :=
  (jump_target integer_stdlib
    [⟨JMP, some (identifier "skip"), none⟩, ⟨OUT, some (string_literal "no"), none⟩,
      ⟨LABEL, some (identifier "skip"), none⟩, ⟨STOP, none, none⟩] [] []
    (initial_state integer_stdlib [("skip", 2)] [] []) "skip" 2
    ⟨JMP, some (identifier "skip"), none⟩ (Reachable.start _ rfl) rfl rfl
    (Or.inl ⟨TT_IDENTIFIER, none, rfl⟩)).2.1

/-! ## The diagnostics of a missing source and of `get` -/

/-- C25 (failing input): in the program `mov a, 1` / `add a, missing` the destination `a`
is in memory and the source `missing` is not; `run` returns 3 and the text on `std::cerr`
is the `[ADD-VAR-VAR]` diagnostic with the name `a`, the destination, and not `missing`.
So it is with `mul`, `cmp_eq`, `cmp_gt` and `cmp_lt`, while `mov a, missing` names
`missing`.  The one-instruction program `get x` returns 3 with a diagnostic tagged
`[IN-VAR]`, the tag of `in`. -/
theorem run_missing_source_diagnostic (env : Stdlib) (rand : List Nat) (cin : List Char)
    (fuel : Nat) :
    (∀ op tag, (op, tag) ∈ [(ADD, "ADD"), (MUL, "MUL"), (CMP_EQ, "CMP_EQ"),
        (CMP_GT, "CMP_GT"), (CMP_LT, "CMP_LT")] →
      ∃ sf, run env [⟨MOV, some (identifier "a"), some (numeric "1")⟩,
          ⟨op, some (identifier "a"), some (identifier "missing")⟩] rand cin (fuel + 2) =
            some (.returned 3 sf) ∧
        sf.cerr = "\n[" ++ tag ++ "-VAR-VAR][ERROR] Unknown variable : a\n" ∧
        map_at sf.memory "a" = some ⟨DVT_NUMERIC, "1"⟩ ∧ map_at sf.memory "missing" = none) ∧
    (∃ sf, run env [⟨MOV, some (identifier "a"), some (identifier "missing")⟩] rand cin
        (fuel + 1) = some (.returned 3 sf) ∧
      sf.cerr = "\n[MOV-VAR-VAR][ERROR] Unknown variable : missing\n") ∧
    (∃ sf, run env [⟨GET, some (identifier "x"), none⟩] rand cin (fuel + 1) =
        some (.returned 3 sf) ∧
      sf.cerr = "\n[IN-VAR][ERROR] Unknown variable : x\n") := by
  refine ⟨?_, ?_, ?_⟩
  · intro op tag h
    simp only [List.mem_cons, Prod.mk.injEq, List.mem_singleton, List.not_mem_nil,
      or_false] at h
    rcases h with ⟨h1, h2⟩ | ⟨h1, h2⟩ | ⟨h1, h2⟩ | ⟨h1, h2⟩ | ⟨h1, h2⟩ <;> subst h1 <;>
      subst h2 <;>
      simp [run, build_labels, run_loop, step, exec, compare, initial_state, initial_memory,
        identifier, numeric, unknown_variable, map_at, map_put]
  · simp [run, build_labels, run_loop, step, exec, initial_state, initial_memory,
      identifier, unknown_variable, map_at]
  · simp [run, build_labels, run_loop, step, exec, initial_state, initial_memory,
      identifier, unknown_variable, map_at]

/-! ## `to_int` and `from_int` -/

theorem digitChar_isdigit : ∀ k, k < 10 →
    isdigit (Nat.digitChar k) = true ∧ (Nat.digitChar k).toNat - 48 = k := by
  decide

theorem digits_value_append (l : List Char) (c : Char) :
    digits_value (l ++ [c]) = 10 * digits_value l + (c.toNat - 48) := by
  simp [digits_value]

theorem toDigitsCore_spec (fuel n : Nat) (ds : List Char) (h : n < fuel) :
    ∃ l, Nat.toDigitsCore 10 fuel n ds = l ++ ds ∧ l ≠ [] ∧ (∀ c ∈ l, isdigit c = true) ∧
      digits_value l = n := by
  induction fuel generalizing n ds with
  | zero => omega
  | succ fuel ih =>
    obtain ⟨hd1, hd2⟩ := digitChar_isdigit (n % 10) (Nat.mod_lt _ (by decide))
    rw [Nat.toDigitsCore]
    by_cases h0 : n / 10 = 0
    · refine ⟨[Nat.digitChar (n % 10)], by simp [h0], by simp, by simpa using hd1, ?_⟩
      have : digits_value [Nat.digitChar (n % 10)] = (Nat.digitChar (n % 10)).toNat - 48 := by
        simp [digits_value]
      rw [this, hd2]
      omega
    · obtain ⟨l, hl, hne, hall, hv⟩ := ih (n / 10) (Nat.digitChar (n % 10) :: ds) (by omega)
      refine ⟨l ++ [Nat.digitChar (n % 10)], by simp [h0, hl], by simp, ?_, ?_⟩
      · intro c hc
        simp only [List.mem_append, List.mem_singleton] at hc
        rcases hc with hc | hc
        · exact hall c hc
        · rw [hc]; exact hd1
      · rw [digits_value_append, hv, hd2]
        omega

/-- The decimal text of a natural number: digits only, at least one, of that value. -/
theorem repr_spec (n : Nat) :
    ∃ l, (toString n).data = l ∧ l ≠ [] ∧ (∀ c ∈ l, isdigit c = true) ∧ digits_value l = n := by
  obtain ⟨l, hl, hne, hall, hv⟩ := toDigitsCore_spec (n + 1) n [] (by omega)
  refine ⟨l, ?_, hne, hall, hv⟩
  show (Nat.repr n).data = l
  simp [Nat.repr, Nat.toDigits, hl, List.asString]

theorem isdigit_not_isspace (c : Char) (h : isdigit c = true) : isspace c = false := by
  simp only [isdigit, Bool.and_eq_true, decide_eq_true_eq] at h
  simp only [isspace, Bool.or_eq_false_iff, decide_eq_false_iff_not, Bool.and_eq_false_iff]
  omega

theorem isdigit_not_sign (c : Char) (h : isdigit c = true) : c ≠ '-' ∧ c ≠ '+' := by
  constructor <;> (intro hc; subst hc; revert h; decide)

theorem read_sign_other (c : Char) (tl : List Char) (h1 : c ≠ '-') (h2 : c ≠ '+') :
    read_sign (c :: tl) = (false, c :: tl) := by
  unfold read_sign
  split <;> simp_all

theorem takeWhile_isdigit_append (ds rest : List Char) (hall : ∀ c ∈ ds, isdigit c = true)
    (hrest : ∀ c, rest.head? = some c → isdigit c = false) :
    (ds ++ rest).takeWhile isdigit = ds := by
  induction ds with
  | nil =>
    cases rest with
    | nil => rfl
    | cons c r => simp [List.takeWhile, hrest c rfl]
  | cons d tl ih =>
    have ih1 := ih (fun c hc => hall c (List.mem_cons_of_mem _ hc))
    simp [List.takeWhile, hall d (List.mem_cons_self _ _), ih1]

/-- What `to_int` reads: whitespace is skipped, then an optional minus and the digits `ds`
up to the first character that is no digit; the rest of the text is not looked at. -/
theorem to_int_signed (neg : Bool) (ws ds rest : List Char) (hws : ∀ c ∈ ws, isspace c = true)
    (hne : ds ≠ []) (hall : ∀ c ∈ ds, isdigit c = true)
    (hrest : ∀ c, rest.head? = some c → isdigit c = false) :
    to_int (String.mk (ws ++ (if neg then ['-'] else []) ++ ds ++ rest)) =
      saturate (if neg then -(digits_value ds : Int) else digits_value ds) := by
  obtain ⟨d, tl, hds⟩ := List.exists_cons_of_ne_nil hne
  have hd : isdigit d = true := hall d (by rw [hds]; exact List.mem_cons_self _ _)
  have hdrop : ∀ l : List Char, (∀ c, l.head? = some c → isspace c = false) →
      (ws ++ l).dropWhile isspace = l := by
    intro l hl
    induction ws with
    | nil =>
      cases l with
      | nil => rfl
      | cons c r => simp [List.dropWhile, hl c rfl]
    | cons w r ih =>
      simp only [List.cons_append, List.dropWhile, hws w (List.mem_cons_self _ _)]
      exact ih (fun c hc => hws c (List.mem_cons_of_mem _ hc))
  have htake := takeWhile_isdigit_append ds rest hall hrest
  unfold to_int saturate
  cases neg with
  | true =>
    have h1 : (ws ++ ['-'] ++ ds ++ rest).dropWhile isspace = '-' :: (ds ++ rest) := by
      have := hdrop ('-' :: (ds ++ rest)) (by intro c hc; simp at hc; rw [← hc]; decide)
      simpa using this
    have h2 : read_sign ('-' :: (ds ++ rest)) = (true, ds ++ rest) := rfl
    simp only [if_true, h1, h2, htake, hne, if_false]
  | false =>
    have h1 : (ws ++ [] ++ ds ++ rest).dropWhile isspace = ds ++ rest := by
      have := hdrop (ds ++ rest) (by
        intro c hc
        rw [hds] at hc
        simp at hc
        rw [← hc]
        exact isdigit_not_isspace d hd)
      simpa using this
    have h2 : read_sign (ds ++ rest) = (false, ds ++ rest) := by
      rw [hds]
      exact read_sign_other d _ (isdigit_not_sign d hd).1 (isdigit_not_sign d hd).2
    simp only [Bool.false_eq_true, if_false, h1, h2, htake, hne]

/-- Reading back the text written for an `int` gives the `int`. -/
theorem to_int_from_int (n : Int) (h1 : INT_MIN ≤ n) (h2 : n ≤ INT_MAX) :
    to_int (from_int n) = n := by
  unfold from_int
  cases n with
  | ofNat m =>
    obtain ⟨l, hl, hne, hall, hv⟩ := repr_spec m
    have hs : toString (Int.ofNat m) =
        String.mk ([] ++ (if false then ['-'] else []) ++ l ++ []) := by
      show toString m = _
      rw [← hl]
      simp
    rw [hs, to_int_signed false [] l [] (by simp) hne hall (by simp), hv]
    simp only [Bool.false_eq_true, if_false, saturate]
    simp only [INT_MAX, INT_MIN] at *
    have : (Int.ofNat m) = (m : Int) := rfl
    rw [this] at h1 h2 ⊢
    split
    · omega
    · split
      · omega
      · rfl
  | negSucc m =>
    obtain ⟨l, hl, hne, hall, hv⟩ := repr_spec (m + 1)
    have hs : toString (Int.negSucc m) =
        String.mk ([] ++ (if true then ['-'] else []) ++ l ++ []) := by
      show "-" ++ toString (m + 1) = _
      rw [← hl]
      apply String.ext
      simp
    rw [hs, to_int_signed true [] l [] (by simp) hne hall (by simp), hv]
    simp only [if_true, saturate]
    simp only [INT_MAX, INT_MIN] at *
    have : Int.negSucc m = -((m + 1 : Nat) : Int) := rfl
    rw [this] at h1 h2 ⊢
    split
    · omega
    · split
      · omega
      · rfl

theorem to_int_range (str : String) : INT_MIN ≤ to_int str ∧ to_int str ≤ INT_MAX := by
  unfold to_int
  simp only [INT_MAX, INT_MIN]
  split
  · omega
  · split
    · omega
    · split
      · omega
      · omega

theorem reachable_reserved (env : Stdlib) (instructions : List instruction) (rand : List Nat)
    (cin : List Char) (s : State) (h : Reachable env instructions rand cin s) :
    (map_at s.memory "random_max").isSome = true ∧
    (map_at s.memory "random_int").isSome = true ∧
    (map_at s.memory "random_num").isSome = true := by
  induction h with
  | start labels hl => exact ⟨rfl, rfl, rfl⟩
  | step s s1 _ hstep ih =>
    obtain ⟨i, s2, _, he, h1⟩ := step_next_cases env instructions s s1 hstep
    subst h1
    have hk := (exec_next_keeps env i s s2 he).1
    exact ⟨hk _ ih.1, hk _ ih.2.1, hk _ ih.2.2⟩

/-- C23, as the claim states it, fails.  After `mov random_max, 0` the state reached
fetches `seed_random`, whose body computes `rand() % 0` and has no defined result.  After
`mov random_max, -5`, with 7 and 8 the next values of `rand()`, `seed_random` leaves
`random_int` holding `2`, and 2 is not below the -5 that `random_max` parses to. -/
theorem seed_random_bad_max :
    (∃ s1, step integer_stdlib
        [⟨MOV, some (identifier "random_max"), some (numeric "0")⟩, ⟨SEED_RANDOM, none, none⟩]
        (initial_state integer_stdlib [] [] []) = some (.next s1) ∧
      [(⟨MOV, some (identifier "random_max"), some (numeric "0")⟩ : instruction),
        ⟨SEED_RANDOM, none, none⟩][s1.cip]? = some ⟨SEED_RANDOM, none, none⟩ ∧
      exec integer_stdlib ⟨SEED_RANDOM, none, none⟩ s1 = .undefined) ∧
    run integer_stdlib
      [⟨MOV, some (identifier "random_max"), some (numeric "0")⟩, ⟨SEED_RANDOM, none, none⟩]
      [] [] 5 = some .undefined ∧
    (∃ s1 s2, step integer_stdlib
        [⟨MOV, some (identifier "random_max"), some (numeric "-5")⟩, ⟨SEED_RANDOM, none, none⟩]
        (initial_state integer_stdlib [] [1, 2, 7, 8] []) = some (.next s1) ∧
      exec integer_stdlib ⟨SEED_RANDOM, none, none⟩ s1 = .next s2 ∧
      map_at s2.memory "random_max" = some ⟨DVT_NUMERIC, "-5"⟩ ∧
      map_at s2.memory "random_int" = some ⟨DVT_NUMERIC, "2"⟩ ∧
      to_int "-5" = -5 ∧ to_int "2" = 2 ∧ ¬ (to_int "2" < to_int "-5")) := by
  refine ⟨⟨_, rfl, by decide, by decide⟩, by decide, ⟨_, _, rfl, rfl, by decide, by decide,
    by decide, by decide, by decide⟩⟩

/-- C23, amended: in every state reached by `run`, with `M` the integer that `random_max`
parses to: when `M` is 0, `seed_random` has no defined result (remainder by 0); when `M`
is not 0 it continues, `random_int` then holds the text of the integer `r1`, the next
value of `rand()` reduced modulo `M`, and `random_num` the text of the `double` converted
from `r2`, the value of `rand()` after that reduced modulo `M`; `0 ≤ r1 < M` and
`0 ≤ r2 < M` when `M` is above 0, `0 ≤ r1 < -M` and `0 ≤ r2 < -M` when `M` is below 0;
both variables keep their tag, every other variable is as it was, and so are `cip`, the
labels and the streams. -/
theorem seed_random_semantics (env : Stdlib) (instructions : List instruction)
    (rand : List Nat) (cin : List Char) (s : State) (f sa : Option data.token)
    (m : dynamic_variable) (hr : Reachable env instructions rand cin s)
    (hm : map_at s.memory "random_max" = some m) :
    (to_int m.value = 0 → exec env ⟨SEED_RANDOM, f, sa⟩ s = .undefined) ∧
    (to_int m.value ≠ 0 →
      ∃ (ri rn : dynamic_variable) (r1 r2 : Int) (s1 : State),
        map_at s.memory "random_int" = some ri ∧ map_at s.memory "random_num" = some rn ∧
        exec env ⟨SEED_RANDOM, f, sa⟩ s = .next s1 ∧
        r1 = Int.tmod (draw s.rand).1 (to_int m.value) ∧
        r2 = Int.tmod (draw (draw s.rand).2).1 (to_int m.value) ∧
        (0 < to_int m.value →
          0 ≤ r1 ∧ r1 < to_int m.value ∧ 0 ≤ r2 ∧ r2 < to_int m.value) ∧
        (to_int m.value < 0 →
          0 ≤ r1 ∧ r1 < -to_int m.value ∧ 0 ≤ r2 ∧ r2 < -to_int m.value) ∧
        map_at s1.memory "random_int" = some { ri with value := from_int r1 } ∧
        to_int (from_int r1) = r1 ∧
        map_at s1.memory "random_num" =
          some { rn with value := env.from_double (env.of_int r2) } ∧
        (∀ x, x ≠ "random_int" → x ≠ "random_num" →
          map_at s1.memory x = map_at s.memory x) ∧
        s1.cip = s.cip ∧ s1.labels = s.labels ∧ s1.cout = s.cout ∧ s1.cerr = s.cerr ∧
        s1.cin = s.cin ∧ s1.rand = (draw (draw s.rand).2).2) := by
  constructor
  · intro h0
    simp only [exec, hm, h0, if_true]
  intro hne
  obtain ⟨_, hri, hrn⟩ := reachable_reserved env instructions rand cin s hr
  obtain ⟨ri, hri⟩ := Option.isSome_iff_exists.1 hri
  obtain ⟨rn, hrn⟩ := Option.isSome_iff_exists.1 hrn
  have hrn1 : map_at (map_put s.memory "random_int"
      { ri with value := from_int (Int.tmod (draw s.rand).1 (to_int m.value)) })
      "random_num" = some rn := by
    rw [map_at_map_put_other _ _ _ _ (by decide)]
    exact hrn
  have hb1 : (0 : Int) ≤ Int.tmod (draw s.rand).1 (to_int m.value) :=
    Int.tmod_nonneg _ (Int.ofNat_nonneg _)
  have hb3 : (0 : Int) ≤ Int.tmod (draw (draw s.rand).2).1 (to_int m.value) :=
    Int.tmod_nonneg _ (Int.ofNat_nonneg _)
  have hpos : 0 < to_int m.value →
      Int.tmod (draw s.rand).1 (to_int m.value) < to_int m.value ∧
      Int.tmod (draw (draw s.rand).2).1 (to_int m.value) < to_int m.value :=
    fun h => ⟨Int.tmod_lt_of_pos _ h, Int.tmod_lt_of_pos _ h⟩
  have hneg : to_int m.value < 0 →
      Int.tmod (draw s.rand).1 (to_int m.value) < -to_int m.value ∧
      Int.tmod (draw (draw s.rand).2).1 (to_int m.value) < -to_int m.value := by
    intro h
    have h1 := Int.tmod_lt_of_pos ((draw s.rand).1 : Int) (Int.neg_pos_of_neg h)
    have h2 := Int.tmod_lt_of_pos ((draw (draw s.rand).2).1 : Int) (Int.neg_pos_of_neg h)
    rw [Int.tmod_neg] at h1 h2
    exact ⟨h1, h2⟩
  have hmax := (to_int_range m.value).2
  have hmin := (to_int_range m.value).1
  have hround : to_int (from_int (Int.tmod (draw s.rand).1 (to_int m.value))) =
      Int.tmod (draw s.rand).1 (to_int m.value) := by
    simp only [INT_MAX, INT_MIN] at hmax hmin
    apply to_int_from_int
    · simp only [INT_MIN]
      omega
    · simp only [INT_MAX]
      rcases Int.lt_or_gt_of_ne hne with h | h
      · have := (hneg h).1
        omega
      · have := (hpos h).1
        omega
  refine ⟨ri, rn, Int.tmod (draw s.rand).1 (to_int m.value),
    Int.tmod (draw (draw s.rand).2).1 (to_int m.value),
    { s with
      rand := (draw (draw s.rand).2).2
      memory := (map_put (map_put s.memory "random_int"
        { ri with value := from_int (Int.tmod (draw s.rand).1 (to_int m.value)) })
        "random_num"
        { rn with value :=
            env.from_double (env.of_int (Int.tmod (draw (draw s.rand).2).1 (to_int m.value))) }) },
    hri, hrn, ?_, rfl, rfl, fun h => ⟨hb1, (hpos h).1, hb3, (hpos h).2⟩,
    fun h => ⟨hb1, (hneg h).1, hb3, (hneg h).2⟩, ?_, hround, ?_, ?_,
    rfl, rfl, rfl, rfl, rfl, rfl⟩
  · simp only [exec, hm, hne, if_false, hri, hrn1]
  · show map_at (map_put _ _ _) _ = _
    rw [map_at_map_put_other _ _ _ _ (by decide), map_at_map_put_same]
  · show map_at (map_put _ _ _) _ = _
    rw [map_at_map_put_same]
  · intro x h1 h2
    show map_at (map_put _ _ _) _ = _
    rw [map_at_map_put_other _ _ _ _ h2, map_at_map_put_other _ _ _ _ h1]

/-- The state prepared by `run` when `rand()` gives 3, 4, 12345, 6789: `random_max` holds
`10000`. -/
theorem seed_random_semantics_witness :
    ∃ (ri rn : dynamic_variable) (r1 r2 : Int) (s1 : State),
      map_at (initial_state integer_stdlib [] [3, 4, 12345, 6789] []).memory "random_int" =
        some ri ∧
      map_at (initial_state integer_stdlib [] [3, 4, 12345, 6789] []).memory "random_num" =
        some rn ∧
      exec integer_stdlib ⟨SEED_RANDOM, none, none⟩
        (initial_state integer_stdlib [] [3, 4, 12345, 6789] []) = .next s1 ∧
      r1 = Int.tmod (draw [12345, 6789]).1 (to_int "10000") ∧
      r2 = Int.tmod (draw (draw [12345, 6789]).2).1 (to_int "10000") ∧
      (0 < to_int "10000" → 0 ≤ r1 ∧ r1 < to_int "10000" ∧ 0 ≤ r2 ∧ r2 < to_int "10000") ∧
      (to_int "10000" < 0 →
        0 ≤ r1 ∧ r1 < -to_int "10000" ∧ 0 ≤ r2 ∧ r2 < -to_int "10000") ∧
      map_at s1.memory "random_int" = some { ri with value := from_int r1 } ∧
      to_int (from_int r1) = r1 ∧
      map_at s1.memory "random_num" =
        some { rn with value := integer_stdlib.from_double (integer_stdlib.of_int r2) } ∧
      (∀ x, x ≠ "random_int" → x ≠ "random_num" → map_at s1.memory x =
        map_at (initial_state integer_stdlib [] [3, 4, 12345, 6789] []).memory x) ∧
      s1.cip = 0 ∧ s1.labels = [] ∧ s1.cout = "" ∧ s1.cerr = "" ∧ s1.cin = [] ∧
      s1.rand = (draw (draw [12345, 6789]).2).2 :=
  (seed_random_semantics integer_stdlib [] [3, 4, 12345, 6789] []
    (initial_state integer_stdlib [] [3, 4, 12345, 6789] []) none none
    ⟨DVT_NUMERIC, "10000"⟩ (Reachable.start [] rfl) rfl).2 (by decide)

/-! ## The texts of the Numeric variables -/

theorem numeric_origin_from_int (env : Stdlib) (instructions : List instruction) (n : Int) :
    numeric_origin env instructions (from_int n) :=
  Or.inl ⟨n, rfl⟩

theorem numeric_origin_from_double (env : Stdlib) (instructions : List instruction)
    (x : env.Double) : numeric_origin env instructions (env.from_double x) :=
  Or.inr (Or.inl ⟨x, rfl⟩)

theorem numeric_origin_zero (env : Stdlib) (instructions : List instruction) :
    numeric_origin env instructions "0" :=
  Or.inl ⟨0, by decide⟩

theorem numeric_origin_one (env : Stdlib) (instructions : List instruction) :
    numeric_origin env instructions "1" :=
  Or.inl ⟨1, by decide⟩

theorem numeric_invariant_put (env : Stdlib) (instructions : List instruction) (m : Memory)
    (k : String) (d : dynamic_variable) (hinv : numeric_invariant env instructions m)
    (hd : d.type = DVT_NUMERIC → numeric_origin env instructions d.value) :
    numeric_invariant env instructions (map_put m k d) := by
  intro x v hx ht
  rw [map_at_map_put] at hx
  by_cases hk : k = x
  · simp only [hk, if_true, Option.some.injEq] at hx
    subst hx
    exact hd ht
  · simp only [hk, if_false] at hx
    exact hinv x v hx ht

theorem add_variables_origin (env : Stdlib) (instructions : List instruction)
    (a b : dynamic_variable) (ht : (add_variables env a b).type = DVT_NUMERIC) :
    numeric_origin env instructions (add_variables env a b).value := by
  unfold add_variables at ht ⊢
  split
  · rename_i h
    simp only [h, if_true] at ht
    exact absurd ht (by decide)
  · split
    · exact numeric_origin_from_double env instructions _
    · rename_i h1 h2
      simp only [h1, h2, if_false] at ht
      exact absurd ht (by decide)

theorem mul_variables_origin (env : Stdlib) (instructions : List instruction)
    (a b r : dynamic_variable) (h : mul_variables env a b = some r)
    (ht : r.type = DVT_NUMERIC) : numeric_origin env instructions r.value := by
  by_cases hn : a.type = DVT_NUMERIC
  · rw [mul_variables_numeric env a b hn] at h
    simp only [Option.some.injEq] at h
    subst h
    exact numeric_origin_from_double env instructions _
  · have hs : a.type = DVT_STRING := by
      cases hat : a.type
      · exact absurd hat hn
      · rfl
    rw [mul_variables_text env a b hs] at h
    split at h
    · simp only [Option.some.injEq] at h
      subst h
      simp at ht
    · exact absurd h (by simp)

/-- An instruction of the program that continues keeps the origins of the Numeric texts. -/
theorem exec_numeric_invariant (env : Stdlib) (instructions : List instruction)
    (i : instruction) (s s1 : State) (hi : i ∈ instructions)
    (hinv : numeric_invariant env instructions s.memory) (h : exec env i s = .next s1) :
    numeric_invariant env instructions s1.memory := by
  obtain ⟨op, f_arg, s_arg⟩ := i
  cases op <;> simp only [exec, compare, set_cmp_register, unknown_variable, unknown_label] at h <;>
    (repeat' split at h) <;>
    simp only [Outcome.next.injEq, reduceCtorEq] at h <;>
    subst h <;>
    (try simp only [(cin_flush_frame s).1]) <;>
    first
      | exact hinv
      | (apply numeric_invariant_put _ _ _ _ _ hinv
         intro ht
         first
           | exact numeric_origin_from_int env instructions _
           | exact numeric_origin_from_double env instructions _
           | exact numeric_origin_one env instructions
           | exact numeric_origin_zero env instructions
           | exact add_variables_origin env instructions _ _ ht
           | exact mul_variables_origin env instructions _ _ _ (by assumption) ht
           | (simp at ht; done)
           | exact hinv _ _ (by assumption) ht
           | exact Or.inr (Or.inr ⟨_, hi, rfl, _, rfl, by assumption, rfl⟩))
      | (apply numeric_invariant_put
         · apply numeric_invariant_put _ _ _ _ _ hinv
           intro _
           exact numeric_origin_from_int env instructions _
         · intro _
           exact numeric_origin_from_double env instructions _)

theorem initial_numeric_invariant (env : Stdlib) (instructions : List instruction)
    (labels : Labels) (rand : List Nat) (cin : List Char) :
    numeric_invariant env instructions (initial_state env labels rand cin).memory := by
  intro x v hx _
  simp only [initial_state, initial_memory, map_at] at hx
  (repeat' split at hx) <;> simp only [Option.some.injEq, reduceCtorEq] at hx <;> subst hx
  · exact numeric_origin_zero env instructions
  · exact numeric_origin_from_int env instructions _
  · exact numeric_origin_from_int env instructions _
  · exact numeric_origin_from_double env instructions _

theorem reachable_numeric_invariant (env : Stdlib) (instructions : List instruction)
    (rand : List Nat) (cin : List Char) (s : State)
    (h : Reachable env instructions rand cin s) :
    numeric_invariant env instructions s.memory := by
  induction h with
  | start labels hl => exact initial_numeric_invariant env instructions labels rand cin
  | step s s1 _ hstep ih =>
    obtain ⟨i, s2, hi, he, h1⟩ := step_next_cases env instructions s s1 hstep
    subst h1
    exact exec_numeric_invariant env instructions i s s2 (List.getElem?_mem hi) ih he

/-- Whatever the `double` operations are, when `007` and `7` are read as the same `double`
writing it back cannot give both texts: after `mov a, 007` / `mov b, 7` one of the two
Numeric variables holds a text that reading and writing back changes. -/
theorem mov_literals_not_both_canonical (env : Stdlib)
    (h : env.to_double "007" = env.to_double "7") :
    env.from_double (env.to_double "007") ≠ "007" ∨
      env.from_double (env.to_double "7") ≠ "7" := by
  by_cases h1 : env.from_double (env.to_double "007") = "007"
  · right
    rw [← h, h1]
    decide
  · exact Or.inl h1

/-- C29, as the claim states it, fails: the line `mov a, 007` is lexed with `007` as a
Numeric token and parsed as one `mov` instruction, after which `a` holds `(Numeric, 007)`;
reading `007` as a number and writing it back gives `7`. -/
theorem mov_numeric_literal_verbatim :
    lex "mov a, 007" = [⟨TT_IDENTIFIER, "mov"⟩, ⟨TT_IDENTIFIER, "a"⟩, ⟨TT_COMA, ","⟩,
      ⟨TT_NUMERIC, "007"⟩] ∧
    parse (lex "mov a, 007") =
      .ok [⟨MOV, some ⟨TT_IDENTIFIER, "a"⟩, some ⟨TT_NUMERIC, "007"⟩⟩] ∧
    (∃ s1, step integer_stdlib [⟨MOV, some ⟨TT_IDENTIFIER, "a"⟩, some ⟨TT_NUMERIC, "007"⟩⟩]
        (initial_state integer_stdlib [] [] []) = some (.next s1) ∧
      map_at s1.memory "a" = some ⟨DVT_NUMERIC, "007"⟩) ∧
    integer_stdlib.from_double (integer_stdlib.to_double "007") = "7" ∧
    integer_stdlib.from_double (integer_stdlib.to_double "007") ≠ "007" := by
  refine ⟨by decide, by decide, ⟨_, rfl, by decide⟩, by decide, by decide⟩

/-- C29, amended: in every state reached by `run`, the text of every variable with the
Numeric tag is a text written by `from_int`, a text written by `from_double`, or the text
of a Numeric token that is the source of a `mov` instruction of the program; and in such a
state `mov dst, src` with a Numeric token `src` continues with `dst` holding the Numeric
tag and the text of `src` exactly as it is written, without reading it as a number. -/
theorem numeric_text_origin (env : Stdlib) (instructions : List instruction)
    (rand : List Nat) (cin : List Char) (s : State)
    (hr : Reachable env instructions rand cin s) :
    (∀ x v, map_at s.memory x = some v → v.type = DVT_NUMERIC →
      numeric_origin env instructions v.value) ∧
    (∀ dst src : data.token, src.type = TT_NUMERIC →
      exec env ⟨MOV, some dst, some src⟩ s =
        .next { s with memory := map_put s.memory dst.value ⟨DVT_NUMERIC, src.value⟩ } ∧
      map_at (map_put s.memory dst.value ⟨DVT_NUMERIC, src.value⟩) dst.value =
        some ⟨DVT_NUMERIC, src.value⟩) := by
  refine ⟨reachable_numeric_invariant env instructions rand cin s hr, ?_⟩
  intro dst src hsrc
  exact ⟨by simp [exec, hsrc], map_at_map_put_same _ _ _⟩

/-- The state reached by `mov a, 007` from the state prepared by `run`: the text of `a` is
the text of the source of that `mov`. -/
theorem numeric_text_origin_witness :
    numeric_origin integer_stdlib
      [⟨MOV, some ⟨TT_IDENTIFIER, "a"⟩, some ⟨TT_NUMERIC, "007"⟩⟩] "007" :=
  (numeric_text_origin integer_stdlib
    [⟨MOV, some ⟨TT_IDENTIFIER, "a"⟩, some ⟨TT_NUMERIC, "007"⟩⟩] [] []
    { initial_state integer_stdlib [] [] [] with
      cip := 1
      memory := (map_put (initial_state integer_stdlib [] [] []).memory "a"
        ⟨DVT_NUMERIC, "007"⟩) }
    (Reachable.step _ _ (Reachable.start [] rfl) rfl)).1 "a" ⟨DVT_NUMERIC, "007"⟩
    (by decide) rfl

/-! ## The names of the opcodes -/

theorem parse_instructions_ok (tokens : List data.token) (instructions : List instruction)
    (h : parse tokens = .ok instructions) : ∀ i ∈ instructions, instruction_ok i = true := by
  obtain ⟨st, hst, hi⟩ := parse_ok_cases tokens instructions h
  have hinv := parse_loop_invariant tokens 0 parser_start st parser_start_invariant hst
  intro i hmem
  rw [← hi] at hmem
  exact hinv.1 i hmem

/-- C36: for every name `x` of the opcodes list, `get_opcode x` is not `NONE` and
`print_opcode (get_opcode x)` is `x`; two names of the list with the same opcode are the
same name; every opcode other than `NONE` is the opcode of its printed name, which is in
the list; and no instruction of a vector returned by `parse` has the opcode `NONE`. -/
theorem opcode_names_consistent :
    (∀ x ∈ data.opcodes, get_opcode x ≠ NONE ∧ print_opcode (get_opcode x) = x) ∧
    (∀ x ∈ data.opcodes, ∀ y ∈ data.opcodes, get_opcode x = get_opcode y → x = y) ∧
    (∀ op, op ≠ NONE → print_opcode op ∈ data.opcodes ∧ get_opcode (print_opcode op) = op) ∧
    (∀ tokens instructions, parse tokens = .ok instructions →
      ∀ i ∈ instructions, i.op ≠ NONE) := by
  have h1 : ∀ x ∈ data.opcodes, get_opcode x ≠ NONE ∧ print_opcode (get_opcode x) = x :=
    fun x hx => is_opcode_get_opcode x (by simpa [is_opcode] using hx)
  refine ⟨h1, ?_, ?_, ?_⟩
  · intro x hx y hy hxy
    rw [← (h1 x hx).2, ← (h1 y hy).2, hxy]
  · intro op hop
    obtain ⟨hg, hi⟩ := get_opcode_print_opcode op hop
    exact ⟨by simpa [is_opcode] using hi, hg⟩
  · intro tokens instructions h i hi
    exact (instruction_ok_spec i (parse_instructions_ok tokens instructions h i hi)).1

/-- The names `jz` and `jnz` of the list, and the instruction parsed from `out x`. -/
theorem opcode_names_consistent_witness :
    (get_opcode "jz" ≠ NONE ∧ print_opcode (get_opcode "jz") = "jz") ∧
    (get_opcode "jz" = get_opcode "jnz" → "jz" = "jnz") ∧
    (⟨OUT, some ⟨TT_IDENTIFIER, "x"⟩, none⟩ : instruction).op ≠ NONE :=
  ⟨opcode_names_consistent.1 "jz" (by decide),
   opcode_names_consistent.2.1 "jz" (by decide) "jnz" (by decide),
   opcode_names_consistent.2.2.2 [⟨TT_IDENTIFIER, "out"⟩, ⟨TT_IDENTIFIER, "x"⟩]
     [⟨OUT, some ⟨TT_IDENTIFIER, "x"⟩, none⟩] (by decide) _ (List.mem_singleton_self _)⟩

/-! ## A label defined more than once -/

theorem last_label_greatest (name : String) (instructions : List instruction) (k : Nat)
    (h : last_label name instructions = some k) (j : Nat) (i : instruction)
    (hj : instructions[j]? = some i) (hi : is_label name i = true) : j ≤ k := by
  induction instructions generalizing k j with
  | nil => simp at hj
  | cons i0 rest ih =>
    rw [last_label] at h
    cases j with
    | zero => exact Nat.zero_le _
    | succ j1 =>
      simp only [List.getElem?_cons_succ] at hj
      cases hl : last_label name rest with
      | some k1 =>
        simp only [hl, Option.some.injEq] at h
        subst h
        exact Nat.succ_le_succ (ih k1 hl j1 hj)
      | none =>
        obtain ⟨k2, hk2⟩ := last_label_defined name rest j1 i hj hi
        rw [hl] at hk2
        exact absurd hk2 (by simp)

theorem last_label_of_greatest (name : String) (instructions : List instruction) (k : Nat)
    (hk : ∃ i, instructions[k]? = some i ∧ is_label name i = true)
    (hg : ∀ (j : Nat) (i : instruction), instructions[j]? = some i → is_label name i = true →
      j ≤ k) : last_label name instructions = some k := by
  obtain ⟨i, hi, hlab⟩ := hk
  obtain ⟨k1, hk1⟩ := last_label_defined name instructions k i hi hlab
  obtain ⟨i1, hi1, hlab1⟩ := last_label_is_label name instructions k1 hk1
  have h1 : k ≤ k1 := last_label_greatest name instructions k1 hk1 k i hi hlab
  have h2 : k1 ≤ k := hg k1 i1 hi1 hlab1
  rw [hk1, Nat.le_antisymm h2 h1]

theorem last_label_none (name : String) (instructions : List instruction)
    (h : ∀ (j : Nat) (i : instruction), instructions[j]? = some i → is_label name i = false) :
    last_label name instructions = none := by
  cases hl : last_label name instructions with
  | none => rfl
  | some k =>
    obtain ⟨i, hi, hlab⟩ := last_label_is_label name instructions k hl
    rw [h k i hi] at hlab
    exact absurd hlab (by decide)

/-- The prepass ends on every vector of instructions that satisfy the instruction
invariant: a `label` instruction then has its argument. -/
theorem build_labels_total (instructions : List instruction) (cip : Nat) (acc : Labels)
    (h : ∀ i ∈ instructions, instruction_ok i = true) :
    ∃ labels, build_labels instructions cip acc = some labels := by
  induction instructions generalizing cip acc with
  | nil => exact ⟨acc, rfl⟩
  | cons i rest ih =>
    have hrest : ∀ j ∈ rest, instruction_ok j = true :=
      fun j hj => h j (List.mem_cons_of_mem _ hj)
    obtain ⟨_, _, hcases, _⟩ := instruction_ok_spec i (h i (List.mem_cons_self _ _))
    rw [build_labels]
    by_cases hop : i.op = LABEL
    · rw [hop] at hcases
      rcases hcases with ⟨h0, _⟩ | ⟨_, t, hf, _⟩ | ⟨h2, _⟩
      · exact absurd h0 (by decide)
      · simp only [hop, if_true, hf]
        exact ih _ _ hrest
      · exact absurd h2 (by decide)
    · simp only [hop, if_false]
      exact ih _ _ hrest

/-- C33: let `k` be the greatest index of a `label` instruction naming `name`.  The label
index built by the prepass of `run` maps `name` to `k` (and to nothing a name that no
`label` instruction carries); the prepass ends on every vector of instructions that
satisfy the instruction invariant; and in every state reached by `run` the label index
still maps `name` to `k`, so a `jmp name`, a `jnz name` with `cmp_register` not 0 and a
`jz name` with `cmp_register` 0 set `cip` to `k`. -/
theorem last_label_wins (env : Stdlib) (instructions : List instruction) (rand : List Nat)
    (cin : List Char) (name : String) (k : Nat)
    (hk : ∃ i, instructions[k]? = some i ∧ is_label name i = true)
    (hg : ∀ (j : Nat) (i : instruction), instructions[j]? = some i → is_label name i = true →
      j ≤ k) :
    (∀ labels, build_labels instructions 0 [] = some labels →
      map_at labels name = some k ∧
      ∀ other, (∀ (j : Nat) (i : instruction), instructions[j]? = some i →
        is_label other i = false) → map_at labels other = none) ∧
    ((∀ i ∈ instructions, instruction_ok i = true) →
      ∃ labels, build_labels instructions 0 [] = some labels) ∧
    (∀ s, Reachable env instructions rand cin s →
      map_at s.labels name = some k ∧
      (∀ t sa, exec env ⟨JMP, some ⟨t, name⟩, sa⟩ s = .next { s with cip := k }) ∧
      (∀ t sa r, map_at s.memory "cmp_register" = some r → to_int r.value ≠ 0 →
        exec env ⟨JNZ, some ⟨t, name⟩, sa⟩ s = .next { s with cip := k }) ∧
      (∀ t sa r, map_at s.memory "cmp_register" = some r → to_int r.value = 0 →
        exec env ⟨JZ, some ⟨t, name⟩, sa⟩ s = .next { s with cip := k })) := by
  have hlast := last_label_of_greatest name instructions k hk hg
  refine ⟨?_, build_labels_total instructions 0 [], ?_⟩
  · intro labels hb
    constructor
    · have := build_labels_at name instructions 0 [] labels hb
      rw [hlast] at this
      simpa using this
    · intro other hother
      have := build_labels_at other instructions 0 [] labels hb
      rw [last_label_none other instructions hother] at this
      simpa [map_at] using this
  · intro s hs
    have hl := (reachable_invariant env instructions rand cin s hs).2 name k hlast
    refine ⟨hl, fun t sa => exec_jmp env s t name sa k hl, ?_, ?_⟩
    · intro t sa r hr hc
      rw [exec_jnz env s t name sa k r hr hl]
      simp [hc]
    · intro t sa r hr hc
      rw [exec_jz env s t name sa k r hr hl]
      simp [hc]

/-- The program `label a` / `label a` / `jmp a`: the index maps `a` to 1. -/
theorem last_label_wins_witness :
    map_at [("a", 1)] "a" = some 1 ∧
    ∀ other, (∀ (j : Nat) (i : instruction),
        [(⟨LABEL, some ⟨TT_IDENTIFIER, "a"⟩, none⟩ : instruction),
          ⟨LABEL, some ⟨TT_IDENTIFIER, "a"⟩, none⟩,
          ⟨JMP, some ⟨TT_IDENTIFIER, "a"⟩, none⟩][j]? = some i →
        is_label other i = false) → map_at [("a", 1)] other = none :=
  (last_label_wins integer_stdlib
    [⟨LABEL, some ⟨TT_IDENTIFIER, "a"⟩, none⟩, ⟨LABEL, some ⟨TT_IDENTIFIER, "a"⟩, none⟩,
      ⟨JMP, some ⟨TT_IDENTIFIER, "a"⟩, none⟩] [] [] "a" 1 ⟨_, rfl, rfl⟩
    (by
      intro j i hj hi
      match j with
      | 0 => exact Nat.zero_le _
      | 1 => exact Nat.le_refl _
      | 2 =>
        simp only [List.getElem?_cons_succ, List.getElem?_cons_zero, Option.some.injEq] at hj
        subst hj
        exact absurd hi (by decide)
      | n + 3 => simp at hj)).1 [("a", 1)] rfl

/-! ## Tokens left over at the end of `parse` -/

theorem parse_loop_append (a b : List data.token) (n : Nat) (st st1 : parser_state)
    (h : parse_loop a n st = .ok st1) :
    parse_loop (a ++ b) n st = parse_loop b (n + a.length) st1 := by
  induction a generalizing n st with
  | nil =>
    simp only [parse_loop, parse_result.ok.injEq] at h
    subst h
    simp
  | cons g rest ih =>
    rw [parse_loop] at h
    rw [List.cons_append, parse_loop]
    cases ht : parse_token st n g with
    | ok st2 =>
      rw [ht] at h
      simp only []
      rw [ih (n + 1) st2 h]
      simp [Nat.add_assoc, Nat.add_comm 1]
    | unexpected_token j t e => simp [ht] at h
    | unknown_parser_error => simp [ht] at h

/-- The loop of `parse` on the first `k` tokens of an instruction, with `k` above 0 and
below the number of its tokens, ends without error and pushes nothing. -/
theorem parse_loop_incomplete (j : instruction) (k n : Nat) (acc : List instruction)
    (hj : instruction_ok j = true) (h0 : 0 < k) (hk : k < (render j).length) :
    ∃ st, parse_loop ((render j).take k) n ⟨acc, ⟨NONE, none, none⟩, ET_OPCODE, IE_OPCODE⟩ =
        .ok st ∧ st.instructions = acc ∧ st.instruction_element ≠ IE_OPCODE := by
  obtain ⟨hop, _, hcases, _⟩ := instruction_ok_spec j hj
  obtain ⟨op, f_arg, s_arg⟩ := j
  obtain ⟨hget, hisop⟩ := get_opcode_print_opcode op hop
  simp only at hop hcases hget hisop
  have hopc : match_expectation ET_OPCODE ⟨TT_IDENTIFIER, print_opcode op⟩ = true := by
    simp [match_expectation, hisop]
  have hcoma : match_expectation ET_COMA ⟨TT_COMA, ","⟩ = true := rfl
  rcases hcases with ⟨_, hf, hs⟩ | ⟨h1, t, hf, hs, hm⟩ | ⟨h2, t1, t2, hf, hs, hm1, hm2⟩
  · subst hf hs
    simp only [render, List.length_cons, List.length_nil] at hk
    omega
  · subst hf hs
    simp only [render, List.length_cons, List.length_nil] at hk
    have hk1 : k = 1 := by omega
    subst hk1
    exact ⟨⟨acc, ⟨op, none, none⟩, get_expected_argument_type op 1, IE_FARG⟩,
      by simp [render, parse_loop, parse_token, hopc, hget, h1, IE_OPCODE, IE_FARG],
      rfl, by simp [IE_OPCODE, IE_FARG, IE_COMA, IE_SARG]⟩
  · subst hf hs
    simp only [render, List.length_cons, List.length_nil] at hk
    have hk3 : k = 1 ∨ k = 2 ∨ k = 3 := by omega
    rcases hk3 with hk1 | hk1 | hk1 <;> subst hk1
    · exact ⟨⟨acc, ⟨op, none, none⟩, get_expected_argument_type op 1, IE_FARG⟩,
        by simp [render, parse_loop, parse_token, hopc, hget, h2, IE_OPCODE, IE_FARG],
        rfl, by simp [IE_OPCODE, IE_FARG, IE_COMA, IE_SARG]⟩
    · exact ⟨⟨acc, ⟨op, some t1, none⟩, ET_COMA, IE_COMA⟩,
        by simp [render, parse_loop, parse_token, hopc, hget, h2, hm1, IE_OPCODE,
          IE_FARG, IE_COMA], rfl, by simp [IE_OPCODE, IE_FARG, IE_COMA, IE_SARG]⟩
    · exact ⟨⟨acc, ⟨op, some t1, none⟩, get_expected_argument_type op 2, IE_SARG⟩,
        by simp [render, parse_loop, parse_token, hopc, hcoma, hget, h2, hm1,
          IE_OPCODE, IE_FARG, IE_COMA, IE_SARG], rfl, by simp [IE_OPCODE, IE_FARG, IE_COMA, IE_SARG]⟩

/-- C31: let `instructions` satisfy the instruction invariant and `R` be their tokens;
let `j` satisfy it too and `P` be the first `k` tokens of `j`, with `k` above 0 and below
the number of tokens of `j`.  Then `parse (R ++ P)` returns `instructions`, as `parse R`
does: the loop ends with the element of `j` it awaits still missing, and nothing reports
it. -/
theorem parse_drops_incomplete (instructions : List instruction) (j : instruction) (k : Nat)
    (h : ∀ i ∈ instructions, instruction_ok i = true) (hj : instruction_ok j = true)
    (h0 : 0 < k) (hk : k < (render j).length) :
    parse (instructions.flatMap render ++ (render j).take k) = .ok instructions ∧
    parse (instructions.flatMap render) = .ok instructions ∧
    (parse (instructions.flatMap render ++ (render j).take k)).message = "" ∧
    ∃ st, parse_loop (instructions.flatMap render ++ (render j).take k) 0 parser_start =
        .ok st ∧ st.instruction_element ≠ IE_OPCODE := by
  have hR := parse_loop_renders instructions 0 [] h
  simp only [List.nil_append] at hR
  obtain ⟨st, hst, hacc, hel⟩ := parse_loop_incomplete j k
    (0 + (instructions.flatMap render).length) instructions hj h0 hk
  have happ := parse_loop_append (instructions.flatMap render) ((render j).take k) 0
    parser_start _ hR
  have hfull : parse_loop (instructions.flatMap render ++ (render j).take k) 0 parser_start =
      .ok st := by
    rw [happ, hst]
  have hparse : parse (instructions.flatMap render ++ (render j).take k) = .ok instructions := by
    simp only [parse, hfull, hacc]
  refine ⟨hparse, ?_, ?_, st, hfull, hel⟩
  · simp only [parse, parser_start, hR]
  · rw [hparse]
    rfl

/-- The tokens of `stop`, then the first three tokens of `mov a, 5`. -/
theorem parse_drops_incomplete_witness :
    parse ([(⟨STOP, none, none⟩ : instruction)].flatMap render ++
        (render ⟨MOV, some ⟨TT_IDENTIFIER, "a"⟩, some ⟨TT_NUMERIC, "5"⟩⟩).take 3) =
      .ok [⟨STOP, none, none⟩] :=
  (parse_drops_incomplete [⟨STOP, none, none⟩]
    ⟨MOV, some ⟨TT_IDENTIFIER, "a"⟩, some ⟨TT_NUMERIC, "5"⟩⟩ 3 (by decide) (by decide)
    (by decide) (by decide)).1

/-! ## A string left open at the end of the line -/

theorem scan_unterminated (s : List Char) (hne : s ≠ [])
    (hs : ∀ c ∈ s, c ≠ '"' ∧ c ≠ '\\') :
    scan ('"' :: s) =
      [{ type := if s = [','] then TT_COMA
                 else if is_number (String.mk s) then TT_NUMERIC else TT_IDENTIFIER,
         value := String.mk s }] := by
  have h0 : lex_char ⟨[], [], false, false⟩ '"' = ⟨[], [], true, false⟩ := by
    simp [lex_char]
  simp only [scan, List.foldl_cons, h0, foldl_lex_char_in_string s [] [] hs, List.nil_append]
  simp [lex_flush, hne]

/-- C32: for every non-empty `s` without double quote and backslash whose last character
is no whitespace, the line made of a double quote and `s` is lexed as exactly one token,
whose text is `s` and whose type is Comma when `s` is `,`, Numeric when `is_number s`, and
Identifier otherwise, so never String; the same holds of `lex` on the text that consists
of this line, when `s` holds no newline. -/
theorem lex_unterminated (s : List Char) (hne : s ≠ [])
    (hs : ∀ c ∈ s, c ≠ '"' ∧ c ≠ '\\')
    (hlast : ∀ c, s.getLast? = some c → isspace c = false) :
    lex_line [] ('"' :: s) =
      [{ type := if s = [','] then TT_COMA
                 else if is_number (String.mk s) then TT_NUMERIC else TT_IDENTIFIER,
         value := String.mk s }] ∧
    (∀ t ∈ lex_line [] ('"' :: s), t.type ≠ TT_STRING ∧ t.value = String.mk s) ∧
    ((∀ c ∈ s, c ≠ '\n') →
      lex (String.mk ('"' :: s)) =
        [{ type := if s = [','] then TT_COMA
                   else if is_number (String.mk s) then TT_NUMERIC else TT_IDENTIFIER,
           value := String.mk s }]) := by
  have hline : lex_line [] ('"' :: s) =
      [{ type := if s = [','] then TT_COMA
                 else if is_number (String.mk s) then TT_NUMERIC else TT_IDENTIFIER,
         value := String.mk s }] := by
    cases hl : s.getLast? with
    | none => exact absurd (List.getLast?_eq_none_iff.1 hl) hne
    | some c2 =>
      have hl2 : ('"' :: s).getLast? = some c2 := by
        obtain ⟨a, r, har⟩ := List.exists_cons_of_ne_nil hne
        rw [har] at hl ⊢
        rw [List.getLast?_cons_cons]
        exact hl
      rw [lex_line_scan ('"' :: s) '"' c2 rfl hl2 (by decide) (hlast c2 hl) (by decide)]
      exact scan_unterminated s hne hs
  refine ⟨hline, ?_, fun hnl => ?_⟩
  · intro t ht
    rw [hline, List.mem_singleton] at ht
    subst ht
    refine ⟨?_, rfl⟩
    simp only []
    split
    · decide
    · split <;> decide
  · rw [lex_one_line _ (by simp), hline]
    intro c hc hcn
    subst hcn
    simp at hc
    exact hnl _ hc rfl

/-- The lines `"a, b c`, `"12.5` and `",`, opening quote included. -/
theorem lex_unterminated_witness :
    lex_line [] ('"' :: "a, b c".data) = [⟨TT_IDENTIFIER, "a, b c"⟩] ∧
    lex_line [] ('"' :: "12.5".data) = [⟨TT_NUMERIC, "12.5"⟩] ∧
    lex_line [] ('"' :: ",".data) = [⟨TT_COMA, ","⟩] :=
  ⟨(lex_unterminated "a, b c".data (by decide) (by decide) (by decide)).1,
   (lex_unterminated "12.5".data (by decide) (by decide) (by decide)).1,
   (lex_unterminated ",".data (by decide) (by decide) (by decide)).1⟩

/-! ## Lexing line by line -/

theorem lex_line_prepend (tokens : List data.token) (line : List Char) :
    lex_line tokens line = tokens ++ lex_line [] line := by
  by_cases h : trim line = [] ∨ (trim line).head? = some ';'
  · rw [lex_line_comment tokens line h, lex_line_comment [] line h]
    simp
  · have h1 : trim line ≠ [] := fun hc => h (Or.inl hc)
    have h2 : (trim line).head? ≠ some ';' := fun hc => h (Or.inr hc)
    rw [lex_line_append_scan tokens line h1 h2, lex_line_append_scan [] line h1 h2]
    simp

theorem foldl_lex_line_prepend (lines : List (List Char)) (tokens : List data.token) :
    lines.foldl lex_line tokens = tokens ++ lines.foldl lex_line [] := by
  induction lines generalizing tokens with
  | nil => simp
  | cons l rest ih =>
    rw [List.foldl_cons, List.foldl_cons, ih (lex_line tokens l), ih (lex_line [] l),
      lex_line_prepend tokens l]
    simp

theorem foldl_getlines_append (cs t2 : List Char) (line : List Char)
    (tokens : List data.token) :
    (getlines line (cs ++ '\n' :: t2)).foldl lex_line tokens =
      (getlines [] t2).foldl lex_line ((getlines line cs).foldl lex_line tokens) := by
  induction cs generalizing line tokens with
  | nil =>
    simp only [List.nil_append, getlines, if_true]
    by_cases hl : line = []
    · subst hl
      simp [lex_line_comment tokens [] (Or.inl rfl)]
    · simp [hl]
  | cons c rest ih =>
    by_cases hc : c = '\n'
    · subst hc
      simp only [List.cons_append, getlines, if_true, List.foldl_cons]
      exact ih [] (lex_line tokens line)
    · simp only [List.cons_append, getlines, hc, if_false]
      exact ih (line ++ [c]) tokens

/-- C34: for all texts `t1` and `t2`, the tokens of `t1`, a newline, then `t2` are the
tokens of `t1` followed by the tokens of `t2`.  So a string left open on a line does not
reach into the next line, and the tokens do not tell where the lines end: `mov a, 1` and
`out a` give the same tokens on one line, on two lines, and on four lines with a line
break after the comma and after `out`. -/
theorem lex_append_lines (t1 t2 : String) :
    lex (t1 ++ "\n" ++ t2) = lex t1 ++ lex t2 ∧
    lex "out \"ab\nstop" =
      [⟨TT_IDENTIFIER, "out"⟩, ⟨TT_IDENTIFIER, "ab"⟩, ⟨TT_IDENTIFIER, "stop"⟩] ∧
    lex "mov a, 1 out a" =
      [⟨TT_IDENTIFIER, "mov"⟩, ⟨TT_IDENTIFIER, "a"⟩, ⟨TT_COMA, ","⟩, ⟨TT_NUMERIC, "1"⟩,
        ⟨TT_IDENTIFIER, "out"⟩, ⟨TT_IDENTIFIER, "a"⟩] ∧
    lex "mov a, 1\nout a" =
      [⟨TT_IDENTIFIER, "mov"⟩, ⟨TT_IDENTIFIER, "a"⟩, ⟨TT_COMA, ","⟩, ⟨TT_NUMERIC, "1"⟩,
        ⟨TT_IDENTIFIER, "out"⟩, ⟨TT_IDENTIFIER, "a"⟩] ∧
    lex "mov a,\n1\nout\na" =
      [⟨TT_IDENTIFIER, "mov"⟩, ⟨TT_IDENTIFIER, "a"⟩, ⟨TT_COMA, ","⟩, ⟨TT_NUMERIC, "1"⟩,
        ⟨TT_IDENTIFIER, "out"⟩, ⟨TT_IDENTIFIER, "a"⟩] := by
  refine ⟨?_, by decide, by decide, by decide, by decide⟩
  have hd : (t1 ++ "\n" ++ t2).data = t1.data ++ '\n' :: t2.data := by
    simp [String.data_append]
  unfold lex
  rw [hd, foldl_getlines_append, foldl_lex_line_prepend]

/-! ## The characters of a line without double quote -/

theorem token_texts_append (a b : List data.token) :
    token_texts (a ++ b) = token_texts a ++ token_texts b := by
  simp [token_texts, List.flatMap_append]

theorem plain_word_token (word : List Char) (hne : word ≠ [])
    (hw : ∀ d ∈ word, d ≠ ',' ∧ isspace d = false) : plain_token (word_token word) :=
  Or.inr ⟨word_token_kind word, hne, hw⟩

theorem lex_char_plain (tokens : List data.token) (word : List Char) (c : Char)
    (hq : c ≠ '"') (ht : ∀ t ∈ tokens, plain_token t)
    (hw : ∀ d ∈ word, d ≠ ',' ∧ isspace d = false) :
    ∃ tokens1 word1, lex_char ⟨tokens, word, false, false⟩ c = ⟨tokens1, word1, false, false⟩ ∧
      (∀ t ∈ tokens1, plain_token t) ∧ (∀ d ∈ word1, d ≠ ',' ∧ isspace d = false) ∧
      token_texts tokens1 ++ word1 = token_texts tokens ++ word ++ remove_whitespace [c] := by
  have hnil : ∀ d ∈ ([] : List Char), d ≠ ',' ∧ isspace d = false := by simp
  by_cases hc : c = ','
  · subst hc
    have hrw : remove_whitespace [','] = [','] := by decide
    by_cases hne : word = []
    · refine ⟨tokens ++ [⟨TT_COMA, ","⟩], [], by simp [lex_char, push_word, hne], ?_, hnil, ?_⟩
      · intro t htm
        rcases List.mem_append.1 htm with h | h
        · exact ht t h
        · rw [List.mem_singleton] at h
          exact Or.inl h
      · rw [token_texts_append, hrw, hne]
        simp [token_texts]
    · refine ⟨tokens ++ [word_token word, ⟨TT_COMA, ","⟩], [],
        by simp [lex_char, push_word, hne], ?_, hnil, ?_⟩
      · intro t htm
        rcases List.mem_append.1 htm with h | h
        · exact ht t h
        · simp only [List.mem_cons, List.mem_singleton, List.not_mem_nil, or_false] at h
          rcases h with h | h
          · rw [h]
            exact plain_word_token word hne hw
          · exact Or.inl h
      · rw [token_texts_append, hrw]
        simp [token_texts, word_token]
  · by_cases hsp : isspace c = true
    · have hrw : remove_whitespace [c] = [] := by simp [remove_whitespace, hsp]
      by_cases hne : word = []
      · refine ⟨tokens, word, by simp [lex_char, push_word, hc, hq, hsp, hne], ht, hw, ?_⟩
        rw [hrw]
        simp
      · refine ⟨tokens ++ [word_token word], [],
          by simp [lex_char, push_word, hc, hq, hsp, hne], ?_, hnil, ?_⟩
        · intro t htm
          rcases List.mem_append.1 htm with h | h
          · exact ht t h
          · rw [List.mem_singleton] at h
            rw [h]
            exact plain_word_token word hne hw
        · rw [token_texts_append, hrw]
          simp [token_texts, word_token]
    · have hsp1 : isspace c = false := by simpa using hsp
      have hrw : remove_whitespace [c] = [c] := by simp [remove_whitespace, hsp1]
      refine ⟨tokens, word ++ [c], by simp [lex_char, hc, hq, hsp], ht, ?_, ?_⟩
      · intro d hd
        rcases List.mem_append.1 hd with h | h
        · exact hw d h
        · rw [List.mem_singleton] at h
          rw [h]
          exact ⟨hc, hsp1⟩
      · rw [hrw]
        simp

theorem foldl_plain (cs : List Char) (tokens : List data.token) (word : List Char)
    (hq : ∀ c ∈ cs, c ≠ '"') (ht : ∀ t ∈ tokens, plain_token t)
    (hw : ∀ d ∈ word, d ≠ ',' ∧ isspace d = false) :
    ∃ tokens1 word1, cs.foldl lex_char ⟨tokens, word, false, false⟩ =
        ⟨tokens1, word1, false, false⟩ ∧
      (∀ t ∈ tokens1, plain_token t) ∧ (∀ d ∈ word1, d ≠ ',' ∧ isspace d = false) ∧
      token_texts tokens1 ++ word1 = token_texts tokens ++ word ++ remove_whitespace cs := by
  induction cs generalizing tokens word with
  | nil => exact ⟨tokens, word, rfl, ht, hw, by simp [remove_whitespace]⟩
  | cons c rest ih =>
    obtain ⟨t1, w1, h1, ht1, hw1, he1⟩ :=
      lex_char_plain tokens word c (hq c (List.mem_cons_self _ _)) ht hw
    obtain ⟨t2, w2, h2, ht2, hw2, he2⟩ :=
      ih t1 w1 (fun d hd => hq d (List.mem_cons_of_mem _ hd)) ht1 hw1
    refine ⟨t2, w2, by rw [List.foldl_cons, h1, h2], ht2, hw2, ?_⟩
    have hsplit : remove_whitespace (c :: rest) =
        remove_whitespace [c] ++ remove_whitespace rest := by
      simp only [remove_whitespace]
      rw [← List.filter_append]
      rfl
    rw [he2, he1, hsplit]
    simp

theorem scan_plain (l : List Char) (hq : ∀ c ∈ l, c ≠ '"') :
    token_texts (scan l) = remove_whitespace l ∧ ∀ t ∈ scan l, plain_token t := by
  obtain ⟨t1, w1, hf, ht1, hw1, he⟩ := foldl_plain l [] [] hq (by simp) (by simp)
  have hne : w1 ≠ [','] := by
    intro h
    exact (hw1 ',' (by rw [h]; exact List.mem_singleton_self _)).1 rfl
  simp only [token_texts, List.flatMap_nil, List.nil_append, List.append_nil] at he
  by_cases hw : w1 = []
  · have hs : scan l = t1 := by simp [scan, hf, lex_flush, hw]
    rw [hs]
    refine ⟨?_, ht1⟩
    rw [← he, hw]
    simp [token_texts]
  · have hs : scan l = t1 ++ [word_token w1] := by
      simp [scan, hf, lex_flush, hw, hne, word_token]
    rw [hs]
    refine ⟨?_, ?_⟩
    · rw [token_texts_append, ← he]
      simp [token_texts, word_token]
    · intro t ht
      rcases List.mem_append.1 ht with h | h
      · exact ht1 t h
      · rw [List.mem_singleton] at h
        rw [h]
        exact plain_word_token w1 hw hw1

theorem remove_whitespace_dropWhile (l : List Char) :
    remove_whitespace (l.dropWhile isspace) = remove_whitespace l := by
  induction l with
  | nil => rfl
  | cons c rest ih =>
    by_cases hsp : isspace c = true
    · simp only [List.dropWhile, hsp]
      rw [ih]
      simp [remove_whitespace, hsp]
    · simp [List.dropWhile, hsp]

theorem remove_whitespace_trim (l : List Char) :
    remove_whitespace (trim l) = remove_whitespace l := by
  have hrev : ∀ m : List Char, remove_whitespace m.reverse = (remove_whitespace m).reverse := by
    intro m
    simp [remove_whitespace, List.filter_reverse]
  unfold trim
  rw [hrev, remove_whitespace_dropWhile, hrev, List.reverse_reverse,
    remove_whitespace_dropWhile]

/-- C35: for every line without double quote whose trimmed form does not start with `;`,
the texts of the tokens that `lex_line` makes of it, put one after the other, are the
characters of the line that are no whitespace, in their order; every token is the Comma
token with the text `,` or a Numeric or Identifier token whose text is not empty and
holds no comma and no whitespace; none is a String.  The same holds of `lex` on the text
that consists of this line, when the line is not empty and holds no newline. -/
theorem lex_line_characters (line : List Char) (hq : ∀ c ∈ line, c ≠ '"')
    (hsemi : (trim line).head? ≠ some ';') :
    token_texts (lex_line [] line) = remove_whitespace line ∧
    (∀ t ∈ lex_line [] line,
      (t.type = TT_COMA → t.value = ",") ∧
      (t.type = TT_NUMERIC ∨ t.type = TT_IDENTIFIER →
        t.value.data ≠ [] ∧ ∀ c ∈ t.value.data, c ≠ ',' ∧ isspace c = false) ∧
      t.type ≠ TT_STRING) ∧
    (line ≠ [] → (∀ c ∈ line, c ≠ '\n') →
      token_texts (lex (String.mk line)) = remove_whitespace line) := by
  have hqt : ∀ c ∈ trim line, c ≠ '"' := fun c hc => hq c (mem_of_mem_trim line c hc)
  have hline : lex_line [] line = scan (trim line) := by
    by_cases hne : trim line = []
    · rw [lex_line_comment [] line (Or.inl hne), hne]
      rfl
    · rw [lex_line_append_scan [] line hne hsemi]
      simp
  obtain ⟨htext, hplain⟩ := scan_plain (trim line) hqt
  have h1 : token_texts (lex_line [] line) = remove_whitespace line := by
    rw [hline, htext, remove_whitespace_trim]
  refine ⟨h1, ?_, ?_⟩
  · intro t ht
    rw [hline] at ht
    rcases hplain t ht with h | ⟨hk, hne, hall⟩
    · subst h
      exact ⟨fun _ => rfl, fun hc => by simp at hc, by decide⟩
    · refine ⟨fun hc => ?_, fun _ => ⟨hne, hall⟩, ?_⟩
      · rcases hk with hk | hk <;> rw [hk] at hc <;> exact absurd hc (by decide)
      · rcases hk with hk | hk <;> rw [hk] <;> decide
  · intro hne hnl
    rw [lex_one_line line hne hnl, h1]

/-- The line ` mov a,5 `, with a blank at each end. -/
theorem lex_line_characters_witness :
    token_texts (lex_line [] " mov a,5 ".data) = remove_whitespace " mov a,5 ".data :=
  (lex_line_characters " mov a,5 ".data (by decide) (by decide)).1

/-! ## Programs without jumps -/

end SmallThink
